import Mathlib

/-!
# A verification model of `inifinite_maze_09.js` (Infinite Maze Contraption)

This file is a shallow embedding of the maze engine in
`src/inifinite_maze_09.js`.  Modelling conventions:

* JavaScript `Block` and `Path` objects are mutable heap objects referenced
  from many places (the maze rows, the `paths` array, `subPath` arrays,
  `adjacentBlocks` lists, the character).  We model them as entries of two
  append-only heaps (`St.blocks`, `St.pathHeap`) addressed by `Nat` ids, so
  aliasing and mutation-through-references behave exactly as in the source.
* A JavaScript `TypeError` (reading a property of `undefined`, e.g.
  `maze.rows[-1].blocks`) aborts the event handler but the global state
  mutated so far persists.  We model computations as
  `M α = St → Option α × St`; a crash is `(none, st)` with `st` the state at
  the moment of the crash.  Out-of-bounds array reads in the source are
  always immediately followed by a property access, so reading out of
  bounds crashes in the model exactly where the source throws.
* `Math.floor(Math.random() * n)` is modelled by popping one value `v` from
  an explicit stream and returning `v % n` (`0` when `n = 0`, matching
  `Math.floor(x * 0) = 0`).  Universal statements quantify over all
  streams; each concrete run fixes one stream.
* The four `while` loops of the source take a fuel argument; exhausted fuel
  yields `(none, st)`.  Since crashes also yield `none`, every `some`
  result of the model is the genuine result of the JavaScript program.
* Pixel geometry (`Point`, `centerPoint`, `squareLength`, canvas drawing)
  is omitted: no claim mentions pixel coordinates, and the geometry feeds
  back into the engine only through the row/point counts of
  `makePointGrid`, which are kept (`(n+1)*3` point rows of `n+1` points).
  The rebase threshold in `moveUp` compares an integer row index with
  `maze.rows.length * (5/6) - 1`; since `maze.rows.length = 3*n+1` is never
  divisible by 6 the comparison has no integer boundary case, and the
  double-precision error of `5/6` (about 1e-16) cannot bridge the gap of at
  least `1/6` to the nearest integer, so the exact integer comparison
  `6*r + 6 < 5*len` is faithful.
* The source fixes `numberOfRowBlocks = 30` but its header comment
  documents it as the adjustable configuration value ("The number of blocks
  in the grid can conveniently be changed by adjusting numberOfRowBlocks");
  the model takes it as the parameter `St.nBlocks`.
-/

namespace Maze

/-- The default value of `numberOfRowBlocks` in the source. -/
def numberOfRowBlocks : Nat := 30

/-- A maze `Block` (pixel geometry omitted, see the file header). -/
structure Blk where
  isWall : Bool
  rowIndex : Nat
  blockIndex : Nat
  adjacentBlocks : List Nat
  numberOfAdjacentWalls : Nat
deriving Repr, DecidableEq

/-- A `Path` object: its ordered `subPath` of block ids and its
`distance` (target length) field. -/
structure PathD where
  subPath : List Nat
  distance : Nat
deriving Repr, DecidableEq

/-- The global mutable state of the program.  `blocks` and `pathHeap` are
append-only object heaps; every other field mirrors a global variable of
the source. -/
structure St where
  nBlocks : Nat
  blocks : List Blk
  mazeRows : List (List Nat)
  pathHeap : List PathD
  paths : List Nat
  mainPathId : Option Nat
  pathSeeds : List Nat
  secondSeeds : List Nat
  pathsToSplice : List Nat
  character : Option Nat
  rng : List Nat
deriving Repr, DecidableEq

/-- Computations over the global state; `(none, st)` is a crash (JS
`TypeError`) or exhausted fuel, with `st` the state at that moment. -/
def M (α : Type) : Type := St → Option α × St

instance : Monad M where
  pure a := fun st => (some a, st)
  bind m f := fun st =>
    match m st with
    | (some a, st1) => f a st1
    | (none, st1) => (none, st1)

/-- A JavaScript `TypeError`: abort, keeping the state. -/
def crash {α : Type} : M α := fun st => (none, st)

def getSt : M St := fun st => (some st, st)

def setSt (st1 : St) : M Unit := fun _ => (some (), st1)

def modifySt (f : St → St) : M Unit := fun st => (some (), f st)

/-- `Math.floor(Math.random() * n)`: pop one stream value `v` and return
`v % n` (`0` for `n = 0`). -/
def randBelow (n : Nat) : M Nat := fun st =>
  (some (if n = 0 then 0 else st.rng.headI % n), { st with rng := st.rng.tail })

/-- Read `list[i]`, crashing where the source would dereference
`undefined`. -/
def listGet {α : Type} (l : List α) (i : Nat) : M α :=
  match l.get? i with
  | some x => pure x
  | none => crash

/-- `maze.rows[i]` -/
def rowAt (i : Nat) : M (List Nat) := do
  let st ← getSt
  listGet st.mazeRows i

/-- `maze.rows[i].blocks[k]` -/
def blockIdAt (i k : Nat) : M Nat := do
  let r ← rowAt i
  listGet r k

/-- Dereference a block id. -/
def getBlk (id : Nat) : M Blk := do
  let st ← getSt
  listGet st.blocks id

/-- Write through a block reference. -/
def setBlk (id : Nat) (b : Blk) : M Unit := do
  let st ← getSt
  if id < st.blocks.length then setSt { st with blocks := st.blocks.set id b }
  else crash

def modifyBlk (id : Nat) (f : Blk → Blk) : M Unit := do
  let b ← getBlk id
  setBlk id (f b)

/-- Dereference a path id. -/
def getPath (pid : Nat) : M PathD := do
  let st ← getSt
  listGet st.pathHeap pid

def setPath (pid : Nat) (p : PathD) : M Unit := do
  let st ← getSt
  if pid < st.pathHeap.length then setSt { st with pathHeap := st.pathHeap.set pid p }
  else crash

def modifyPath (pid : Nat) (f : PathD → PathD) : M Unit := do
  let p ← getPath pid
  setPath pid (f p)

/-- `new Path()`: the constructor pushes the new object into the global
`paths` array (source line 711) and returns its reference. -/
def newPath : M Nat := do
  let st ← getSt
  let pid := st.pathHeap.length
  setSt { st with
    pathHeap := st.pathHeap ++ [{ subPath := [], distance := 0 }],
    paths := st.paths ++ [pid] }
  pure pid

/-- `somePath.subPath[somePath.subPath.length] = id` -/
def pushSub (pid : Nat) (id : Nat) : M Unit :=
  modifyPath pid (fun p => { p with subPath := p.subPath ++ [id] })

/-- `mainPath.subPath.splice(0, 1)` -/
def dropSubHead (pid : Nat) : M Unit :=
  modifyPath pid (fun p => { p with subPath := p.subPath.tail })

/-- `block.isWall = false` -/
def setWallFalse (id : Nat) : M Unit :=
  modifyBlk id (fun b => { b with isWall := false })

def pushPathSeed (id : Nat) : M Unit :=
  modifySt (fun st => { st with pathSeeds := st.pathSeeds ++ [id] })

def pushSecondSeed (id : Nat) : M Unit :=
  modifySt (fun st => { st with secondSeeds := st.secondSeeds ++ [id] })

/-- `pathsToSplice[pathsToSplice.length] = path` -/
def markForSplice (pid : Nat) : M Unit :=
  modifySt (fun st => { st with pathsToSplice := st.pathsToSplice ++ [pid] })

/-- `paths.splice(paths.indexOf(p), 1)`: removes the first occurrence when
present; when `indexOf` yields `-1`, `splice(-1, 1)` removes the LAST
element of the array (a genuine quirk of the source). -/
def spliceOutOne (ps : List Nat) (p : Nat) : List Nat :=
  if ps.contains p then ps.erase p else ps.dropLast

/-! ## Grid construction (`makePointGrid`, `makeMaze`) -/

/-- `numberOfRowPoints = numberOfRowBlocks + 1` (`calculateDimensions`). -/
def numberOfRowPoints (n : Nat) : Nat := n + 1

/-- `makePointGrid` builds `numberOfRowPoints * 3` point rows of
`numberOfRowPoints` points each; only these counts matter to the engine
(pixel coordinates omitted, see the file header). -/
def pointGridRowCount (n : Nat) : Nat := numberOfRowPoints n * 3

def pointsPerRow (n : Nat) : Nat := numberOfRowPoints n

/-- Number of block rows built by `makeMaze`:
`pointGrid.rows.length - 2`. -/
def mazeRowCount (n : Nat) : Nat := pointGridRowCount n - 2

/-- Number of blocks per row built by `makeMaze` and `createNewRow`:
`pointGrid.rows[i].points.length - 2`. -/
def mazeColCount (n : Nat) : Nat := pointsPerRow n - 2

/-- A fresh all-wall block at grid position `(i, k)` (`new Block(...)` plus
the `rowIndex`/`blockIndex` assignments). -/
def freshBlk (i k : Nat) : Blk :=
  { isWall := true, rowIndex := i, blockIndex := k,
    adjacentBlocks := [], numberOfAdjacentWalls := 0 }

/-- One conditional neighbour read of `getAdjacentBlocks`:
`if cond { aBlocks[aBlocks.length] = maze.rows[i].blocks[k]; }`. -/
def readNeighbor (cond : Prop) [Decidable cond] (i k : Nat) : M (List Nat) :=
  if cond then do
    let x ← blockIdAt i k
    pure [x]
  else pure []

/-- `getAdjacentBlocks(middleBlock)`: fill the block's `adjacentBlocks`
with the up / right / down / left neighbours that pass the bounds tests of
source lines 359-375. -/
def getAdjacentBlocks (id : Nat) : M Unit := do
  let st ← getSt
  let b ← getBlk id
  let a1 ← readNeighbor (0 < b.rowIndex) (b.rowIndex - 1) b.blockIndex
  let a2 ← readNeighbor (b.blockIndex < st.nBlocks - 2) b.rowIndex (b.blockIndex + 1)
  let a3 ← readNeighbor (b.rowIndex < st.mazeRows.length - 3) (b.rowIndex + 1) b.blockIndex
  let a4 ← readNeighbor (0 < b.blockIndex) b.rowIndex (b.blockIndex - 1)
  modifyBlk id (fun bb => { bb with adjacentBlocks := a1 ++ a2 ++ a3 ++ a4 })

/-- Run a monadic action on each id of a list, in order.  (All recursive
definitions in this file are written with explicit `Nat.rec` / `List.rec`
so that concrete runs reduce efficiently in the kernel; a `_cons`-style
defining equation is proved for each and used in the proofs.) -/
def forIds (f : Nat → M Unit) (l : List Nat) : M Unit :=
  List.rec (motive := fun _ => M Unit) (pure ())
    (fun x _ ih => do
      f x
      ih) l

/-- `makeMaze`: build `mazeRowCount n` rows of `mazeColCount n` all-wall
blocks (row-major in the heap), then give every block its adjacency
list. -/
def makeMaze : M Unit := do
  let st ← getSt
  let n := st.nBlocks
  let rows := mazeRowCount n
  let cols := mazeColCount n
  let heap := (List.range rows).flatMap (fun i => (List.range cols).map (fun k => freshBlk i k))
  let rowIds := (List.range rows).map (fun i => (List.range cols).map (fun k => i * cols + k))
  setSt { st with blocks := heap, mazeRows := rowIds }
  let st2 ← getSt
  forIds getAdjacentBlocks st2.mazeRows.flatten

/-- `checkForWallBlocks` helper: count the walls among a list of block
references. -/
def countWalls (l : List Nat) (acc : Nat) : M Nat :=
  List.rec (motive := fun _ => Nat → M Nat) (fun a => pure a)
    (fun x _ ih a => do
      let b ← getBlk x
      ih (if b.isWall then a + 1 else a)) l acc

/-- `checkForWallBlocks(thisBlock)`: recompute
`thisBlock.numberOfAdjacentWalls`. -/
def checkForWallBlocks (id : Nat) : M Unit := do
  let b ← getBlk id
  let cnt ← countWalls b.adjacentBlocks 0
  modifyBlk id (fun bb => { bb with numberOfAdjacentWalls := cnt })

/-- `resetAdjacentBlocks`: `for (i = maze.rows.length - 1; i > 0; i--)` —
note that ROW 0 IS SKIPPED (`i > 0`). -/
def resetAdjacentBlocks : M Unit := do
  let st ← getSt
  forIds getAdjacentBlocks ((st.mazeRows.drop 1).reverse.flatten)

/-! ## Path generation -/

/-- Candidate scan of `makePath` (source lines 234-249): weighted pool,
`checkForWallBlocks` called inside the eligibility branch, extra copies for
`numberOfAdjacentWalls > 1` and `> 2`. -/
def makePathPoolGo (curRow : Nat) (l : List Nat) (acc : List Nat) : M (List Nat) :=
  List.rec (motive := fun _ => List Nat → M (List Nat)) (fun a => pure a)
    (fun nId _ ih a => do
      let st ← getSt
      let nb ← getBlk nId
      if 0 < nb.rowIndex ∧ nb.rowIndex ≤ curRow ∧ 0 < nb.blockIndex ∧
          nb.blockIndex < st.nBlocks - 1 ∧ nb.isWall = true then do
        let a1 := a ++ [nId]
        checkForWallBlocks nId
        let nb2 ← getBlk nId
        let a2 := if 1 < nb2.numberOfAdjacentWalls then a1 ++ [nId] else a1
        let a3 := if 2 < nb2.numberOfAdjacentWalls then a2 ++ [nId] else a2
        ih a3
      else
        ih a) l acc

def makePathPool (curId : Nat) : M (List Nat) := do
  let cur ← getBlk curId
  makePathPoolGo cur.rowIndex cur.adjacentBlocks []

/-- The `while (createPath == true)` loop of `makePath`. -/
def makePathLoop (fuel : Nat) (pid curId : Nat) : M Unit :=
  Nat.rec (motive := fun _ => Nat → Nat → M Unit) (fun _ _ => crash)
    (fun _ ih p c => do
      let pool ← makePathPool c
      let cur ← getBlk c
      if cur.rowIndex = 1 ∨ pool.length = 0 then pure ()
      else do
        let j ← randBelow pool.length
        let nId ← listGet pool j
        setWallFalse nId
        pushSub p nId
        let s ← randBelow 21
        (if s < 4 then pushPathSeed nId else pure ()) >>= fun _ =>
          ih p nId) fuel pid curId

/-- Candidate scan of `makeSubPath` (source lines 309-320):
`checkForWallBlocks` first, then the interior-band rule, with the
row-1 `else if` that does NOT test `isWall`. -/
def subPoolGo (l : List Nat) (acc : List Nat) : M (List Nat) :=
  List.rec (motive := fun _ => List Nat → M (List Nat)) (fun a => pure a)
    (fun nId _ ih a => do
      checkForWallBlocks nId
      let st ← getSt
      let nb ← getBlk nId
      if 0 < nb.rowIndex ∧ nb.rowIndex ≤ st.mazeRows.length - 3 ∧ 0 < nb.blockIndex ∧
          nb.blockIndex < st.nBlocks - 1 ∧ nb.isWall = true ∧ 2 < nb.numberOfAdjacentWalls then
        ih (a ++ [nId])
      else if nb.rowIndex = 1 ∧ 1 < nb.numberOfAdjacentWalls then
        ih (a ++ [nId])
      else
        ih a) l acc

def subPool (curId : Nat) : M (List Nat) := do
  let cur ← getBlk curId
  subPoolGo cur.adjacentBlocks []

/-- The `while` loop of `makeSubPath`. -/
def makeSubPathLoop (fuel : Nat) (pid curId : Nat) : M Unit :=
  Nat.rec (motive := fun _ => Nat → Nat → M Unit) (fun _ _ => crash)
    (fun _ ih p c => do
      let pool ← subPool c
      (if 0 < pool.length then do
          let j ← randBelow pool.length
          let nId ← listGet pool j
          setWallFalse nId
          pushSub p nId
          pure nId
        else pure c) >>= fun newCur => do
      let nb ← getBlk newCur
      let pd ← getPath p
      if nb.rowIndex = 1 ∨ pool.length = 0 ∨ pd.distance ≤ pd.subPath.length then
        if pool.length = 0 ∨ pd.distance ≤ pd.subPath.length then markForSplice p
        else pure ()
      else do
        let s ← randBelow 20
        (if s < 3 then pushSecondSeed newCur else pure ()) >>= fun _ =>
          ih p newCur) fuel pid curId

/-- `makeSubPath(firstBlock)`: create a branch path (the seed block is NOT
flipped to floor here; it already is one). -/
def makeSubPath (fuel : Nat) (firstBlock : Nat) : M Unit := do
  let pid ← newPath
  let st ← getSt
  let d ← randBelow (st.nBlocks * 2)
  modifyPath pid (fun p => { p with distance := d })
  pushSub pid firstBlock
  makeSubPathLoop fuel pid firstBlock

/-- `pathSeeds = secondSeeds` makes the two variables ALIASES of one array;
the following `for (i = 0; i < pathSeeds.length; i++) makeSubPath(...)`
then also visits seeds pushed (via `secondSeeds`) DURING its own runs.  We
model the shared array by the live `secondSeeds` field, re-reading its
length every iteration. -/
def drainSecondSeeds (fuel : Nat) (i : Nat) : M Unit :=
  Nat.rec (motive := fun _ => Nat → M Unit) (fun _ => crash)
    (fun fuel1 ih j => do
      let st ← getSt
      match st.secondSeeds.get? j with
      | some seed => do
        makeSubPath fuel1 seed
        ih (j + 1)
      | none => pure ()) fuel i

/-- Modelled from the spec (claim C7): the second-generation phase grows
branches ONLY from the snapshot of seeds that were enqueued during the
first-generation runs; seeds enqueued while growing a second-generation
branch are not expanded in the same pass.  This is the claim's reading of
`pathSeeds = secondSeeds; for (...) makeSubPath(pathSeeds[i])`, to be
compared with the aliased `drainSecondSeeds` the source actually
performs. -/
def drainSecondSeedsSnapshot (fuel : Nat) : M Unit := do
  let st ← getSt
  forIds (makeSubPath fuel) st.secondSeeds

/-- The splice loop `paths.splice(paths.indexOf(pathsToSplice[i]), 1)`. -/
def spliceMarked : M Unit := do
  let st ← getSt
  forIds (fun p => modifySt (fun st1 => { st1 with paths := spliceOutOne st1.paths p })) st.pathsToSplice

/-- `makePath()`: build the main path, then first-generation branches from
`pathSeeds`, then the aliased second-generation drain, then splice the
marked paths and clear the seed queues. -/
def makePath (fuel : Nat) : M Unit := do
  let pid ← newPath
  modifySt (fun st => { st with mainPathId := some pid })
  let st0 ← getSt
  modifyPath pid (fun p => { p with distance := st0.nBlocks * 20 })
  modifySt (fun st => { st with pathSeeds := [] })
  let st ← getSt
  let len := st.mazeRows.length
  let bottom ← rowAt (len - 1)
  let rIdx ← randBelow (bottom.length - 1)
  let randomBlockIndex := rIdx + 1
  let cb0 ← blockIdAt (len - 1) randomBlockIndex
  setWallFalse cb0
  pushSub pid cb0
  let cb1 ← blockIdAt (len - 2) randomBlockIndex
  setWallFalse cb1
  pushSub pid cb1
  makePathLoop fuel pid cb1
  let st2 ← getSt
  forIds (makeSubPath fuel) st2.pathSeeds
  drainSecondSeeds fuel 0
  spliceMarked
  modifySt (fun st1 => { st1 with pathSeeds := [], secondSeeds := [], pathsToSplice := [] })

/-- `makePath` as claim C7 describes it: identical to `makePath` except
that the second-generation phase uses the snapshot drain
`drainSecondSeedsSnapshot` instead of the aliased worklist. -/
def makePathOneExtraGen (fuel : Nat) : M Unit := do
  let pid ← newPath
  modifySt (fun st => { st with mainPathId := some pid })
  let st0 ← getSt
  modifyPath pid (fun p => { p with distance := st0.nBlocks * 20 })
  modifySt (fun st => { st with pathSeeds := [] })
  let st ← getSt
  let len := st.mazeRows.length
  let bottom ← rowAt (len - 1)
  let rIdx ← randBelow (bottom.length - 1)
  let randomBlockIndex := rIdx + 1
  let cb0 ← blockIdAt (len - 1) randomBlockIndex
  setWallFalse cb0
  pushSub pid cb0
  let cb1 ← blockIdAt (len - 2) randomBlockIndex
  setWallFalse cb1
  pushSub pid cb1
  makePathLoop fuel pid cb1
  let st2 ← getSt
  forIds (makeSubPath fuel) st2.pathSeeds
  drainSecondSeedsSnapshot fuel
  spliceMarked
  modifySt (fun st1 => { st1 with pathSeeds := [], secondSeeds := [], pathsToSplice := [] })

/-- `makeCharacter()`: the character starts on `mainPath.subPath[0]`. -/
def makeCharacter : M Unit := do
  let st ← getSt
  let pid ← match st.mainPathId with
    | some p => pure p
    | none => crash
  let p ← getPath pid
  let c ← listGet p.subPath 0
  modifySt (fun st1 => { st1 with character := some c })

/-! ## The sliding-window rebase (`shiftMaze` and friends) -/

/-- `moveBlockDown` (geometry omitted): `mBlock.rowIndex++`. -/
def moveBlockDown (id : Nat) : M Unit :=
  modifyBlk id (fun b => { b with rowIndex := b.rowIndex + 1 })

/-- The descending shift loop of `shiftMaze` (lines 504-510): after
`for (i = len-1; i > 0; i--) rows[i] = rows[i-1]` the rows array equals
`rows[0] :: rows.dropLast`, and `moveBlockDown` has been applied exactly
once to every block of the surviving rows `rows[0] .. rows[len-2]`. -/
def shiftRowsDown : M Unit := do
  let st ← getSt
  match st.mazeRows with
  | [] => crash
  | r0 :: _ => do
    setSt { st with mazeRows := r0 :: st.mazeRows.dropLast }
    forIds moveBlockDown st.mazeRows.dropLast.flatten

/-- `createNewRow()`: fresh all-wall blocks for row 0, then
`resetAdjacentBlocks` (which skips row 0). -/
def createNewRow : M Unit := do
  let st ← getSt
  let cols := mazeColCount st.nBlocks
  let base := st.blocks.length
  let newIds := (List.range cols).map (fun k => base + k)
  (match st.mazeRows with
    | [] => crash
    | _ :: rest =>
      setSt { st with
        blocks := st.blocks ++ (List.range cols).map (fun k => freshBlk 0 k),
        mazeRows := newIds :: rest }) >>= fun _ =>
    resetAdjacentBlocks

/-- Candidate scan of `extendMainPath` (lines 597-608); note the column
bound is `blockIndex < numberOfRowBlocks` (not `- 1`), and the row-1
`else if` again skips the `isWall` test. -/
def extendMainPoolGo (latestRow : Nat) (l : List Nat) (acc : List Nat) : M (List Nat) :=
  List.rec (motive := fun _ => List Nat → M (List Nat)) (fun a => pure a)
    (fun nId _ ih a => do
      checkForWallBlocks nId
      let st ← getSt
      let nb ← getBlk nId
      if 0 < nb.rowIndex ∧ nb.rowIndex ≤ latestRow ∧ 0 < nb.blockIndex ∧
          nb.blockIndex < st.nBlocks ∧ nb.isWall = true ∧ 1 < nb.numberOfAdjacentWalls then
        ih (a ++ [nId])
      else if nb.rowIndex = 1 ∧ 2 < nb.numberOfAdjacentWalls then
        ih (a ++ [nId])
      else
        ih a) l acc

def extendMainPool (latestId : Nat) : M (List Nat) := do
  let latest ← getBlk latestId
  extendMainPoolGo latest.rowIndex latest.adjacentBlocks []

/-- The `while` loop of `extendMainPath`: each append is paired with
`mainPath.subPath.splice(0, 1)`. -/
def extendMainPathLoop (fuel : Nat) (pid latestId : Nat) : M Unit :=
  Nat.rec (motive := fun _ => Nat → Nat → M Unit) (fun _ _ => crash)
    (fun _ ih p latest => do
      let pool ← extendMainPool latest
      (if 0 < pool.length then do
          let j ← randBelow pool.length
          let nId ← listGet pool j
          setWallFalse nId
          pushSub p nId
          dropSubHead p
          pure nId
        else pure latest) >>= fun newLatest => do
      let nb ← getBlk newLatest
      if nb.rowIndex = 1 ∨ pool.length = 0 then pure ()
      else do
        let s ← randBelow 7
        (if s < 1 then pushPathSeed newLatest else pure ()) >>= fun _ =>
          ih p newLatest) fuel pid latestId

def extendMainPath (fuel : Nat) : M Unit := do
  let st ← getSt
  let pid ← match st.mainPathId with
    | some p => pure p
    | none => crash
  let p ← getPath pid
  let latest ← listGet p.subPath (p.subPath.length - 1)
  extendMainPathLoop fuel pid latest

/-- Candidate scan of `extendPaths` (lines 638-645), additionally tracking
the function-scoped loop variable `nBlock` (the last neighbour examined),
which the stop logic of line 662 reads AFTER the scan. -/
def extendPathsPoolGo (stLen : Nat) (l : List Nat) (acc : List Nat) (lastEx : Option Nat) :
    M (List Nat × Option Nat) :=
  List.rec (motive := fun _ => List Nat → Option Nat → M (List Nat × Option Nat))
    (fun a le => pure (a, le))
    (fun nId _ ih a _ => do
      checkForWallBlocks nId
      let st ← getSt
      let nb ← getBlk nId
      if 0 < nb.rowIndex ∧ nb.rowIndex ≤ stLen - 3 ∧ 0 < nb.blockIndex ∧
          nb.blockIndex < st.nBlocks - 1 ∧ nb.isWall = true ∧ 2 < nb.numberOfAdjacentWalls then
        ih (a ++ [nId]) (some nId)
      else
        ih a (some nId)) l acc lastEx

/-- The `while` loop of `extendPaths`.  The `lastEx` argument carries the
stale `nBlock` variable across iterations; the `||` of line 662 is
short-circuiting, so `nBlock.rowIndex` is only read (crashing on
`undefined`) when the first two disjuncts are false. -/
def extendPathsLoop (fuel : Nat) (pid latestId : Nat) (lastEx : Option Nat) : M Unit :=
  Nat.rec (motive := fun _ => Nat → Nat → Option Nat → M Unit) (fun _ _ _ => crash)
    (fun _ ih p latestCur lastExCur => do
      let latest ← getBlk latestCur
      let st0 ← getSt
      let poolPair ← extendPathsPoolGo st0.mazeRows.length latest.adjacentBlocks [] lastExCur
      let pool := poolPair.1
      let lastEx1 := poolPair.2
      (if 0 < pool.length then do
          let j ← randBelow pool.length
          let nId ← listGet pool j
          setWallFalse nId
          pushSub p nId
          let s ← randBelow 9
          (if s < 1 then pushSecondSeed nId else pure ()) >>= fun _ =>
            pure nId
        else pure latestCur) >>= fun newLatest => do
      let nb ← getBlk newLatest
      let pd ← getPath p
      if nb.rowIndex = 1 ∨ pool.length = 0 ∨ pd.distance ≤ pd.subPath.length then
        (if pd.distance ≤ pd.subPath.length then pure true
          else if pool.length = 0 then pure true
          else
            (match lastEx1 with
              | some x => getBlk x
              | none => crash) >>= fun lb => do
            let st1 ← getSt
            pure (decide (st1.mazeRows.length - 3 ≤ lb.rowIndex))) >>= fun mark =>
        if mark then markForSplice p else pure ()
      else
        ih p newLatest lastEx1) fuel pid latestId lastEx

def extendPaths (fuel : Nat) (pid : Nat) : M Unit := do
  let p ← getPath pid
  let latest ← listGet p.subPath (p.subPath.length - 1)
  getAdjacentBlocks latest
  extendPathsLoop fuel pid latest none

/-- The `for (i = 1; i < paths.length; i++)` loop of `shiftPaths`:
perpetuate every branch path, marking those left with an empty
`subPath`. -/
def perpetuateGo (fuel : Nat) (l : List Nat) : M Unit :=
  List.rec (motive := fun _ => M Unit) (pure ())
    (fun pid _ ih => do
      extendPaths fuel pid
      let p ← getPath pid
      (if p.subPath.length = 0 then markForSplice pid else pure ()) >>= fun _ =>
        ih) l

/-- `shiftPaths()`. -/
def shiftPaths (fuel : Nat) : M Unit := do
  spliceMarked
  modifySt (fun st => { st with pathsToSplice := [] })
  extendMainPath fuel
  let st ← getSt
  forIds (makeSubPath fuel) st.pathSeeds
  modifySt (fun st1 => { st1 with pathSeeds := [] })
  let st2 ← getSt
  perpetuateGo fuel (st2.paths.drop 1)
  drainSecondSeeds fuel 0
  modifySt (fun st1 => { st1 with pathSeeds := [], secondSeeds := [] })

/-- `shiftMaze()`: detach the bottom row (clearing its blocks' adjacency
lists), shift every surviving row down, create the fresh row 0, rebuild
adjacency (twice, both times skipping row 0), and repair the paths. -/
def shiftMaze (fuel : Nat) : M Unit := do
  let st ← getSt
  let lastRow ← rowAt (st.mazeRows.length - 1)
  forIds (fun id => modifyBlk id (fun b => { b with adjacentBlocks := [] })) lastRow
  shiftRowsDown
  createNewRow
  resetAdjacentBlocks
  shiftPaths fuel

/-! ## Navigation -/

/-- `moveUp()`.  `maze.rows[rowIndex - 1]` is `undefined` for
`rowIndex = 0` and the following `.blocks` throws, hence the explicit
crash.  The rebase threshold
`possibleNewLocation.rowIndex < maze.rows.length * (5/6) - 1` is the exact
integer comparison `6*r + 6 < 5*len` (see the file header). -/
def moveUp (fuel : Nat) : M Unit := do
  let st ← getSt
  let locId ← match st.character with
    | some c => pure c
    | none => crash
  let loc ← getBlk locId
  if loc.rowIndex = 0 then crash
  else do
    let targetId ← blockIdAt (loc.rowIndex - 1) loc.blockIndex
    let target ← getBlk targetId
    if target.isWall = false then do
      let st2 ← getSt
      (if 6 * target.rowIndex + 6 < 5 * st2.mazeRows.length then shiftMaze fuel
        else pure ()) >>= fun _ =>
        modifySt (fun st1 => { st1 with character := some targetId })
    else pure ()

def moveDown : M Unit := do
  let st ← getSt
  let locId ← match st.character with
    | some c => pure c
    | none => crash
  let loc ← getBlk locId
  let targetId ← blockIdAt (loc.rowIndex + 1) loc.blockIndex
  let target ← getBlk targetId
  if target.isWall = false then
    modifySt (fun st1 => { st1 with character := some targetId })
  else pure ()

def moveLeft : M Unit := do
  let st ← getSt
  let locId ← match st.character with
    | some c => pure c
    | none => crash
  let loc ← getBlk locId
  if loc.blockIndex = 0 then crash
  else do
    let targetId ← blockIdAt loc.rowIndex (loc.blockIndex - 1)
    let target ← getBlk targetId
    if target.isWall = false then
      modifySt (fun st1 => { st1 with character := some targetId })
    else pure ()

def moveRight : M Unit := do
  let st ← getSt
  let locId ← match st.character with
    | some c => pure c
    | none => crash
  let loc ← getBlk locId
  let targetId ← blockIdAt loc.rowIndex (loc.blockIndex + 1)
  let target ← getBlk targetId
  if target.isWall = false then
    modifySt (fun st1 => { st1 with character := some targetId })
  else pure ()

/-! ## Top level -/

/-- `start()` minus the canvas and key-listener glue:
`calculateDimensions; makePointGrid; makeMaze; makePath; makeCharacter`. -/
def start (fuel : Nat) : M Unit := do
  makeMaze
  makePath fuel
  makeCharacter

/-- The initial global state for a configured `numberOfRowBlocks` value
`n` and a random stream. -/
def initSt (n : Nat) (rng : List Nat) : St :=
  { nBlocks := n, blocks := [], mazeRows := [], pathHeap := [], paths := [],
    mainPathId := none, pathSeeds := [], secondSeeds := [], pathsToSplice := [],
    character := none, rng := rng }

/-- A directional key press (W / S / A / D). -/
inductive Mv
  | up
  | down
  | left
  | right
deriving Repr, DecidableEq

def applyMove (fuel : Nat) : Mv → M Unit
  | Mv.up => moveUp fuel
  | Mv.down => moveDown
  | Mv.left => moveLeft
  | Mv.right => moveRight

def runMoves (fuel : Nat) (moves : List Mv) : M Unit :=
  List.rec (motive := fun _ => M Unit) (pure ())
    (fun m _ ih => do
      applyMove fuel m
      ih) moves

/-- A full run: initialization followed by a sequence of key presses. -/
def runProgram (n fuel : Nat) (rng : List Nat) (moves : List Mv) : Option Unit × St :=
  (do
    start fuel
    runMoves fuel moves) (initSt n rng)

/-! ## Defining equations and monad lemmas -/

theorem bind_apply {α β : Type} (m : M α) (f : α → M β) (st : St) :
    (m >>= f) st = match m st with
      | (some a, st1) => f a st1
      | (none, st1) => (none, st1) := rfl

theorem pure_apply {α : Type} (a : α) (st : St) : (pure a : M α) st = (some a, st) := rfl

theorem crash_apply {α : Type} (st : St) : (crash : M α) st = (none, st) := rfl

/-- Inversion of a successful bind. -/
theorem bind_inv {α β : Type} {m : M α} {f : α → M β} {st st2 : St} {b : β}
    (h : (m >>= f) st = (some b, st2)) :
    ∃ a st1, m st = (some a, st1) ∧ f a st1 = (some b, st2) := by
  rw [bind_apply] at h
  rcases hm : m st with ⟨o, st1⟩
  rw [hm] at h
  cases o with
  | none => simp at h
  | some a => exact ⟨a, st1, rfl, h⟩

theorem forIds_nil (f : Nat → M Unit) : forIds f [] = pure () := rfl

theorem forIds_cons (f : Nat → M Unit) (x : Nat) (xs : List Nat) :
    forIds f (x :: xs) = (do
      f x
      forIds f xs) := rfl

theorem countWalls_nil (acc : Nat) : countWalls [] acc = pure acc := rfl

theorem countWalls_cons (x : Nat) (xs : List Nat) (acc : Nat) :
    countWalls (x :: xs) acc = (do
      let b ← getBlk x
      countWalls xs (if b.isWall then acc + 1 else acc)) := rfl

theorem makePathPoolGo_nil (curRow : Nat) (acc : List Nat) :
    makePathPoolGo curRow [] acc = pure acc := rfl

theorem makePathPoolGo_cons (curRow nId : Nat) (rest acc : List Nat) :
    makePathPoolGo curRow (nId :: rest) acc = (do
      let st ← getSt
      let nb ← getBlk nId
      if 0 < nb.rowIndex ∧ nb.rowIndex ≤ curRow ∧ 0 < nb.blockIndex ∧
          nb.blockIndex < st.nBlocks - 1 ∧ nb.isWall = true then do
        let a1 := acc ++ [nId]
        checkForWallBlocks nId
        let nb2 ← getBlk nId
        let a2 := if 1 < nb2.numberOfAdjacentWalls then a1 ++ [nId] else a1
        let a3 := if 2 < nb2.numberOfAdjacentWalls then a2 ++ [nId] else a2
        makePathPoolGo curRow rest a3
      else
        makePathPoolGo curRow rest acc) := rfl

theorem makePathLoop_zero (pid curId : Nat) : makePathLoop 0 pid curId = crash := rfl

theorem makePathLoop_succ (fuel pid curId : Nat) :
    makePathLoop (fuel + 1) pid curId = (do
      let pool ← makePathPool curId
      let cur ← getBlk curId
      if cur.rowIndex = 1 ∨ pool.length = 0 then pure ()
      else do
        let j ← randBelow pool.length
        let nId ← listGet pool j
        setWallFalse nId
        pushSub pid nId
        let s ← randBelow 21
        (if s < 4 then pushPathSeed nId else pure ()) >>= fun _ =>
          makePathLoop fuel pid nId) := rfl

theorem subPoolGo_nil (acc : List Nat) : subPoolGo [] acc = pure acc := rfl

theorem subPoolGo_cons (nId : Nat) (rest acc : List Nat) :
    subPoolGo (nId :: rest) acc = (do
      checkForWallBlocks nId
      let st ← getSt
      let nb ← getBlk nId
      if 0 < nb.rowIndex ∧ nb.rowIndex ≤ st.mazeRows.length - 3 ∧ 0 < nb.blockIndex ∧
          nb.blockIndex < st.nBlocks - 1 ∧ nb.isWall = true ∧ 2 < nb.numberOfAdjacentWalls then
        subPoolGo rest (acc ++ [nId])
      else if nb.rowIndex = 1 ∧ 1 < nb.numberOfAdjacentWalls then
        subPoolGo rest (acc ++ [nId])
      else
        subPoolGo rest acc) := rfl

theorem makeSubPathLoop_zero (pid curId : Nat) : makeSubPathLoop 0 pid curId = crash := rfl

theorem makeSubPathLoop_succ (fuel pid curId : Nat) :
    makeSubPathLoop (fuel + 1) pid curId = (do
      let pool ← subPool curId
      (if 0 < pool.length then do
          let j ← randBelow pool.length
          let nId ← listGet pool j
          setWallFalse nId
          pushSub pid nId
          pure nId
        else pure curId) >>= fun newCur => do
      let nb ← getBlk newCur
      let pd ← getPath pid
      if nb.rowIndex = 1 ∨ pool.length = 0 ∨ pd.distance ≤ pd.subPath.length then
        if pool.length = 0 ∨ pd.distance ≤ pd.subPath.length then markForSplice pid
        else pure ()
      else do
        let s ← randBelow 20
        (if s < 3 then pushSecondSeed newCur else pure ()) >>= fun _ =>
          makeSubPathLoop fuel pid newCur) := rfl

theorem drainSecondSeeds_zero (i : Nat) : drainSecondSeeds 0 i = crash := rfl

theorem drainSecondSeeds_succ (fuel i : Nat) :
    drainSecondSeeds (fuel + 1) i = (do
      let st ← getSt
      match st.secondSeeds.get? i with
      | some seed => do
        makeSubPath fuel seed
        drainSecondSeeds fuel (i + 1)
      | none => pure ()) := rfl

theorem extendMainPoolGo_nil (latestRow : Nat) (acc : List Nat) :
    extendMainPoolGo latestRow [] acc = pure acc := rfl

theorem extendMainPoolGo_cons (latestRow nId : Nat) (rest acc : List Nat) :
    extendMainPoolGo latestRow (nId :: rest) acc = (do
      checkForWallBlocks nId
      let st ← getSt
      let nb ← getBlk nId
      if 0 < nb.rowIndex ∧ nb.rowIndex ≤ latestRow ∧ 0 < nb.blockIndex ∧
          nb.blockIndex < st.nBlocks ∧ nb.isWall = true ∧ 1 < nb.numberOfAdjacentWalls then
        extendMainPoolGo latestRow rest (acc ++ [nId])
      else if nb.rowIndex = 1 ∧ 2 < nb.numberOfAdjacentWalls then
        extendMainPoolGo latestRow rest (acc ++ [nId])
      else
        extendMainPoolGo latestRow rest acc) := rfl

theorem extendMainPathLoop_zero (pid latestId : Nat) : extendMainPathLoop 0 pid latestId = crash := rfl

theorem extendMainPathLoop_succ (fuel pid latestId : Nat) :
    extendMainPathLoop (fuel + 1) pid latestId = (do
      let pool ← extendMainPool latestId
      (if 0 < pool.length then do
          let j ← randBelow pool.length
          let nId ← listGet pool j
          setWallFalse nId
          pushSub pid nId
          dropSubHead pid
          pure nId
        else pure latestId) >>= fun newLatest => do
      let nb ← getBlk newLatest
      if nb.rowIndex = 1 ∨ pool.length = 0 then pure ()
      else do
        let s ← randBelow 7
        (if s < 1 then pushPathSeed newLatest else pure ()) >>= fun _ =>
          extendMainPathLoop fuel pid newLatest) := rfl

theorem extendPathsPoolGo_nil (stLen : Nat) (acc : List Nat) (lastEx : Option Nat) :
    extendPathsPoolGo stLen [] acc lastEx = pure (acc, lastEx) := rfl

theorem extendPathsPoolGo_cons (stLen nId : Nat) (rest acc : List Nat) (lastEx : Option Nat) :
    extendPathsPoolGo stLen (nId :: rest) acc lastEx = (do
      checkForWallBlocks nId
      let st ← getSt
      let nb ← getBlk nId
      if 0 < nb.rowIndex ∧ nb.rowIndex ≤ stLen - 3 ∧ 0 < nb.blockIndex ∧
          nb.blockIndex < st.nBlocks - 1 ∧ nb.isWall = true ∧ 2 < nb.numberOfAdjacentWalls then
        extendPathsPoolGo stLen rest (acc ++ [nId]) (some nId)
      else
        extendPathsPoolGo stLen rest acc (some nId)) := rfl

theorem extendPathsLoop_zero (pid latestId : Nat) (lastEx : Option Nat) :
    extendPathsLoop 0 pid latestId lastEx = crash := rfl

theorem extendPathsLoop_succ (fuel pid latestId : Nat) (lastEx : Option Nat) :
    extendPathsLoop (fuel + 1) pid latestId lastEx = (do
      let latest ← getBlk latestId
      let st0 ← getSt
      let poolPair ← extendPathsPoolGo st0.mazeRows.length latest.adjacentBlocks [] lastEx
      let pool := poolPair.1
      let lastEx1 := poolPair.2
      (if 0 < pool.length then do
          let j ← randBelow pool.length
          let nId ← listGet pool j
          setWallFalse nId
          pushSub pid nId
          let s ← randBelow 9
          (if s < 1 then pushSecondSeed nId else pure ()) >>= fun _ =>
            pure nId
        else pure latestId) >>= fun newLatest => do
      let nb ← getBlk newLatest
      let pd ← getPath pid
      if nb.rowIndex = 1 ∨ pool.length = 0 ∨ pd.distance ≤ pd.subPath.length then
        (if pd.distance ≤ pd.subPath.length then pure true
          else if pool.length = 0 then pure true
          else
            (match lastEx1 with
              | some x => getBlk x
              | none => crash) >>= fun lb => do
            let st1 ← getSt
            pure (decide (st1.mazeRows.length - 3 ≤ lb.rowIndex))) >>= fun mark =>
        if mark then markForSplice pid else pure ()
      else
        extendPathsLoop fuel pid newLatest lastEx1) := rfl

theorem perpetuateGo_nil (fuel : Nat) : perpetuateGo fuel [] = pure () := rfl

theorem perpetuateGo_cons (fuel pid : Nat) (rest : List Nat) :
    perpetuateGo fuel (pid :: rest) = (do
      extendPaths fuel pid
      let p ← getPath pid
      (if p.subPath.length = 0 then markForSplice pid else pure ()) >>= fun _ =>
        perpetuateGo fuel rest) := rfl

theorem runMoves_nil (fuel : Nat) : runMoves fuel [] = pure () := rfl

theorem runMoves_cons (fuel : Nat) (m : Mv) (ms : List Mv) :
    runMoves fuel (m :: ms) = (do
      applyMove fuel m
      runMoves fuel ms) := rfl

/-! ## Characterizations of the primitive operations -/

theorem getSt_apply (st : St) : getSt st = (some st, st) := rfl

theorem getSt_inv {st st1 s : St} (h : getSt st = (some s, st1)) : st = s ∧ st = st1 := by
  rw [getSt_apply, Prod.mk.injEq, Option.some.injEq] at h
  exact ⟨h.1, h.2⟩

theorem setSt_apply (st1 st : St) : setSt st1 st = (some (), st1) := rfl

theorem modifySt_apply (f : St → St) (st : St) : modifySt f st = (some (), f st) := rfl

theorem randBelow_apply (n : Nat) (st : St) :
    randBelow n st =
      (some (if n = 0 then 0 else st.rng.headI % n), { st with rng := st.rng.tail }) := rfl

theorem listGet_inv {α : Type} {l : List α} {i : Nat} {st st1 : St} {x : α}
    (h : listGet l i st = (some x, st1)) : l.get? i = some x ∧ st1 = st := by
  unfold listGet at h
  rcases hg : l.get? i with - | y
  · rw [hg] at h
    simp [crash_apply] at h
  · rw [hg] at h
    simp [pure_apply] at h
    exact ⟨by rw [h.1], h.2.symm⟩

theorem listGet_of_get {α : Type} {l : List α} {i : Nat} {x : α} (h : l.get? i = some x)
    (st : St) : listGet l i st = (some x, st) := by
  unfold listGet
  rw [h]
  rfl

theorem getBlk_inv {id : Nat} {st st1 : St} {b : Blk} (h : getBlk id st = (some b, st1)) :
    st.blocks.get? id = some b ∧ st1 = st := by
  unfold getBlk at h
  rw [bind_apply, getSt_apply] at h
  exact listGet_inv h

theorem rowAt_inv {i : Nat} {st st1 : St} {r : List Nat} (h : rowAt i st = (some r, st1)) :
    st.mazeRows.get? i = some r ∧ st1 = st := by
  unfold rowAt at h
  rw [bind_apply, getSt_apply] at h
  exact listGet_inv h

theorem blockIdAt_inv {i k : Nat} {st st1 : St} {x : Nat} (h : blockIdAt i k st = (some x, st1)) :
    ∃ r, st.mazeRows.get? i = some r ∧ r.get? k = some x ∧ st1 = st := by
  unfold blockIdAt at h
  rcases bind_inv h with ⟨r, stm, hr, hg⟩
  rcases rowAt_inv hr with ⟨hr1, rfl⟩
  rcases listGet_inv hg with ⟨hg1, rfl⟩
  exact ⟨r, hr1, hg1, rfl⟩

theorem setBlk_inv {id : Nat} {b : Blk} {st st1 : St} {u : Unit}
    (h : setBlk id b st = (some u, st1)) :
    id < st.blocks.length ∧ st1 = { st with blocks := st.blocks.set id b } := by
  simp only [setBlk, bind_apply, getSt_apply] at h
  by_cases hid : id < st.blocks.length
  · rw [if_pos hid] at h
    rw [setSt_apply] at h
    cases h
    exact ⟨hid, rfl⟩
  · rw [if_neg hid] at h
    simp [crash_apply] at h

theorem modifyBlk_inv {id : Nat} {f : Blk → Blk} {st st1 : St} {u : Unit}
    (h : modifyBlk id f st = (some u, st1)) :
    ∃ b, st.blocks.get? id = some b ∧ st1 = { st with blocks := st.blocks.set id (f b) } := by
  unfold modifyBlk at h
  rcases bind_inv h with ⟨b, stm, hb, hs⟩
  rcases getBlk_inv hb with ⟨hb1, rfl⟩
  rcases setBlk_inv hs with ⟨-, rfl⟩
  exact ⟨b, hb1, rfl⟩

theorem getPath_inv {pid : Nat} {st st1 : St} {p : PathD} (h : getPath pid st = (some p, st1)) :
    st.pathHeap.get? pid = some p ∧ st1 = st := by
  unfold getPath at h
  rw [bind_apply, getSt_apply] at h
  exact listGet_inv h

theorem setPath_inv {pid : Nat} {p : PathD} {st st1 : St} {u : Unit}
    (h : setPath pid p st = (some u, st1)) :
    pid < st.pathHeap.length ∧ st1 = { st with pathHeap := st.pathHeap.set pid p } := by
  simp only [setPath, bind_apply, getSt_apply] at h
  by_cases hid : pid < st.pathHeap.length
  · rw [if_pos hid] at h
    rw [setSt_apply] at h
    cases h
    exact ⟨hid, rfl⟩
  · rw [if_neg hid] at h
    simp [crash_apply] at h

theorem modifyPath_inv {pid : Nat} {f : PathD → PathD} {st st1 : St} {u : Unit}
    (h : modifyPath pid f st = (some u, st1)) :
    ∃ p, st.pathHeap.get? pid = some p ∧
      st1 = { st with pathHeap := st.pathHeap.set pid (f p) } := by
  unfold modifyPath at h
  rcases bind_inv h with ⟨p, stm, hp, hs⟩
  rcases getPath_inv hp with ⟨hp1, rfl⟩
  rcases setPath_inv hs with ⟨-, rfl⟩
  exact ⟨p, hp1, rfl⟩

theorem newPath_apply (st : St) :
    newPath st = (some st.pathHeap.length,
      { st with pathHeap := st.pathHeap ++ [{ subPath := [], distance := 0 }],
                paths := st.paths ++ [st.pathHeap.length] }) := rfl

theorem pushPathSeed_apply (id : Nat) (st : St) :
    pushPathSeed id st = (some (), { st with pathSeeds := st.pathSeeds ++ [id] }) := rfl

theorem pushSecondSeed_apply (id : Nat) (st : St) :
    pushSecondSeed id st = (some (), { st with secondSeeds := st.secondSeeds ++ [id] }) := rfl

theorem markForSplice_apply (pid : Nat) (st : St) :
    markForSplice pid st = (some (), { st with pathsToSplice := st.pathsToSplice ++ [pid] }) := rfl

/-! ## The neighbour rule and the generation-phase step relation -/

/-- The adjacency rule of `getAdjacentBlocks`, as a pure function of the
block's own `rowIndex`/`blockIndex` fields and the current grid: up iff
`0 < r`, right iff `c < width - 2`, down iff `r < height - 3`, left iff
`0 < c`. -/
def ruleNeighborsD (st : St) (r c : Nat) : List Nat :=
  (if 0 < r then [(st.mazeRows.getD (r - 1) []).getD c 0] else []) ++
    (if c < st.nBlocks - 2 then [(st.mazeRows.getD r []).getD (c + 1) 0] else []) ++
      (if r < st.mazeRows.length - 3 then [(st.mazeRows.getD (r + 1) []).getD c 0] else []) ++
        (if 0 < c then [(st.mazeRows.getD r []).getD (c - 1) 0] else [])

theorem ruleNeighborsD_congr {st st1 : St} (hrows : st1.mazeRows = st.mazeRows)
    (hn : st1.nBlocks = st.nBlocks) (r c : Nat) :
    ruleNeighborsD st1 r c = ruleNeighborsD st r c := by
  unfold ruleNeighborsD
  rw [hrows, hn]

/-- What any step of the path-generation phase (`makePath`, `makeSubPath`,
`extendMainPath`, `extendPaths`, `shiftPaths` and their helpers) may do to
the grid: nothing.  The block heap keeps its length; every block keeps its
coordinates; a wall may only be flipped to floor; an
adjacency list is either untouched or
rewritten to exactly the `ruleNeighborsD` value for the block's own
coordinates.  Character, rows and width are untouched.  (Paths, seeds and
the rng stream may change freely.) -/
def GenStep (st st1 : St) : Prop :=
  st1.nBlocks = st.nBlocks ∧ st1.mazeRows = st.mazeRows ∧ st1.character = st.character ∧
    st1.blocks.length = st.blocks.length ∧
    ∀ id b, st.blocks.get? id = some b → ∃ b1, st1.blocks.get? id = some b1 ∧
      b1.rowIndex = b.rowIndex ∧ b1.blockIndex = b.blockIndex ∧
      (b1.isWall = b.isWall ∨ b1.isWall = false) ∧
      (b1.adjacentBlocks = b.adjacentBlocks ∨
        b1.adjacentBlocks = ruleNeighborsD st1 b1.rowIndex b1.blockIndex)

theorem genStep_refl (st : St) : GenStep st st := by
  refine ⟨rfl, rfl, rfl, rfl, fun id b hb => ⟨b, hb, rfl, rfl, Or.inl rfl, Or.inl rfl⟩⟩

theorem genStep_trans {st st1 st2 : St} (h1 : GenStep st st1) (h2 : GenStep st1 st2) :
    GenStep st st2 := by
  obtain ⟨hn1, hr1, hc1, hl1, hb1⟩ := h1
  obtain ⟨hn2, hr2, hc2, hl2, hb2⟩ := h2
  refine ⟨hn2.trans hn1, hr2.trans hr1, hc2.trans hc1, hl2.trans hl1, fun id b hb => ?_⟩
  obtain ⟨bm, hbm, hrow1, hcol1, hw1, ha1⟩ := hb1 id b hb
  obtain ⟨b2, hb2m, hrow2, hcol2, hw2, ha2⟩ := hb2 id bm hbm
  refine ⟨b2, hb2m, hrow2.trans hrow1, hcol2.trans hcol1, ?_, ?_⟩
  · rcases hw2 with hw2 | hw2
    · rcases hw1 with hw1 | hw1
      · exact Or.inl (hw2.trans hw1)
      · exact Or.inr (hw2.trans hw1)
    · exact Or.inr hw2
  · rcases ha2 with ha2 | ha2
    · rcases ha1 with ha1 | ha1
      · exact Or.inl (ha2.trans ha1)
      · refine Or.inr ?_
        rw [ha2, ha1, hrow2, hcol2]
        exact (ruleNeighborsD_congr hr2 hn2 _ _).symm
    · exact Or.inr ha2

/-- `GenOk m`: every successful run of `m` is a generation-phase step. -/
def GenOk {α : Type} (m : M α) : Prop :=
  ∀ st a st1, m st = (some a, st1) → GenStep st st1

theorem genOk_pure {α : Type} (a : α) : GenOk (pure a : M α) := by
  intro st b st1 h
  rw [pure_apply] at h
  cases h
  exact genStep_refl st

theorem genOk_crash {α : Type} : GenOk (crash : M α) := by
  intro st b st1 h
  simp [crash_apply] at h

theorem genOk_bind {α β : Type} {m : M α} {f : α → M β} (hm : GenOk m)
    (hf : ∀ a, GenOk (f a)) : GenOk (m >>= f) := by
  intro st b st2 h
  rcases bind_inv h with ⟨a, st1, h1, h2⟩
  exact genStep_trans (hm _ _ _ h1) (hf a _ _ _ h2)

theorem genOk_ite {α : Type} {c : Prop} [Decidable c] {A B : M α} (hA : GenOk A)
    (hB : GenOk B) : GenOk (if c then A else B) := by
  by_cases hc : c
  · rw [if_pos hc]; exact hA
  · rw [if_neg hc]; exact hB

/-- Operations that do not touch the block heap, the rows, the width or
the character are generation steps. -/
theorem genOk_of_untouched {α : Type} {m : M α}
    (h : ∀ st a st1, m st = (some a, st1) → st1.blocks = st.blocks ∧
      st1.mazeRows = st.mazeRows ∧ st1.nBlocks = st.nBlocks ∧ st1.character = st.character) :
    GenOk m := by
  intro st a st1 hm
  obtain ⟨hb, hr, hn, hc⟩ := h st a st1 hm
  exact ⟨hn, hr, hc, by rw [hb], fun id b hid =>
    ⟨b, by rw [hb]; exact hid, rfl, rfl, Or.inl rfl, Or.inl rfl⟩⟩

theorem genOk_getSt : GenOk getSt := by
  refine genOk_of_untouched fun st a st1 h => ?_
  rw [getSt_apply] at h
  cases h
  exact ⟨rfl, rfl, rfl, rfl⟩

theorem genOk_randBelow (n : Nat) : GenOk (randBelow n) := by
  refine genOk_of_untouched fun st a st1 h => ?_
  rw [randBelow_apply] at h
  cases h
  exact ⟨rfl, rfl, rfl, rfl⟩

theorem genOk_listGet {α : Type} (l : List α) (i : Nat) : GenOk (listGet l i) := by
  refine genOk_of_untouched fun st a st1 h => ?_
  rcases listGet_inv h with ⟨-, rfl⟩
  exact ⟨rfl, rfl, rfl, rfl⟩

theorem genOk_getBlk (id : Nat) : GenOk (getBlk id) := by
  refine genOk_of_untouched fun st a st1 h => ?_
  rcases getBlk_inv h with ⟨-, rfl⟩
  exact ⟨rfl, rfl, rfl, rfl⟩

theorem genOk_rowAt (i : Nat) : GenOk (rowAt i) := by
  refine genOk_of_untouched fun st a st1 h => ?_
  rcases rowAt_inv h with ⟨-, rfl⟩
  exact ⟨rfl, rfl, rfl, rfl⟩

theorem genOk_blockIdAt (i k : Nat) : GenOk (blockIdAt i k) := by
  refine genOk_of_untouched fun st a st1 h => ?_
  rcases blockIdAt_inv h with ⟨r, -, -, rfl⟩
  exact ⟨rfl, rfl, rfl, rfl⟩

theorem genOk_getPath (pid : Nat) : GenOk (getPath pid) := by
  refine genOk_of_untouched fun st a st1 h => ?_
  rcases getPath_inv h with ⟨-, rfl⟩
  exact ⟨rfl, rfl, rfl, rfl⟩

theorem genOk_setPath (pid : Nat) (p : PathD) : GenOk (setPath pid p) := by
  refine genOk_of_untouched fun st a st1 h => ?_
  rcases setPath_inv h with ⟨-, rfl⟩
  exact ⟨rfl, rfl, rfl, rfl⟩

theorem genOk_modifyPath (pid : Nat) (f : PathD → PathD) : GenOk (modifyPath pid f) := by
  refine genOk_of_untouched fun st a st1 h => ?_
  rcases modifyPath_inv h with ⟨p, -, rfl⟩
  exact ⟨rfl, rfl, rfl, rfl⟩

theorem genOk_newPath : GenOk newPath := by
  refine genOk_of_untouched fun st a st1 h => ?_
  rw [newPath_apply] at h
  cases h
  exact ⟨rfl, rfl, rfl, rfl⟩

theorem genOk_pushSub (pid id : Nat) : GenOk (pushSub pid id) :=
  genOk_modifyPath pid _

theorem genOk_dropSubHead (pid : Nat) : GenOk (dropSubHead pid) :=
  genOk_modifyPath pid _

theorem genOk_pushPathSeed (id : Nat) : GenOk (pushPathSeed id) := by
  refine genOk_of_untouched fun st a st1 h => ?_
  rw [pushPathSeed_apply] at h
  cases h
  exact ⟨rfl, rfl, rfl, rfl⟩

theorem genOk_pushSecondSeed (id : Nat) : GenOk (pushSecondSeed id) := by
  refine genOk_of_untouched fun st a st1 h => ?_
  rw [pushSecondSeed_apply] at h
  cases h
  exact ⟨rfl, rfl, rfl, rfl⟩

theorem genOk_markForSplice (pid : Nat) : GenOk (markForSplice pid) := by
  refine genOk_of_untouched fun st a st1 h => ?_
  rw [markForSplice_apply] at h
  cases h
  exact ⟨rfl, rfl, rfl, rfl⟩

theorem length_lt_of_get? {α : Type} {l : List α} {i : Nat} {x : α} (h : l.get? i = some x) :
    i < l.length := by
  by_contra hge
  rw [List.get?_eq_none.mpr (Nat.le_of_not_lt hge)] at h
  cases h

/-- The count rewrite of `checkForWallBlocks` is a generation step. -/
theorem genOk_setCount (id : Nat) (cnt : Nat) :
    GenOk (modifyBlk id (fun bb => { bb with numberOfAdjacentWalls := cnt })) := by
  intro st a st1 h
  rcases modifyBlk_inv h with ⟨b, hb, rfl⟩
  refine ⟨rfl, rfl, rfl, by simp, fun id2 b2 hb2 => ?_⟩
  by_cases hid : id = id2
  · subst hid
    rw [hb] at hb2
    cases hb2
    refine ⟨{ b with numberOfAdjacentWalls := cnt }, ?_, rfl, rfl, Or.inl rfl, Or.inl rfl⟩
    rw [List.get?_set_eq_of_lt _ (length_lt_of_get? hb)]
  · refine ⟨b2, ?_, rfl, rfl, Or.inl rfl, Or.inl rfl⟩
    rw [List.get?_set_ne _ _ hid]
    exact hb2

theorem getD_of_get? {α : Type} {l : List α} {i : Nat} {x : α} (h : l.get? i = some x)
    (d : α) : l.getD i d = x := by
  rw [List.getD_eq_get?, h]
  rfl

theorem genOk_countWalls (l : List Nat) (acc : Nat) : GenOk (countWalls l acc) := by
  induction l generalizing acc with
  | nil => rw [countWalls_nil]; exact genOk_pure _
  | cons x xs ih =>
    rw [countWalls_cons]
    exact genOk_bind (genOk_getBlk x) (fun b => ih _)

theorem genOk_checkForWallBlocks (id : Nat) : GenOk (checkForWallBlocks id) := by
  unfold checkForWallBlocks
  exact genOk_bind (genOk_getBlk id) (fun b =>
    genOk_bind (genOk_countWalls _ _) (fun cnt => genOk_setCount id cnt))

/-- Inversion of the conditional neighbour reads inside
`getAdjacentBlocks`. -/
theorem readNeighbor_inv {c : Prop} [Decidable c] {i k : Nat} {st st1 : St} {xs : List Nat}
    (h : readNeighbor c i k st = (some xs, st1)) :
    st1 = st ∧ xs = (if c then [(st.mazeRows.getD i []).getD k 0] else []) := by
  unfold readNeighbor at h
  by_cases hc : c
  · rw [if_pos hc] at h
    rcases bind_inv h with ⟨x, stm, h1, h2⟩
    rcases blockIdAt_inv h1 with ⟨r, hr, hk, rfl⟩
    rw [pure_apply] at h2
    cases h2
    rw [if_pos hc, getD_of_get? hr, getD_of_get? hk]
    exact ⟨rfl, rfl⟩
  · rw [if_neg hc] at h
    rw [pure_apply] at h
    cases h
    rw [if_neg hc]
    exact ⟨rfl, rfl⟩

/-- Pure form of a heap write. -/
def setBlkPure (st : St) (id : Nat) (b : Blk) : St :=
  { st with blocks := st.blocks.set id b }

/-- `getAdjacentBlocks id` rewrites exactly `id`'s adjacency list, to the
`ruleNeighborsD` value for its own coordinates. -/
theorem getAdjacentBlocks_spec {id : Nat} {st st1 : St} {u : Unit}
    (h : getAdjacentBlocks id st = (some u, st1)) :
    ∃ b, st.blocks.get? id = some b ∧
      st1 = setBlkPure st id { b with adjacentBlocks := ruleNeighborsD st b.rowIndex b.blockIndex } := by
  unfold getAdjacentBlocks at h
  rcases bind_inv h with ⟨st0, stm0, h0, hA⟩
  rw [getSt_apply] at h0
  cases h0
  rcases bind_inv hA with ⟨b, stm1, hb, hB⟩
  rcases getBlk_inv hb with ⟨hb1, rfl⟩
  rcases bind_inv hB with ⟨a1, stm2, h1, hC⟩
  rcases readNeighbor_inv h1 with ⟨rfl, ha1⟩
  rcases bind_inv hC with ⟨a2, stm3, h2, hD⟩
  rcases readNeighbor_inv h2 with ⟨rfl, ha2⟩
  rcases bind_inv hD with ⟨a3, stm4, h3, hE⟩
  rcases readNeighbor_inv h3 with ⟨rfl, ha3⟩
  rcases bind_inv hE with ⟨a4, stm5, h4, hF⟩
  rcases readNeighbor_inv h4 with ⟨rfl, ha4⟩
  rcases modifyBlk_inv hF with ⟨b2, hb2, rfl⟩
  rw [hb1] at hb2
  cases hb2
  refine ⟨b, hb1, ?_⟩
  rw [ha1, ha2, ha3, ha4]
  rfl

theorem genOk_getAdjacentBlocks (id : Nat) : GenOk (getAdjacentBlocks id) := by
  intro st a st1 h
  rcases getAdjacentBlocks_spec h with ⟨b, hb, rfl⟩
  unfold setBlkPure
  refine ⟨rfl, rfl, rfl, by simp, fun id2 b2 hb2 => ?_⟩
  by_cases hid : id = id2
  · subst hid
    rw [hb] at hb2
    cases hb2
    refine ⟨{ b with adjacentBlocks := ruleNeighborsD st b.rowIndex b.blockIndex }, ?_, rfl, rfl,
      Or.inl rfl, Or.inr rfl⟩
    rw [List.get?_set_eq_of_lt _ (length_lt_of_get? hb)]
  · refine ⟨b2, ?_, rfl, rfl, Or.inl rfl, Or.inl rfl⟩
    rw [List.get?_set_ne _ _ hid]
    exact hb2

/-! ## The candidate scans only touch wall counts -/

/-- What a candidate scan may do: rewrite `numberOfAdjacentWalls` fields
and nothing else. -/
def CountStep (st st1 : St) : Prop :=
  st1.nBlocks = st.nBlocks ∧ st1.mazeRows = st.mazeRows ∧ st1.pathHeap = st.pathHeap ∧
    st1.paths = st.paths ∧ st1.mainPathId = st.mainPathId ∧ st1.pathSeeds = st.pathSeeds ∧
    st1.secondSeeds = st.secondSeeds ∧ st1.pathsToSplice = st.pathsToSplice ∧
    st1.character = st.character ∧ st1.rng = st.rng ∧ st1.blocks.length = st.blocks.length ∧
    ∀ id b, st.blocks.get? id = some b → ∃ b1, st1.blocks.get? id = some b1 ∧
      b1.isWall = b.isWall ∧ b1.rowIndex = b.rowIndex ∧ b1.blockIndex = b.blockIndex ∧
      b1.adjacentBlocks = b.adjacentBlocks

theorem genStep_rngOnly (st : St) (r : List Nat) : GenStep st { st with rng := r } :=
  ⟨rfl, rfl, rfl, rfl, fun id b hb => ⟨b, hb, rfl, rfl, Or.inl rfl, Or.inl rfl⟩⟩

theorem countStep_refl (st : St) : CountStep st st :=
  ⟨rfl, rfl, rfl, rfl, rfl, rfl, rfl, rfl, rfl, rfl, rfl, fun id b hb =>
    ⟨b, hb, rfl, rfl, rfl, rfl⟩⟩

theorem countStep_trans {st st1 st2 : St} (h1 : CountStep st st1) (h2 : CountStep st1 st2) :
    CountStep st st2 := by
  obtain ⟨a1, a2, a3, a4, a5, a6, a7, a8, a9, a10, a11, hb1⟩ := h1
  obtain ⟨c1, c2, c3, c4, c5, c6, c7, c8, c9, c10, c11, hb2⟩ := h2
  refine ⟨c1.trans a1, c2.trans a2, c3.trans a3, c4.trans a4, c5.trans a5, c6.trans a6,
    c7.trans a7, c8.trans a8, c9.trans a9, c10.trans a10, c11.trans a11, fun id b hb => ?_⟩
  obtain ⟨bm, hbm, w1, r1, k1, j1⟩ := hb1 id b hb
  obtain ⟨b2, hb2m, w2, r2, k2, j2⟩ := hb2 id bm hbm
  exact ⟨b2, hb2m, w2.trans w1, r2.trans r1, k2.trans k1, j2.trans j1⟩

theorem countStep_toGenStep {st st1 : St} (h : CountStep st st1) : GenStep st st1 := by
  obtain ⟨a1, a2, a3, a4, a5, a6, a7, a8, a9, a10, a11, hb⟩ := h
  refine ⟨a1, a2, a9, a11, fun id b h1 => ?_⟩
  obtain ⟨b1, hb1, w, r, k, j⟩ := hb id b h1
  exact ⟨b1, hb1, r, k, Or.inl w, Or.inl j⟩

def CountOk {α : Type} (m : M α) : Prop :=
  ∀ st a st1, m st = (some a, st1) → CountStep st st1

theorem countOk_pure {α : Type} (a : α) : CountOk (pure a : M α) := by
  intro st b st1 h
  rw [pure_apply] at h
  cases h
  exact countStep_refl st

theorem countOk_crash {α : Type} : CountOk (crash : M α) := by
  intro st b st1 h
  simp [crash_apply] at h

theorem countOk_bind {α β : Type} {m : M α} {f : α → M β} (hm : CountOk m)
    (hf : ∀ a, CountOk (f a)) : CountOk (m >>= f) := by
  intro st b st2 h
  rcases bind_inv h with ⟨a, st1, h1, h2⟩
  exact countStep_trans (hm _ _ _ h1) (hf a _ _ _ h2)

theorem countOk_ite {α : Type} {c : Prop} [Decidable c] {A B : M α} (hA : CountOk A)
    (hB : CountOk B) : CountOk (if c then A else B) := by
  by_cases hc : c
  · rw [if_pos hc]; exact hA
  · rw [if_neg hc]; exact hB

theorem countOk_of_noop {α : Type} {m : M α}
    (h : ∀ st a st1, m st = (some a, st1) → st1 = st) : CountOk m := by
  intro st a st1 hm
  rw [h st a st1 hm]
  exact countStep_refl st

theorem countOk_getSt : CountOk getSt :=
  countOk_of_noop fun st a st1 h => by rw [getSt_apply] at h; cases h; rfl

theorem countOk_getBlk (id : Nat) : CountOk (getBlk id) :=
  countOk_of_noop fun st a st1 h => (getBlk_inv h).2

theorem countOk_setCount (id cnt : Nat) :
    CountOk (modifyBlk id (fun bb => { bb with numberOfAdjacentWalls := cnt })) := by
  intro st a st1 h
  rcases modifyBlk_inv h with ⟨b, hb, rfl⟩
  refine ⟨rfl, rfl, rfl, rfl, rfl, rfl, rfl, rfl, rfl, rfl, by simp, fun id2 b2 hb2 => ?_⟩
  by_cases hid : id = id2
  · subst hid
    rw [hb] at hb2
    cases hb2
    refine ⟨{ b with numberOfAdjacentWalls := cnt }, ?_, rfl, rfl, rfl, rfl⟩
    rw [List.get?_set_eq_of_lt _ (length_lt_of_get? hb)]
  · refine ⟨b2, ?_, rfl, rfl, rfl, rfl⟩
    rw [List.get?_set_ne _ _ hid]
    exact hb2

theorem countOk_countWalls (l : List Nat) (acc : Nat) : CountOk (countWalls l acc) := by
  induction l generalizing acc with
  | nil => rw [countWalls_nil]; exact countOk_pure _
  | cons x xs ih =>
    rw [countWalls_cons]
    exact countOk_bind (countOk_getBlk x) (fun b => ih _)

theorem countOk_checkForWallBlocks (id : Nat) : CountOk (checkForWallBlocks id) := by
  unfold checkForWallBlocks
  exact countOk_bind (countOk_getBlk id) (fun b =>
    countOk_bind (countOk_countWalls _ _) (fun cnt => countOk_setCount id cnt))

theorem countOk_makePathPoolGo (curRow : Nat) (l acc : List Nat) :
    CountOk (makePathPoolGo curRow l acc) := by
  induction l generalizing acc with
  | nil => rw [makePathPoolGo_nil]; exact countOk_pure _
  | cons nId rest ih =>
    rw [makePathPoolGo_cons]
    refine countOk_bind countOk_getSt (fun st0 => countOk_bind (countOk_getBlk nId) (fun nb => ?_))
    refine countOk_ite ?_ (ih _)
    exact countOk_bind (countOk_checkForWallBlocks nId) (fun u =>
      countOk_bind (countOk_getBlk nId) (fun nb2 => ih _))

theorem countOk_makePathPool (curId : Nat) : CountOk (makePathPool curId) := by
  unfold makePathPool
  exact countOk_bind (countOk_getBlk curId) (fun cur => countOk_makePathPoolGo _ _ _)

theorem countOk_subPoolGo (l acc : List Nat) : CountOk (subPoolGo l acc) := by
  induction l generalizing acc with
  | nil => rw [subPoolGo_nil]; exact countOk_pure _
  | cons nId rest ih =>
    rw [subPoolGo_cons]
    refine countOk_bind (countOk_checkForWallBlocks nId) (fun u =>
      countOk_bind countOk_getSt (fun st0 => countOk_bind (countOk_getBlk nId) (fun nb => ?_)))
    exact countOk_ite (ih _) (countOk_ite (ih _) (ih _))

theorem countOk_subPool (curId : Nat) : CountOk (subPool curId) := by
  unfold subPool
  exact countOk_bind (countOk_getBlk curId) (fun cur => countOk_subPoolGo _ _)

theorem countOk_extendMainPoolGo (latestRow : Nat) (l acc : List Nat) :
    CountOk (extendMainPoolGo latestRow l acc) := by
  induction l generalizing acc with
  | nil => rw [extendMainPoolGo_nil]; exact countOk_pure _
  | cons nId rest ih =>
    rw [extendMainPoolGo_cons]
    refine countOk_bind (countOk_checkForWallBlocks nId) (fun u =>
      countOk_bind countOk_getSt (fun st0 => countOk_bind (countOk_getBlk nId) (fun nb => ?_)))
    exact countOk_ite (ih _) (countOk_ite (ih _) (ih _))

theorem countOk_extendMainPool (latestId : Nat) : CountOk (extendMainPool latestId) := by
  unfold extendMainPool
  exact countOk_bind (countOk_getBlk latestId) (fun latest => countOk_extendMainPoolGo _ _ _)

theorem countOk_extendPathsPoolGo (stLen : Nat) (l acc : List Nat) (lastEx : Option Nat) :
    CountOk (extendPathsPoolGo stLen l acc lastEx) := by
  induction l generalizing acc lastEx with
  | nil => rw [extendPathsPoolGo_nil]; exact countOk_pure _
  | cons nId rest ih =>
    rw [extendPathsPoolGo_cons]
    refine countOk_bind (countOk_checkForWallBlocks nId) (fun u =>
      countOk_bind countOk_getSt (fun st0 => countOk_bind (countOk_getBlk nId) (fun nb => ?_)))
    exact countOk_ite (ih _ _) (ih _ _)

/-! ## Candidate membership facts -/

/-- The facts used about a block chosen from a candidate pool, stated in a
given state. -/
def PoolFact (st : St) (x : Nat) (up : Nat → Prop) : Prop :=
  ∃ b, st.blocks.get? x = some b ∧ 1 ≤ b.rowIndex ∧ up b.rowIndex

theorem poolFact_transport {st st1 : St} {x : Nat} {up : Nat → Prop}
    (hc : CountStep st st1) (h : PoolFact st x up) : PoolFact st1 x up := by
  obtain ⟨b, hb, h1, h2⟩ := h
  obtain ⟨-, -, -, -, -, -, -, -, -, -, -, hblocks⟩ := hc
  obtain ⟨b1, hb1, -, hrow, -, -⟩ := hblocks x b hb
  exact ⟨b1, hb1, by rw [hrow]; exact h1, by rw [hrow]; exact h2⟩

theorem makePathPoolGo_mem {curRow : Nat} :
    ∀ (l acc : List Nat) (st : St) (pool : List Nat) (st1 : St),
      makePathPoolGo curRow l acc st = (some pool, st1) →
      ∀ x ∈ pool, x ∈ acc ∨ PoolFact st1 x (fun r => r ≤ curRow) := by
  intro l
  induction l with
  | nil =>
    intro acc st pool st1 h x hx
    rw [makePathPoolGo_nil, pure_apply] at h
    cases h
    exact Or.inl hx
  | cons nId rest ih =>
    intro acc st pool st1 h x hx
    rw [makePathPoolGo_cons] at h
    rcases bind_inv h with ⟨st0, stm0, h0, hA⟩
    obtain ⟨rfl, rfl⟩ := getSt_inv h0
    rcases bind_inv hA with ⟨nb, stm1, hnb, hB⟩
    rcases getBlk_inv hnb with ⟨hnb1, rfl⟩
    split at hB
    case isTrue hc =>
      rcases bind_inv hB with ⟨u, stm2, hck, hC⟩
      rcases bind_inv hC with ⟨nb2, stm3, hnb2, hD⟩
      rcases getBlk_inv hnb2 with ⟨-, rfl⟩
      rcases ih _ _ _ _ hD x hx with hacc | hfact
      · have hsplit : x ∈ acc ∨ x = nId := by
          by_cases h1 : 1 < nb2.numberOfAdjacentWalls <;>
            by_cases h2 : 2 < nb2.numberOfAdjacentWalls <;>
            simp only [h1, h2, if_pos, if_neg, if_true, if_false, List.mem_append,
              List.mem_singleton] at hacc <;> tauto
        rcases hsplit with hy | rfl
        · exact Or.inl hy
        · refine Or.inr (poolFact_transport (countOk_makePathPoolGo _ _ _ _ _ _ hD)
            (poolFact_transport (countOk_checkForWallBlocks _ _ _ _ hck) ?_))
          exact ⟨nb, hnb1, hc.1, hc.2.1⟩
      · exact Or.inr hfact
    case isFalse hc =>
      rcases ih _ _ _ _ hB x hx with hacc | hfact
      · exact Or.inl hacc
      · exact Or.inr hfact

/-! ## The whole generation phase is made of generation steps -/

theorem genOk_of_countOk {α : Type} {m : M α} (h : CountOk m) : GenOk m :=
  fun st a st1 hm => countStep_toGenStep (h st a st1 hm)

theorem genOk_setWallFalse (id : Nat) : GenOk (setWallFalse id) := by
  intro st a st1 h
  rcases modifyBlk_inv h with ⟨b, hb, rfl⟩
  refine ⟨rfl, rfl, rfl, by simp, fun id2 b2 hb2 => ?_⟩
  by_cases hid : id = id2
  · subst hid
    rw [hb] at hb2
    cases hb2
    refine ⟨{ b with isWall := false }, ?_, rfl, rfl, Or.inr rfl, Or.inl rfl⟩
    rw [List.get?_set_eq_of_lt _ (length_lt_of_get? hb)]
  · refine ⟨b2, ?_, rfl, rfl, Or.inl rfl, Or.inl rfl⟩
    rw [List.get?_set_ne _ _ hid]
    exact hb2

theorem genOk_forIds {f : Nat → M Unit} (hf : ∀ x, GenOk (f x)) (l : List Nat) :
    GenOk (forIds f l) := by
  induction l with
  | nil => rw [forIds_nil]; exact genOk_pure _
  | cons x xs ih =>
    rw [forIds_cons]
    exact genOk_bind (hf x) (fun u => ih)

theorem genOk_modifySt {f : St → St}
    (h : ∀ st, (f st).blocks = st.blocks ∧ (f st).mazeRows = st.mazeRows ∧
      (f st).nBlocks = st.nBlocks ∧ (f st).character = st.character) :
    GenOk (modifySt f) := by
  refine genOk_of_untouched fun st a st1 hm => ?_
  rw [modifySt_apply] at hm
  cases hm
  exact h st

theorem genOk_matchOpt {β : Type} (o : Option β) (f : β → M Unit) (g : M Unit)
    (hf : ∀ b, GenOk (f b)) (hg : GenOk g) :
    GenOk (fun st => (match o with
      | some b => f b
      | none => g) st) := by
  cases o with
  | none => exact hg
  | some b => exact hf b

theorem genOk_makePathLoop (fuel pid curId : Nat) : GenOk (makePathLoop fuel pid curId) := by
  induction fuel generalizing curId with
  | zero => rw [makePathLoop_zero]; exact genOk_crash
  | succ fuel ih =>
    rw [makePathLoop_succ]
    refine genOk_bind (genOk_of_countOk (countOk_makePathPool curId)) (fun pool => ?_)
    refine genOk_bind (genOk_getBlk curId) (fun cur => ?_)
    apply genOk_ite
    · exact genOk_pure _
    refine genOk_bind (genOk_randBelow _) (fun j => ?_)
    refine genOk_bind (genOk_listGet _ _) (fun nId => ?_)
    refine genOk_bind (genOk_setWallFalse nId) (fun u1 => ?_)
    refine genOk_bind (genOk_pushSub pid nId) (fun u2 => ?_)
    refine genOk_bind (genOk_randBelow _) (fun s => ?_)
    refine genOk_bind ?_ (fun u3 => ih nId)
    apply genOk_ite
    · exact genOk_pushPathSeed nId
    · exact genOk_pure _

theorem genOk_makeSubPathLoop (fuel pid curId : Nat) : GenOk (makeSubPathLoop fuel pid curId) := by
  induction fuel generalizing curId with
  | zero => rw [makeSubPathLoop_zero]; exact genOk_crash
  | succ fuel ih =>
    rw [makeSubPathLoop_succ]
    refine genOk_bind (genOk_of_countOk (countOk_subPool curId)) (fun pool => ?_)
    refine genOk_bind ?_ (fun newCur => ?_)
    · apply genOk_ite
      · refine genOk_bind (genOk_randBelow _) (fun j => ?_)
        refine genOk_bind (genOk_listGet _ _) (fun nId => ?_)
        refine genOk_bind (genOk_setWallFalse nId) (fun u1 => ?_)
        exact genOk_bind (genOk_pushSub pid nId) (fun u2 => genOk_pure _)
      · exact genOk_pure _
    refine genOk_bind (genOk_getBlk newCur) (fun nb => ?_)
    refine genOk_bind (genOk_getPath pid) (fun pd => ?_)
    apply genOk_ite
    · apply genOk_ite
      · exact genOk_markForSplice pid
      · exact genOk_pure _
    refine genOk_bind (genOk_randBelow _) (fun s => ?_)
    refine genOk_bind ?_ (fun u3 => ih newCur)
    apply genOk_ite
    · exact genOk_pushSecondSeed newCur
    · exact genOk_pure _

theorem genOk_makeSubPath (fuel firstBlock : Nat) : GenOk (makeSubPath fuel firstBlock) := by
  unfold makeSubPath
  refine genOk_bind genOk_newPath (fun pid => ?_)
  refine genOk_bind genOk_getSt (fun st0 => ?_)
  refine genOk_bind (genOk_randBelow _) (fun d => ?_)
  refine genOk_bind (genOk_modifyPath pid _) (fun u1 => ?_)
  exact genOk_bind (genOk_pushSub pid firstBlock) (fun u2 => genOk_makeSubPathLoop fuel pid firstBlock)

theorem genOk_drainSecondSeeds (fuel i : Nat) : GenOk (drainSecondSeeds fuel i) := by
  induction fuel generalizing i with
  | zero => rw [drainSecondSeeds_zero]; exact genOk_crash
  | succ fuel ih =>
    rw [drainSecondSeeds_succ]
    refine genOk_bind genOk_getSt (fun st0 => ?_)
    cases hg : st0.secondSeeds.get? i with
    | none => exact genOk_pure _
    | some seed => exact genOk_bind (genOk_makeSubPath fuel seed) (fun u => ih (i + 1))

theorem genOk_spliceMarked : GenOk spliceMarked := by
  unfold spliceMarked
  refine genOk_bind genOk_getSt (fun st0 => ?_)
  refine genOk_forIds (fun p => ?_) _
  exact genOk_modifySt (fun st => ⟨rfl, rfl, rfl, rfl⟩)

theorem genOk_extendMainPathLoop (fuel pid latestId : Nat) :
    GenOk (extendMainPathLoop fuel pid latestId) := by
  induction fuel generalizing latestId with
  | zero => rw [extendMainPathLoop_zero]; exact genOk_crash
  | succ fuel ih =>
    rw [extendMainPathLoop_succ]
    refine genOk_bind (genOk_of_countOk (countOk_extendMainPool latestId)) (fun pool => ?_)
    refine genOk_bind ?_ (fun newLatest => ?_)
    · apply genOk_ite
      · refine genOk_bind (genOk_randBelow _) (fun j => ?_)
        refine genOk_bind (genOk_listGet _ _) (fun nId => ?_)
        refine genOk_bind (genOk_setWallFalse nId) (fun u1 => ?_)
        refine genOk_bind (genOk_pushSub pid nId) (fun u2 => ?_)
        exact genOk_bind (genOk_dropSubHead pid) (fun u3 => genOk_pure _)
      · exact genOk_pure _
    refine genOk_bind (genOk_getBlk newLatest) (fun nb => ?_)
    apply genOk_ite
    · exact genOk_pure _
    refine genOk_bind (genOk_randBelow _) (fun s => ?_)
    refine genOk_bind ?_ (fun u3 => ih newLatest)
    apply genOk_ite
    · exact genOk_pushPathSeed newLatest
    · exact genOk_pure _

theorem genOk_extendMainPath (fuel : Nat) : GenOk (extendMainPath fuel) := by
  unfold extendMainPath
  refine genOk_bind genOk_getSt (fun st0 => ?_)
  cases st0.mainPathId with
  | none =>
    exact genOk_bind genOk_crash (fun pid => genOk_bind (genOk_getPath pid) (fun p =>
      genOk_bind (genOk_listGet _ _) (fun latest => genOk_extendMainPathLoop fuel pid latest)))
  | some q =>
    exact genOk_bind (genOk_pure q) (fun pid => genOk_bind (genOk_getPath pid) (fun p =>
      genOk_bind (genOk_listGet _ _) (fun latest => genOk_extendMainPathLoop fuel pid latest)))

theorem genOk_extendPathsLoop (fuel pid latestId : Nat) (lastEx : Option Nat) :
    GenOk (extendPathsLoop fuel pid latestId lastEx) := by
  induction fuel generalizing latestId lastEx with
  | zero => rw [extendPathsLoop_zero]; exact genOk_crash
  | succ fuel ih =>
    rw [extendPathsLoop_succ]
    refine genOk_bind (genOk_getBlk latestId) (fun latest => ?_)
    refine genOk_bind genOk_getSt (fun st0 => ?_)
    refine genOk_bind (genOk_of_countOk (countOk_extendPathsPoolGo _ _ _ _)) (fun poolPair => ?_)
    refine genOk_bind ?_ (fun newLatest => ?_)
    · apply genOk_ite
      · refine genOk_bind (genOk_randBelow _) (fun j => ?_)
        refine genOk_bind (genOk_listGet _ _) (fun nId => ?_)
        refine genOk_bind (genOk_setWallFalse nId) (fun u1 => ?_)
        refine genOk_bind (genOk_pushSub pid nId) (fun u2 => ?_)
        refine genOk_bind (genOk_randBelow _) (fun s => ?_)
        refine genOk_bind ?_ (fun u3 => genOk_pure _)
        apply genOk_ite
        · exact genOk_pushSecondSeed nId
        · exact genOk_pure _
      · exact genOk_pure _
    refine genOk_bind (genOk_getBlk newLatest) (fun nb => ?_)
    refine genOk_bind (genOk_getPath pid) (fun pd => ?_)
    apply genOk_ite
    · refine genOk_bind ?_ (fun mark => ?_)
      · apply genOk_ite
        · exact genOk_pure _
        apply genOk_ite
        · exact genOk_pure _
        refine genOk_bind ?_ (fun lb => genOk_bind genOk_getSt (fun st1 => genOk_pure _))
        cases poolPair.2 with
        | none => exact genOk_crash
        | some x => exact genOk_getBlk x
      apply genOk_ite
      · exact genOk_markForSplice pid
      · exact genOk_pure _
    · exact ih newLatest _

theorem genOk_extendPaths (fuel pid : Nat) : GenOk (extendPaths fuel pid) := by
  unfold extendPaths
  refine genOk_bind (genOk_getPath pid) (fun p => ?_)
  refine genOk_bind (genOk_listGet _ _) (fun latest => ?_)
  exact genOk_bind (genOk_getAdjacentBlocks latest) (fun u => genOk_extendPathsLoop fuel pid latest none)

theorem genOk_perpetuateGo (fuel : Nat) (l : List Nat) : GenOk (perpetuateGo fuel l) := by
  induction l with
  | nil => rw [perpetuateGo_nil]; exact genOk_pure _
  | cons pid rest ih =>
    rw [perpetuateGo_cons]
    refine genOk_bind (genOk_extendPaths fuel pid) (fun u1 => ?_)
    refine genOk_bind (genOk_getPath pid) (fun p => ?_)
    exact genOk_bind (genOk_ite (genOk_markForSplice pid) (genOk_pure _)) (fun u2 => ih)

theorem genOk_shiftPaths (fuel : Nat) : GenOk (shiftPaths fuel) := by
  unfold shiftPaths
  refine genOk_bind genOk_spliceMarked (fun u1 => ?_)
  refine genOk_bind (genOk_modifySt (fun st => ⟨rfl, rfl, rfl, rfl⟩)) (fun u2 => ?_)
  refine genOk_bind (genOk_extendMainPath fuel) (fun u3 => ?_)
  refine genOk_bind genOk_getSt (fun st0 => ?_)
  refine genOk_bind (genOk_forIds (genOk_makeSubPath fuel) _) (fun u4 => ?_)
  refine genOk_bind (genOk_modifySt (fun st => ⟨rfl, rfl, rfl, rfl⟩)) (fun u5 => ?_)
  refine genOk_bind genOk_getSt (fun st2 => ?_)
  refine genOk_bind (genOk_perpetuateGo fuel _) (fun u6 => ?_)
  refine genOk_bind (genOk_drainSecondSeeds fuel 0) (fun u7 => ?_)
  exact genOk_modifySt (fun st => ⟨rfl, rfl, rfl, rfl⟩)

theorem genOk_makePath (fuel : Nat) : GenOk (makePath fuel) := by
  unfold makePath
  refine genOk_bind genOk_newPath (fun pid => ?_)
  refine genOk_bind (genOk_modifySt (fun st => ⟨rfl, rfl, rfl, rfl⟩)) (fun u0 => ?_)
  refine genOk_bind genOk_getSt (fun st0 => ?_)
  refine genOk_bind (genOk_modifyPath pid _) (fun u1 => ?_)
  refine genOk_bind (genOk_modifySt (fun st => ⟨rfl, rfl, rfl, rfl⟩)) (fun u2 => ?_)
  refine genOk_bind genOk_getSt (fun st1 => ?_)
  refine genOk_bind (genOk_rowAt _) (fun bottom => ?_)
  refine genOk_bind (genOk_randBelow _) (fun rIdx => ?_)
  refine genOk_bind (genOk_blockIdAt _ _) (fun cb0 => ?_)
  refine genOk_bind (genOk_setWallFalse cb0) (fun u3 => ?_)
  refine genOk_bind (genOk_pushSub pid cb0) (fun u4 => ?_)
  refine genOk_bind (genOk_blockIdAt _ _) (fun cb1 => ?_)
  refine genOk_bind (genOk_setWallFalse cb1) (fun u5 => ?_)
  refine genOk_bind (genOk_pushSub pid cb1) (fun u6 => ?_)
  refine genOk_bind (genOk_makePathLoop fuel pid cb1) (fun u7 => ?_)
  refine genOk_bind genOk_getSt (fun st2 => ?_)
  refine genOk_bind (genOk_forIds (genOk_makeSubPath fuel) _) (fun u8 => ?_)
  refine genOk_bind (genOk_drainSecondSeeds fuel 0) (fun u9 => ?_)
  refine genOk_bind genOk_spliceMarked (fun u10 => ?_)
  exact genOk_modifySt (fun st => ⟨rfl, rfl, rfl, rfl⟩)


/-! ## Invariants -/

/-- The grid shape the code actually maintains: `3*numberOfRowBlocks + 1`
rows of `numberOfRowBlocks - 1` blocks each (the claimed `3*width` rows of
`width` cells is off by the `- 2` loop bounds of `makeMaze`). -/
def Shape (st : St) : Prop :=
  st.mazeRows.length = 3 * st.nBlocks + 1 ∧ ∀ r ∈ st.mazeRows, r.length = st.nBlocks - 1

/-- Every block stored at grid position `(i, k)` carries `rowIndex = i`
and `blockIndex = k`. -/
def IdxOK (st : St) : Prop :=
  ∀ i r k id, st.mazeRows.get? i = some r → r.get? k = some id →
    ∃ b, st.blocks.get? id = some b ∧ b.rowIndex = i ∧ b.blockIndex = k

def MazeIdsValid (st : St) : Prop :=
  ∀ id ∈ st.mazeRows.flatten, id < st.blocks.length

def NodupIds (st : St) : Prop := st.mazeRows.flatten.Nodup

def GridInv (st : St) : Prop := Shape st ∧ IdxOK st ∧ MazeIdsValid st ∧ NodupIds st

/-- `id` dereferences to a floor block. -/
def FloorAt (st : St) (id : Nat) : Prop :=
  ∃ b, st.blocks.get? id = some b ∧ b.isWall = false

/-- The character stands on a floor block of the current grid. -/
def CharOK (st : St) : Prop :=
  ∀ id, st.character = some id → id ∈ st.mazeRows.flatten ∧ FloorAt st id

def PathsFloor (st : St) : Prop :=
  ∀ pid ∈ st.paths, ∃ pd, st.pathHeap.get? pid = some pd ∧ ∀ id ∈ pd.subPath, FloorAt st id

def MainFloor (st : St) : Prop :=
  ∀ pid, st.mainPathId = some pid →
    ∃ pd, st.pathHeap.get? pid = some pd ∧ ∀ id ∈ pd.subPath, FloorAt st id

def SeedsFloor (st : St) : Prop :=
  ∀ id ∈ st.pathSeeds ++ st.secondSeeds, FloorAt st id

def PathsInv (st : St) : Prop := PathsFloor st ∧ MainFloor st ∧ SeedsFloor st

theorem floorAt_mono {st st1 : St} (h : GenStep st st1) {id : Nat} (hf : FloorAt st id) :
    FloorAt st1 id := by
  obtain ⟨b, hb, hw⟩ := hf
  obtain ⟨-, -, -, -, hblocks⟩ := h
  obtain ⟨b1, hb1, -, -, hw1, -⟩ := hblocks id b hb
  rcases hw1 with hw1 | hw1
  · exact ⟨b1, hb1, hw1.trans hw⟩
  · exact ⟨b1, hb1, hw1⟩

theorem shape_mono {st st1 : St} (h : GenStep st st1) (hs : Shape st) : Shape st1 := by
  obtain ⟨hn, hr, -, -, -⟩ := h
  rw [Shape, hn, hr]
  exact hs

theorem idxOK_mono {st st1 : St} (h : GenStep st st1) (hi : IdxOK st) : IdxOK st1 := by
  obtain ⟨-, hr, -, -, hblocks⟩ := h
  intro i r k id h1 h2
  rw [hr] at h1
  obtain ⟨b, hb, hrow, hcol⟩ := hi i r k id h1 h2
  obtain ⟨b1, hb1, hrow1, hcol1, -, -⟩ := hblocks id b hb
  exact ⟨b1, hb1, hrow1.trans hrow, hcol1.trans hcol⟩

theorem mazeIdsValid_mono {st st1 : St} (h : GenStep st st1) (hv : MazeIdsValid st) :
    MazeIdsValid st1 := by
  obtain ⟨-, hr, -, hl, -⟩ := h
  intro id hid
  rw [hr] at hid
  rw [hl]
  exact hv id hid

theorem nodupIds_mono {st st1 : St} (h : GenStep st st1) (hn : NodupIds st) : NodupIds st1 := by
  obtain ⟨-, hr, -, -, -⟩ := h
  rw [NodupIds, hr]
  exact hn

theorem gridInv_mono {st st1 : St} (h : GenStep st st1) (hg : GridInv st) : GridInv st1 :=
  ⟨shape_mono h hg.1, idxOK_mono h hg.2.1, mazeIdsValid_mono h hg.2.2.1,
    nodupIds_mono h hg.2.2.2⟩

theorem charOK_mono {st st1 : St} (h : GenStep st st1) (hc : CharOK st) : CharOK st1 := by
  intro id hid
  rw [h.2.2.1] at hid
  obtain ⟨hmem, hf⟩ := hc id hid
  rw [h.2.1]
  exact ⟨hmem, floorAt_mono h hf⟩

/-- A block that becomes adjacency-rule-correct stays so across generation
steps. -/
def AdjRuled (st : St) (id : Nat) : Prop :=
  ∃ b, st.blocks.get? id = some b ∧
    b.adjacentBlocks = ruleNeighborsD st b.rowIndex b.blockIndex

theorem adjRuled_mono {st st1 : St} (h : GenStep st st1) {id : Nat} (ha : AdjRuled st id) :
    AdjRuled st1 id := by
  obtain ⟨b, hb, hadj⟩ := ha
  obtain ⟨hn, hr, -, -, hblocks⟩ := h
  obtain ⟨b1, hb1, hrow, hcol, -, hadj1⟩ := hblocks id b hb
  rcases hadj1 with hadj1 | hadj1
  · refine ⟨b1, hb1, ?_⟩
    rw [hadj1, hadj, hrow, hcol, ruleNeighborsD_congr hr hn]
  · exact ⟨b1, hb1, hadj1⟩

/-- A block whose adjacency list is empty either keeps it empty or gets
the rule value, across generation steps. -/
def AdjEmptyOrRuled (st : St) (id : Nat) : Prop :=
  ∃ b, st.blocks.get? id = some b ∧
    (b.adjacentBlocks = [] ∨
      b.adjacentBlocks = ruleNeighborsD st b.rowIndex b.blockIndex)

theorem adjEmptyOrRuled_mono {st st1 : St} (h : GenStep st st1) {id : Nat}
    (ha : AdjEmptyOrRuled st id) : AdjEmptyOrRuled st1 id := by
  obtain ⟨b, hb, hadj⟩ := ha
  obtain ⟨hn, hr, -, -, hblocks⟩ := h
  obtain ⟨b1, hb1, hrow, hcol, -, hadj1⟩ := hblocks id b hb
  rcases hadj1 with hadj1 | hadj1
  · rcases hadj with hadj | hadj
    · exact ⟨b1, hb1, Or.inl (hadj1.trans hadj)⟩
    · refine ⟨b1, hb1, Or.inr ?_⟩
      rw [hadj1, hadj, hrow, hcol, ruleNeighborsD_congr hr hn]
  · exact ⟨b1, hb1, Or.inr hadj1⟩


/-! ## Preservation of the path/seed floor invariants -/

def PSOk {α : Type} (m : M α) : Prop :=
  ∀ st a st1, m st = (some a, st1) → PathsInv st → PathsInv st1

theorem floorAt_of_eq {st st1 : St} (h : st1.blocks = st.blocks) {id : Nat}
    (hf : FloorAt st id) : FloorAt st1 id := by
  obtain ⟨b, hb, hw⟩ := hf
  exact ⟨b, by rw [h]; exact hb, hw⟩

/-- The invariant transports along any generation step that keeps the path-side fields. -/
theorem pathsInv_of_genStep_keep {st st1 : St} (hg : GenStep st st1)
    (hheap : st1.pathHeap = st.pathHeap) (hpaths : st1.paths = st.paths)
    (hmain : st1.mainPathId = st.mainPathId) (hseeds : st1.pathSeeds = st.pathSeeds)
    (hsec : st1.secondSeeds = st.secondSeeds) (h : PathsInv st) : PathsInv st1 := by
  obtain ⟨hp, hm, hs⟩ := h
  refine ⟨?_, ?_, ?_⟩
  · intro pid hpid
    rw [hpaths] at hpid
    obtain ⟨pd, hpd, hall⟩ := hp pid hpid
    exact ⟨pd, by rw [hheap]; exact hpd, fun id hid => floorAt_mono hg (hall id hid)⟩
  · intro pid hpid
    rw [hmain] at hpid
    obtain ⟨pd, hpd, hall⟩ := hm pid hpid
    exact ⟨pd, by rw [hheap]; exact hpd, fun id hid => floorAt_mono hg (hall id hid)⟩
  · intro id hid
    rw [hseeds, hsec] at hid
    exact floorAt_mono hg (hs id hid)

theorem psOk_of_countOk {α : Type} {m : M α} (h : CountOk m) : PSOk m := by
  intro st a st1 hm hinv
  have hc := h st a st1 hm
  have hc2 := hc
  obtain ⟨-, -, c3, c4, c5, c6, c7, -, -, -, -, -⟩ := hc2
  exact pathsInv_of_genStep_keep (countStep_toGenStep hc) c3 c4 c5 c6 c7 hinv

theorem psOk_getSt : PSOk getSt := by
  intro st a st1 h hinv
  rcases getSt_inv h with ⟨-, rfl⟩
  exact hinv

theorem psOk_randBelow (n : Nat) : PSOk (randBelow n) := by
  intro st a st1 h hinv
  rw [randBelow_apply] at h
  cases h
  exact pathsInv_of_genStep_keep (genStep_refl _) rfl rfl rfl rfl rfl hinv

theorem psOk_listGet {α : Type} (l : List α) (i : Nat) : PSOk (listGet l i) := by
  intro st a st1 h hinv
  rcases listGet_inv h with ⟨-, rfl⟩
  exact hinv

theorem psOk_getBlk (id : Nat) : PSOk (getBlk id) := by
  intro st a st1 h hinv
  rcases getBlk_inv h with ⟨-, rfl⟩
  exact hinv

theorem psOk_getPath (pid : Nat) : PSOk (getPath pid) := by
  intro st a st1 h hinv
  rcases getPath_inv h with ⟨-, rfl⟩
  exact hinv

theorem psOk_markForSplice (pid : Nat) : PSOk (markForSplice pid) := by
  intro st a st1 h hinv
  rw [markForSplice_apply] at h
  cases h
  exact pathsInv_of_genStep_keep (genStep_refl _) rfl rfl rfl rfl rfl hinv

/-- A flip preserves the invariant and makes its target a floor block. -/
theorem psOk_setWallFalse {id : Nat} {st st1 : St} {u : Unit}
    (h : setWallFalse id st = (some u, st1)) (hinv : PathsInv st) :
    PathsInv st1 ∧ FloorAt st1 id := by
  have hgen := genOk_setWallFalse id st u st1 h
  rcases modifyBlk_inv h with ⟨b, hb, rfl⟩
  refine ⟨pathsInv_of_genStep_keep hgen rfl rfl rfl rfl rfl hinv, ?_⟩
  exact ⟨{ b with isWall := false },
    by rw [List.get?_set_eq_of_lt _ (length_lt_of_get? hb)], rfl⟩


theorem heapFloor_setAux {st : St} {pid : Nat} {p q : PathD}
    (hp : st.pathHeap.get? pid = some p)
    (hq : ∀ i ∈ q.subPath, i ∈ p.subPath ∨ FloorAt st i)
    {pid2 : Nat} {pd : PathD} (hpd : st.pathHeap.get? pid2 = some pd)
    (hall : ∀ i ∈ pd.subPath, FloorAt st i) :
    ∃ pd1, (st.pathHeap.set pid q).get? pid2 = some pd1 ∧ ∀ i ∈ pd1.subPath, FloorAt st i := by
  by_cases he : pid = pid2
  · subst he
    rw [hp] at hpd
    cases hpd
    refine ⟨q, by rw [List.get?_set_eq_of_lt _ (length_lt_of_get? hp)], ?_⟩
    intro i hi
    rcases hq i hi with hi2 | hi2
    · exact hall i hi2
    · exact hi2
  · exact ⟨pd, by rw [List.get?_set_ne _ _ he]; exact hpd, hall⟩

/-- `modifyPath` preserves the invariant whenever the rewritten record only
holds blocks that were already in it or are floors. -/
theorem psOk_modifyPath {pid : Nat} {f : PathD → PathD} {st st1 : St} {u : Unit}
    (h : modifyPath pid f st = (some u, st1)) (hinv : PathsInv st)
    (hf : ∀ p, st.pathHeap.get? pid = some p →
      ∀ i ∈ (f p).subPath, i ∈ p.subPath ∨ FloorAt st i) :
    PathsInv st1 := by
  rcases modifyPath_inv h with ⟨p, hp, rfl⟩
  obtain ⟨hP, hM, hS⟩ := hinv
  refine ⟨?_, ?_, fun i hi => floorAt_of_eq rfl (hS i hi)⟩
  · intro pid2 hpid2
    obtain ⟨pd, hpd, hall⟩ := hP pid2 hpid2
    obtain ⟨pd1, hpd1, hall1⟩ := heapFloor_setAux hp (hf p hp) hpd hall
    exact ⟨pd1, hpd1, fun i hi => floorAt_of_eq rfl (hall1 i hi)⟩
  · intro pid2 hpid2
    obtain ⟨pd, hpd, hall⟩ := hM pid2 hpid2
    obtain ⟨pd1, hpd1, hall1⟩ := heapFloor_setAux hp (hf p hp) hpd hall
    exact ⟨pd1, hpd1, fun i hi => floorAt_of_eq rfl (hall1 i hi)⟩

theorem psOk_pushSub {pid id : Nat} {st st1 : St} {u : Unit}
    (h : pushSub pid id st = (some u, st1)) (hinv : PathsInv st) (hfl : FloorAt st id) :
    PathsInv st1 := by
  refine psOk_modifyPath h hinv ?_
  intro p hp i hi
  rcases List.mem_append.mp hi with hi | hi
  · exact Or.inl hi
  · rw [List.mem_singleton] at hi
    subst hi
    exact Or.inr hfl

theorem psOk_dropSubHead {pid : Nat} {st st1 : St} {u : Unit}
    (h : dropSubHead pid st = (some u, st1)) (hinv : PathsInv st) : PathsInv st1 := by
  refine psOk_modifyPath h hinv ?_
  intro p hp i hi
  exact Or.inl (List.mem_of_mem_tail hi)

theorem psOk_setDistance {pid d : Nat} {st st1 : St} {u : Unit}
    (h : modifyPath pid (fun p => { p with distance := d }) st = (some u, st1))
    (hinv : PathsInv st) : PathsInv st1 := by
  refine psOk_modifyPath h hinv ?_
  intro p hp i hi
  exact Or.inl hi

theorem psOk_pushPathSeed {id : Nat} {st st1 : St} {u : Unit}
    (h : pushPathSeed id st = (some u, st1)) (hinv : PathsInv st) (hfl : FloorAt st id) :
    PathsInv st1 := by
  rw [pushPathSeed_apply] at h
  cases h
  obtain ⟨hP, hM, hS⟩ := hinv
  refine ⟨hP, hM, ?_⟩
  intro i hi
  rcases List.mem_append.mp hi with hi | hi
  · rcases List.mem_append.mp hi with hi | hi
    · exact hS i (List.mem_append.mpr (Or.inl hi))
    · rw [List.mem_singleton] at hi
      subst hi
      exact hfl
  · exact hS i (List.mem_append.mpr (Or.inr hi))

theorem psOk_pushSecondSeed {id : Nat} {st st1 : St} {u : Unit}
    (h : pushSecondSeed id st = (some u, st1)) (hinv : PathsInv st) (hfl : FloorAt st id) :
    PathsInv st1 := by
  rw [pushSecondSeed_apply] at h
  cases h
  obtain ⟨hP, hM, hS⟩ := hinv
  refine ⟨hP, hM, ?_⟩
  intro i hi
  rcases List.mem_append.mp hi with hi | hi
  · exact hS i (List.mem_append.mpr (Or.inl hi))
  · rcases List.mem_append.mp hi with hi | hi
    · exact hS i (List.mem_append.mpr (Or.inr hi))
    · rw [List.mem_singleton] at hi
      subst hi
      exact hfl

theorem psOk_newPath {st st1 : St} {pid : Nat}
    (h : newPath st = (some pid, st1)) (hinv : PathsInv st) :
    PathsInv st1 ∧ pid = st.pathHeap.length ∧
      st1 = { st with pathHeap := st.pathHeap ++ [{ subPath := [], distance := 0 }],
                      paths := st.paths ++ [st.pathHeap.length] } := by
  rw [newPath_apply] at h
  cases h
  obtain ⟨hP, hM, hS⟩ := hinv
  refine ⟨⟨?_, ?_, hS⟩, rfl, rfl⟩
  · intro pid2 hpid2
    rcases List.mem_append.mp hpid2 with hm | hm
    · obtain ⟨pd, hpd, hall⟩ := hP pid2 hm
      exact ⟨pd, by rw [List.get?_append (length_lt_of_get? hpd)]; exact hpd, hall⟩
    · rw [List.mem_singleton] at hm
      subst hm
      refine ⟨{ subPath := [], distance := 0 }, List.get?_concat_length _ _, ?_⟩
      intro i hi
      exact absurd hi (List.not_mem_nil i)
  · intro pid2 hpid2
    obtain ⟨pd, hpd, hall⟩ := hM pid2 hpid2
    exact ⟨pd, by rw [List.get?_append (length_lt_of_get? hpd)]; exact hpd, hall⟩

theorem spliceOutOne_subset {ps : List Nat} {p x : Nat} (h : x ∈ spliceOutOne ps p) : x ∈ ps := by
  unfold spliceOutOne at h
  split at h
  · exact List.mem_of_mem_erase h
  · exact List.dropLast_subset _ h

theorem psOk_spliceBody (p : Nat) :
    PSOk (modifySt (fun st2 => { st2 with paths := spliceOutOne st2.paths p })) := by
  intro st a st1 h hinv
  rw [modifySt_apply] at h
  cases h
  obtain ⟨hP, hM, hS⟩ := hinv
  exact ⟨fun pid hpid => hP pid (spliceOutOne_subset hpid), hM, hS⟩

theorem psOk_pure {α : Type} (a : α) : PSOk (pure a : M α) := by
  intro st b st1 h hinv
  rw [pure_apply] at h
  cases h
  exact hinv

theorem psOk_crash {α : Type} : PSOk (crash : M α) := by
  intro st b st1 h hinv
  rw [crash_apply] at h
  simp at h

theorem psOk_bind {α β : Type} {m : M α} {f : α → M β}
    (hm : PSOk m) (hf : ∀ a, PSOk (f a)) : PSOk (m >>= f) := by
  intro st b st2 h hinv
  rcases bind_inv h with ⟨a, st1, h1, h2⟩
  exact hf a st1 b st2 h2 (hm st a st1 h1 hinv)

theorem psOk_ite {α : Type} {c : Prop} [Decidable c] {m1 m2 : M α}
    (h1 : PSOk m1) (h2 : PSOk m2) : PSOk (if c then m1 else m2) := by
  by_cases hc : c
  · rw [if_pos hc]; exact h1
  · rw [if_neg hc]; exact h2

theorem psOk_forIds {f : Nat → M Unit} (hf : ∀ x, PSOk (f x)) (l : List Nat) :
    PSOk (forIds f l) := by
  induction l with
  | nil => rw [forIds_nil]; exact psOk_pure _
  | cons x xs ih =>
    rw [forIds_cons]
    exact psOk_bind (hf x) (fun _ => ih)

theorem psOk_spliceMarked : PSOk spliceMarked := by
  unfold spliceMarked
  exact psOk_bind psOk_getSt (fun s => psOk_forIds (fun p => psOk_spliceBody p) s.pathsToSplice)

/-- `modifySt` preserves the invariant when it keeps the heap, the path
lists, the main-path pointer and the blocks, and only shrinks the seeds. -/
theorem psOk_modifySt_seeds {f : St → St}
    (hf : ∀ st, (f st).paths = st.paths ∧ (f st).pathHeap = st.pathHeap ∧
      (f st).mainPathId = st.mainPathId ∧ (f st).blocks = st.blocks ∧
      (∀ i, i ∈ (f st).pathSeeds ++ (f st).secondSeeds → i ∈ st.pathSeeds ++ st.secondSeeds)) :
    PSOk (modifySt f) := by
  intro st a st1 h hinv
  rw [modifySt_apply] at h
  cases h
  obtain ⟨h1, h2, h3, h4, h5⟩ := hf st
  obtain ⟨hP, hM, hS⟩ := hinv
  refine ⟨?_, ?_, ?_⟩
  · intro pid hpid
    rw [h1] at hpid
    obtain ⟨pd, hpd, hall⟩ := hP pid hpid
    exact ⟨pd, by rw [h2]; exact hpd, fun i hi => floorAt_of_eq h4 (hall i hi)⟩
  · intro pid hpid
    rw [h3] at hpid
    obtain ⟨pd, hpd, hall⟩ := hM pid hpid
    exact ⟨pd, by rw [h2]; exact hpd, fun i hi => floorAt_of_eq h4 (hall i hi)⟩
  · intro i hi
    exact floorAt_of_eq h4 (hS i (h5 i hi))

theorem psOk_getAdjacentBlocks (id : Nat) : PSOk (getAdjacentBlocks id) := by
  intro st a st1 h hinv
  obtain ⟨b, hb, rfl⟩ := getAdjacentBlocks_spec h
  exact pathsInv_of_genStep_keep (genOk_getAdjacentBlocks id st a _ h) rfl rfl rfl rfl rfl hinv

theorem psOk_rowAt (i : Nat) : PSOk (rowAt i) := by
  intro st a st1 h hinv
  rcases rowAt_inv h with ⟨-, rfl⟩
  exact hinv

theorem psOk_blockIdAt (i k : Nat) : PSOk (blockIdAt i k) := by
  intro st a st1 h hinv
  rcases blockIdAt_inv h with ⟨r, -, -, rfl⟩
  exact hinv


theorem psOk_makePathLoop (fuel pid curId : Nat) : PSOk (makePathLoop fuel pid curId) := by
  induction fuel generalizing curId with
  | zero => rw [makePathLoop_zero]; exact psOk_crash
  | succ n ih =>
    rw [makePathLoop_succ]
    intro st a st1 h hinv
    rcases bind_inv h with ⟨pool, s1, hA, hB⟩
    have hinv1 : PathsInv s1 := psOk_of_countOk (countOk_makePathPool curId) st pool s1 hA hinv
    rcases bind_inv hB with ⟨cur, s2, hC, hD⟩
    rcases getBlk_inv hC with ⟨-, rfl⟩
    split at hD
    case isTrue hc =>
      rw [pure_apply] at hD
      cases hD
      exact hinv1
    case isFalse hc =>
      rcases bind_inv hD with ⟨j, s3, hE, hF⟩
      rw [randBelow_apply] at hE
      cases hE
      have hinv3 : PathsInv { s2 with rng := s2.rng.tail } := hinv1
      rcases bind_inv hF with ⟨nId, s4, hG, hH⟩
      rcases listGet_inv hG with ⟨-, rfl⟩
      rcases bind_inv hH with ⟨u1, s5, hI, hJ⟩
      obtain ⟨hinv5, hfl5⟩ := psOk_setWallFalse hI hinv3
      rcases bind_inv hJ with ⟨u2, s6, hK, hL⟩
      have hinv6 := psOk_pushSub hK hinv5 hfl5
      have hfl6 : FloorAt s6 nId := by
        rcases modifyPath_inv hK with ⟨p, hp, rfl⟩
        exact floorAt_of_eq rfl hfl5
      rcases bind_inv hL with ⟨sv, s7, hM2, hN⟩
      rw [randBelow_apply] at hM2
      cases hM2
      have hinv7 : PathsInv { s6 with rng := s6.rng.tail } := hinv6
      have hfl7 : FloorAt { s6 with rng := s6.rng.tail } nId := hfl6
      rcases bind_inv hN with ⟨u3, s8, hO, hP2⟩
      have hinv8 : PathsInv s8 := by
        split at hO
        case isTrue hs => exact absurd hs (by decide)
        case isFalse hs =>
          split at hO
          case isTrue hss => exact psOk_pushPathSeed hO hinv7 hfl7
          case isFalse hss =>
            rw [pure_apply] at hO
            cases hO
            exact hinv7
      exact ih nId s8 a st1 hP2 hinv8

theorem psOk_makeSubPathLoop (fuel pid curId : Nat) : PSOk (makeSubPathLoop fuel pid curId) := by
  induction fuel generalizing curId with
  | zero => rw [makeSubPathLoop_zero]; exact psOk_crash
  | succ n ih =>
    rw [makeSubPathLoop_succ]
    intro st a st1 h hinv
    rcases bind_inv h with ⟨pool, s1, hA, hB⟩
    have hinv1 : PathsInv s1 := psOk_of_countOk (countOk_subPool curId) st pool s1 hA hinv
    rcases bind_inv hB with ⟨newCur, s2, hC, hD⟩
    have hstep : PathsInv s2 ∧ (0 < pool.length → FloorAt s2 newCur) := by
      split at hC
      case isTrue hcond =>
        rcases bind_inv hC with ⟨j, t1, hE, hF⟩
        rw [randBelow_apply] at hE
        cases hE
        have hinvt : PathsInv { s1 with rng := s1.rng.tail } := hinv1
        rcases bind_inv hF with ⟨nId, t2, hG, hH⟩
        rcases listGet_inv hG with ⟨-, rfl⟩
        rcases bind_inv hH with ⟨u1, t3, hI, hJ⟩
        obtain ⟨hinvt3, hflt3⟩ := psOk_setWallFalse hI hinvt
        rcases bind_inv hJ with ⟨u2, t4, hK, hL⟩
        have hinvt4 := psOk_pushSub hK hinvt3 hflt3
        have hflt4 : FloorAt t4 nId := by
          rcases modifyPath_inv hK with ⟨p, hp, rfl⟩
          exact floorAt_of_eq rfl hflt3
        rw [pure_apply] at hL
        cases hL
        exact ⟨hinvt4, fun _ => hflt4⟩
      case isFalse hcond =>
        rw [pure_apply] at hC
        cases hC
        exact ⟨hinv1, fun hlt => absurd hlt hcond⟩
    rcases bind_inv hD with ⟨nb, s3, hM2, hN⟩
    rcases getBlk_inv hM2 with ⟨-, rfl⟩
    rcases bind_inv hN with ⟨pd, s4, hO, hP2⟩
    rcases getPath_inv hO with ⟨-, rfl⟩
    obtain ⟨hinv2, hflcond⟩ := hstep
    split at hP2
    case isTrue hstop =>
      split at hP2
      case isTrue hmark =>
        rw [markForSplice_apply] at hP2
        cases hP2
        exact hinv2
      case isFalse hmark =>
        rw [pure_apply] at hP2
        cases hP2
        exact hinv2
    case isFalse hstop =>
      have hpool : 0 < pool.length := by
        rcases Nat.eq_zero_or_pos pool.length with h0 | h0
        · exact absurd (Or.inr (Or.inl h0)) hstop
        · exact h0
      have hfl2 : FloorAt s4 newCur := hflcond hpool
      rcases bind_inv hP2 with ⟨sv, s5, hQ, hR⟩
      rw [randBelow_apply] at hQ
      cases hQ
      have hinv5 : PathsInv { s4 with rng := s4.rng.tail } := hinv2
      have hfl5 : FloorAt { s4 with rng := s4.rng.tail } newCur := hfl2
      rcases bind_inv hR with ⟨u1, s6, hS2, hT⟩
      have hinv6 : PathsInv s6 := by
        split at hS2
        case isTrue hs => exact absurd hs (by decide)
        case isFalse hs =>
          split at hS2
          case isTrue hss => exact psOk_pushSecondSeed hS2 hinv5 hfl5
          case isFalse hss =>
            rw [pure_apply] at hS2
            cases hS2
            exact hinv5
      exact ih newCur s6 a st1 hT hinv6

theorem psOk_makeSubPath {fuel firstBlock : Nat} {st st1 : St} {u : Unit}
    (h : makeSubPath fuel firstBlock st = (some u, st1)) (hinv : PathsInv st)
    (hfl : FloorAt st firstBlock) : PathsInv st1 := by
  unfold makeSubPath at h
  rcases bind_inv h with ⟨pid, s1, hA, hB⟩
  obtain ⟨hinv1, -, rfl⟩ := psOk_newPath hA hinv
  have hfl1 : FloorAt { st with
      pathHeap := st.pathHeap ++ [{ subPath := [], distance := 0 }],
      paths := st.paths ++ [st.pathHeap.length] } firstBlock := floorAt_of_eq rfl hfl
  rcases bind_inv hB with ⟨s0, s2, hC, hD⟩
  rcases getSt_inv hC with ⟨rfl, rfl⟩
  rcases bind_inv hD with ⟨d, s3, hE, hF⟩
  rw [randBelow_apply] at hE
  cases hE
  rcases bind_inv hF with ⟨u1, s4, hG, hH⟩
  have hinv4 := psOk_setDistance hG hinv1
  have hfl4 : FloorAt s4 firstBlock := by
    rcases modifyPath_inv hG with ⟨p, hp, rfl⟩
    exact floorAt_of_eq rfl hfl1
  rcases bind_inv hH with ⟨u2, s5, hI, hJ⟩
  have hinv5 := psOk_pushSub hI hinv4 hfl4
  exact psOk_makeSubPathLoop _ pid firstBlock s5 u st1 hJ hinv5

theorem psOk_drainSecondSeeds (fuel i : Nat) : PSOk (drainSecondSeeds fuel i) := by
  induction fuel generalizing i with
  | zero => rw [drainSecondSeeds_zero]; exact psOk_crash
  | succ n ih =>
    rw [drainSecondSeeds_succ]
    intro st a st1 h hinv
    rcases bind_inv h with ⟨s0, sm, hA, hB⟩
    rcases getSt_inv hA with ⟨rfl, rfl⟩
    cases hg : st.secondSeeds.get? i with
    | none =>
      rw [hg] at hB
      have hB2 : (pure () : M Unit) st = (some a, st1) := hB
      rw [pure_apply] at hB2
      cases hB2
      exact hinv
    | some seed =>
      rw [hg] at hB
      rcases bind_inv hB with ⟨u1, s2, hC, hD⟩
      have hfl : FloorAt st seed :=
        hinv.2.2 seed (List.mem_append.mpr (Or.inr (List.get?_mem hg)))
      exact ih (i + 1) s2 a st1 hD (psOk_makeSubPath hC hinv hfl)

theorem psOk_forIds_makeSubPath (fuel : Nat) (l : List Nat) :
    ∀ st u st1, forIds (makeSubPath fuel) l st = (some u, st1) → PathsInv st →
      (∀ x ∈ l, FloorAt st x) → PathsInv st1 := by
  induction l with
  | nil =>
    intro st u st1 h hinv _
    rw [forIds_nil, pure_apply] at h
    cases h
    exact hinv
  | cons x xs ih =>
    intro st u st1 h hinv hfl
    rw [forIds_cons] at h
    rcases bind_inv h with ⟨u1, stm, hA, hB⟩
    have hstep := genOk_makeSubPath fuel x st u1 stm hA
    refine ih stm u st1 hB (psOk_makeSubPath hA hinv (hfl x (List.mem_cons_self x xs))) ?_
    intro y hy
    exact floorAt_mono hstep (hfl y (List.mem_cons_of_mem x hy))

theorem psOk_extendMainPathLoop (fuel pid latestId : Nat) :
    PSOk (extendMainPathLoop fuel pid latestId) := by
  induction fuel generalizing latestId with
  | zero => rw [extendMainPathLoop_zero]; exact psOk_crash
  | succ n ih =>
    rw [extendMainPathLoop_succ]
    intro st a st1 h hinv
    rcases bind_inv h with ⟨pool, s1, hA, hB⟩
    have hinv1 : PathsInv s1 := psOk_of_countOk (countOk_extendMainPool latestId) st pool s1 hA hinv
    rcases bind_inv hB with ⟨newLatest, s2, hC, hD⟩
    have hstep : PathsInv s2 ∧ (0 < pool.length → FloorAt s2 newLatest) := by
      split at hC
      case isTrue hcond =>
        rcases bind_inv hC with ⟨j, t1, hE, hF⟩
        rw [randBelow_apply] at hE
        cases hE
        have hinvt : PathsInv { s1 with rng := s1.rng.tail } := hinv1
        rcases bind_inv hF with ⟨nId, t2, hG, hH⟩
        rcases listGet_inv hG with ⟨-, rfl⟩
        rcases bind_inv hH with ⟨u1, t3, hI, hJ⟩
        obtain ⟨hinvt3, hflt3⟩ := psOk_setWallFalse hI hinvt
        rcases bind_inv hJ with ⟨u2, t4, hK, hL⟩
        have hinvt4 := psOk_pushSub hK hinvt3 hflt3
        have hflt4 : FloorAt t4 nId := by
          rcases modifyPath_inv hK with ⟨p, hp, rfl⟩
          exact floorAt_of_eq rfl hflt3
        rcases bind_inv hL with ⟨u3, t5, hM2, hN2⟩
        have hinvt5 := psOk_dropSubHead hM2 hinvt4
        have hflt5 : FloorAt t5 nId := by
          rcases modifyPath_inv hM2 with ⟨p, hp, rfl⟩
          exact floorAt_of_eq rfl hflt4
        rw [pure_apply] at hN2
        cases hN2
        exact ⟨hinvt5, fun _ => hflt5⟩
      case isFalse hcond =>
        rw [pure_apply] at hC
        cases hC
        exact ⟨hinv1, fun hlt => absurd hlt hcond⟩
    rcases bind_inv hD with ⟨nb, s3, hM2, hN⟩
    rcases getBlk_inv hM2 with ⟨-, rfl⟩
    obtain ⟨hinv2, hflcond⟩ := hstep
    split at hN
    case isTrue hstop =>
      rw [pure_apply] at hN
      cases hN
      exact hinv2
    case isFalse hstop =>
      have hpool : 0 < pool.length := by
        rcases Nat.eq_zero_or_pos pool.length with h0 | h0
        · exact absurd (Or.inr h0) hstop
        · exact h0
      have hfl2 : FloorAt s3 newLatest := hflcond hpool
      rcases bind_inv hN with ⟨sv, s5, hQ, hR⟩
      rw [randBelow_apply] at hQ
      cases hQ
      have hinv5 : PathsInv { s3 with rng := s3.rng.tail } := hinv2
      have hfl5 : FloorAt { s3 with rng := s3.rng.tail } newLatest := hfl2
      rcases bind_inv hR with ⟨u1, s6, hS2, hT⟩
      have hinv6 : PathsInv s6 := by
        split at hS2
        case isTrue hs => exact absurd hs (by decide)
        case isFalse hs =>
          split at hS2
          case isTrue hss => exact psOk_pushPathSeed hS2 hinv5 hfl5
          case isFalse hss =>
            rw [pure_apply] at hS2
            cases hS2
            exact hinv5
      exact ih newLatest s6 a st1 hT hinv6

theorem psOk_extendMainPath (fuel : Nat) : PSOk (extendMainPath fuel) := by
  unfold extendMainPath
  refine psOk_bind psOk_getSt (fun s => ?_)
  cases s.mainPathId with
  | none =>
    exact psOk_bind psOk_crash (fun pid => psOk_bind (psOk_getPath pid) (fun p =>
      psOk_bind (psOk_listGet _ _) (fun latest => psOk_extendMainPathLoop fuel pid latest)))
  | some q =>
    exact psOk_bind (psOk_pure q) (fun pid => psOk_bind (psOk_getPath pid) (fun p =>
      psOk_bind (psOk_listGet _ _) (fun latest => psOk_extendMainPathLoop fuel pid latest)))

theorem psOk_extendPathsLoop (fuel pid latestId : Nat) (lastEx : Option Nat) :
    PSOk (extendPathsLoop fuel pid latestId lastEx) := by
  induction fuel generalizing latestId lastEx with
  | zero => rw [extendPathsLoop_zero]; exact psOk_crash
  | succ n ih =>
    rw [extendPathsLoop_succ]
    intro st a st1 h hinv
    rcases bind_inv h with ⟨latest, s1, hA, hB⟩
    rcases getBlk_inv hA with ⟨-, rfl⟩
    rcases bind_inv hB with ⟨st0, s2, hC, hD⟩
    rcases getSt_inv hC with ⟨rfl, rfl⟩
    rcases bind_inv hD with ⟨poolPair, s3, hE, hF⟩
    have hinv3 : PathsInv s3 :=
      psOk_of_countOk (countOk_extendPathsPoolGo _ _ _ _) s1 poolPair s3 hE hinv
    rcases bind_inv hF with ⟨newLatest, s4, hG, hH⟩
    have hstep : PathsInv s4 := by
      split at hG
      case isTrue hcond =>
        rcases bind_inv hG with ⟨j, t1, hI, hJ⟩
        rw [randBelow_apply] at hI
        cases hI
        have hinvt : PathsInv { s3 with rng := s3.rng.tail } := hinv3
        rcases bind_inv hJ with ⟨nId, t2, hK, hL⟩
        rcases listGet_inv hK with ⟨-, rfl⟩
        rcases bind_inv hL with ⟨u1, t3, hM2, hN2⟩
        obtain ⟨hinvt3, hflt3⟩ := psOk_setWallFalse hM2 hinvt
        rcases bind_inv hN2 with ⟨u2, t4, hO, hP2⟩
        have hinvt4 := psOk_pushSub hO hinvt3 hflt3
        have hflt4 : FloorAt t4 nId := by
          rcases modifyPath_inv hO with ⟨p, hp, rfl⟩
          exact floorAt_of_eq rfl hflt3
        rcases bind_inv hP2 with ⟨sv, t5, hQ, hR⟩
        rw [randBelow_apply] at hQ
        cases hQ
        have hinvt5 : PathsInv { t4 with rng := t4.rng.tail } := hinvt4
        have hflt5 : FloorAt { t4 with rng := t4.rng.tail } nId := hflt4
        rcases bind_inv hR with ⟨u3, t6, hS2, hT⟩
        have hinvt6 : PathsInv t6 := by
          split at hS2
          case isTrue hs => exact absurd hs (by decide)
          case isFalse hs =>
            split at hS2
            case isTrue hss => exact psOk_pushSecondSeed hS2 hinvt5 hflt5
            case isFalse hss =>
              rw [pure_apply] at hS2
              cases hS2
              exact hinvt5
        rw [pure_apply] at hT
        cases hT
        exact hinvt6
      case isFalse hcond =>
        rw [pure_apply] at hG
        cases hG
        exact hinv3
    rcases bind_inv hH with ⟨nb, s5, hU, hV⟩
    rcases getBlk_inv hU with ⟨-, rfl⟩
    rcases bind_inv hV with ⟨pd, s6, hW, hX⟩
    rcases getPath_inv hW with ⟨-, rfl⟩
    split at hX
    case isTrue hstop =>
      rcases bind_inv hX with ⟨mark, s7, hY, hZ⟩
      have hmarkinv : PathsInv s7 := by
        split at hY
        case isTrue h1 =>
          rw [pure_apply] at hY
          cases hY
          exact hstep
        case isFalse h1 =>
          split at hY
          case isTrue h2 =>
            rw [pure_apply] at hY
            cases hY
            exact hstep
          case isFalse h2 =>
            rcases bind_inv hY with ⟨lb, t7, hY1, hY2⟩
            have hinv7 : PathsInv t7 := by
              cases hlast : poolPair.2 with
              | none =>
                rw [hlast] at hY1
                have hY1b : (crash : M Blk) _ = (some lb, t7) := hY1
                rw [crash_apply] at hY1b
                simp at hY1b
              | some x =>
                rw [hlast] at hY1
                rcases getBlk_inv hY1 with ⟨-, rfl⟩
                exact hstep
            rcases bind_inv hY2 with ⟨st2, t8, hY3, hY4⟩
            rcases getSt_inv hY3 with ⟨rfl, rfl⟩
            rw [pure_apply] at hY4
            cases hY4
            exact hinv7
      split at hZ
      case isTrue hm =>
        rw [markForSplice_apply] at hZ
        cases hZ
        exact hmarkinv
      case isFalse hm =>
        rw [pure_apply] at hZ
        cases hZ
        exact hmarkinv
    case isFalse hstop =>
      exact ih newLatest poolPair.2 s6 a st1 hX hstep

theorem psOk_extendPaths (fuel pid : Nat) : PSOk (extendPaths fuel pid) := by
  unfold extendPaths
  refine psOk_bind (psOk_getPath pid) (fun p => ?_)
  refine psOk_bind (psOk_listGet _ _) (fun latest => ?_)
  exact psOk_bind (psOk_getAdjacentBlocks latest) (fun u => psOk_extendPathsLoop fuel pid latest none)

theorem psOk_perpetuateGo (fuel : Nat) (l : List Nat) : PSOk (perpetuateGo fuel l) := by
  induction l with
  | nil => rw [perpetuateGo_nil]; exact psOk_pure _
  | cons pid rest ih =>
    rw [perpetuateGo_cons]
    refine psOk_bind (psOk_extendPaths fuel pid) (fun u1 => ?_)
    refine psOk_bind (psOk_getPath pid) (fun p => ?_)
    exact psOk_bind (psOk_ite (psOk_markForSplice pid) (psOk_pure _)) (fun u2 => ih)

theorem psOk_shiftPaths (fuel : Nat) : PSOk (shiftPaths fuel) := by
  unfold shiftPaths
  intro st a st1 h hinv
  rcases bind_inv h with ⟨u1, s1, hA, hB⟩
  have hinv1 := psOk_spliceMarked st u1 s1 hA hinv
  rcases bind_inv hB with ⟨u2, s2, hC, hD⟩
  have hinv2 : PathsInv s2 :=
    @psOk_modifySt_seeds (fun st0 => { st0 with pathsToSplice := [] })
      (fun st0 => ⟨rfl, rfl, rfl, rfl, fun i hi => hi⟩) s1 u2 s2 hC hinv1
  rcases bind_inv hD with ⟨u3, s3, hE, hF⟩
  have hinv3 := psOk_extendMainPath fuel s2 u3 s3 hE hinv2
  rcases bind_inv hF with ⟨s, s4, hG, hH⟩
  rcases getSt_inv hG with ⟨rfl, rfl⟩
  rcases bind_inv hH with ⟨u4, s5, hI, hJ⟩
  have hinv5 : PathsInv s5 := by
    refine psOk_forIds_makeSubPath fuel s3.pathSeeds s3 u4 s5 hI hinv3 ?_
    intro x hx
    exact hinv3.2.2 x (List.mem_append.mpr (Or.inl hx))
  rcases bind_inv hJ with ⟨u5, s6, hK, hL⟩
  have hinv6 : PathsInv s6 :=
    @psOk_modifySt_seeds (fun st0 => { st0 with pathSeeds := [] })
      (fun st0 => ⟨rfl, rfl, rfl, rfl, fun i hi => List.mem_append.mpr (Or.inr hi)⟩)
      s5 u5 s6 hK hinv5
  rcases bind_inv hL with ⟨st2, s7, hM2, hN⟩
  rcases getSt_inv hM2 with ⟨rfl, rfl⟩
  rcases bind_inv hN with ⟨u6, s8, hO, hP2⟩
  have hinv8 := psOk_perpetuateGo fuel (s6.paths.drop 1) s6 u6 s8 hO hinv6
  rcases bind_inv hP2 with ⟨u7, s9, hQ, hR⟩
  have hinv9 := psOk_drainSecondSeeds fuel 0 s8 u7 s9 hQ hinv8
  exact @psOk_modifySt_seeds (fun st0 => { st0 with pathSeeds := [], secondSeeds := [] })
    (fun st0 => ⟨rfl, rfl, rfl, rfl, fun i hi => absurd hi (List.not_mem_nil i)⟩)
    s9 a st1 hR hinv9

theorem psOk_makePath (fuel : Nat) : PSOk (makePath fuel) := by
  unfold makePath
  intro st a st1 h hinv
  rcases bind_inv h with ⟨pid, s1, hA, hB⟩
  obtain ⟨hinv1, rfl, rfl⟩ := psOk_newPath hA hinv
  rcases bind_inv hB with ⟨u1, s2, hC, hD⟩
  rw [modifySt_apply] at hC
  cases hC
  have hinv2 : PathsInv { st with
      pathHeap := st.pathHeap ++ [{ subPath := [], distance := 0 }],
      paths := st.paths ++ [st.pathHeap.length],
      mainPathId := some st.pathHeap.length } := by
    refine ⟨hinv1.1, ?_, hinv1.2.2⟩
    intro q hq
    cases hq
    refine ⟨{ subPath := [], distance := 0 }, List.get?_concat_length _ _, ?_⟩
    intro i hi
    exact absurd hi (List.not_mem_nil i)
  rcases bind_inv hD with ⟨st0, s3, hE, hF⟩
  rcases getSt_inv hE with ⟨rfl, rfl⟩
  rcases bind_inv hF with ⟨u2, s4, hG, hH⟩
  have hinv4 := psOk_setDistance hG hinv2
  rcases bind_inv hH with ⟨u3, s5, hI, hJ⟩
  have hinv5 : PathsInv s5 :=
    @psOk_modifySt_seeds (fun sx => { sx with pathSeeds := [] })
      (fun sx => ⟨rfl, rfl, rfl, rfl, fun i hi => List.mem_append.mpr (Or.inr hi)⟩)
      s4 u3 s5 hI hinv4
  rcases bind_inv hJ with ⟨stx, s6, hK, hL⟩
  rcases getSt_inv hK with ⟨rfl, rfl⟩
  rcases bind_inv hL with ⟨bottom, s7, hM2, hN⟩
  rcases rowAt_inv hM2 with ⟨-, rfl⟩
  rcases bind_inv hN with ⟨rIdx, s8, hO, hP2⟩
  rw [randBelow_apply] at hO
  cases hO
  have hinv6 : PathsInv { s7 with rng := s7.rng.tail } := hinv5
  rcases bind_inv hP2 with ⟨cb0, s9, hQ, hR⟩
  rcases blockIdAt_inv hQ with ⟨r0, -, -, rfl⟩
  rcases bind_inv hR with ⟨u4, s10, hS2, hT⟩
  obtain ⟨hinv10, hfl10⟩ := psOk_setWallFalse hS2 hinv6
  rcases bind_inv hT with ⟨u5, s11, hU, hV⟩
  have hinv11 := psOk_pushSub hU hinv10 hfl10
  rcases bind_inv hV with ⟨cb1, s12, hW, hX⟩
  rcases blockIdAt_inv hW with ⟨r1, -, -, rfl⟩
  rcases bind_inv hX with ⟨u6, s13, hY, hZ⟩
  obtain ⟨hinv13, hfl13⟩ := psOk_setWallFalse hY hinv11
  rcases bind_inv hZ with ⟨u7, s14, hA2, hB2⟩
  have hinv14 := psOk_pushSub hA2 hinv13 hfl13
  rcases bind_inv hB2 with ⟨u8, s15, hC2, hD2⟩
  have hinv15 := psOk_makePathLoop fuel _ cb1 s14 u8 s15 hC2 hinv14
  rcases bind_inv hD2 with ⟨st2, s16, hE2, hF2⟩
  rcases getSt_inv hE2 with ⟨rfl, rfl⟩
  rcases bind_inv hF2 with ⟨u9, s17, hG2, hH2⟩
  have hinv17 : PathsInv s17 := by
    refine psOk_forIds_makeSubPath fuel s15.pathSeeds s15 u9 s17 hG2 hinv15 ?_
    intro x hx
    exact hinv15.2.2 x (List.mem_append.mpr (Or.inl hx))
  rcases bind_inv hH2 with ⟨u10, s18, hI2, hJ2⟩
  have hinv18 := psOk_drainSecondSeeds fuel 0 s17 u10 s18 hI2 hinv17
  rcases bind_inv hJ2 with ⟨u11, s19, hK2, hL2⟩
  have hinv19 := psOk_spliceMarked s18 u11 s19 hK2 hinv18
  exact @psOk_modifySt_seeds
    (fun sx => { sx with pathSeeds := [], secondSeeds := [], pathsToSplice := [] })
    (fun sx => ⟨rfl, rfl, rfl, rfl, fun i hi => absurd hi (List.not_mem_nil i)⟩)
    s19 a st1 hL2 hinv19


/-! ## The structural stages of a rebase -/

/-- Step relation of the structural stages (`clear adjacency`,
`shiftRowsDown`, `createNewRow`, `resetAdjacentBlocks`): all path-side
fields and the character are untouched and no existing block's wall state
changes; only `mazeRows`, the position/adjacency fields and the heap tail
are free. -/
def StrKeep (st st1 : St) : Prop :=
  st1.nBlocks = st.nBlocks ∧ st1.pathHeap = st.pathHeap ∧ st1.paths = st.paths ∧
    st1.mainPathId = st.mainPathId ∧ st1.pathSeeds = st.pathSeeds ∧
    st1.secondSeeds = st.secondSeeds ∧ st1.pathsToSplice = st.pathsToSplice ∧
    st1.character = st.character ∧
    ∀ id b, st.blocks.get? id = some b → ∃ b1, st1.blocks.get? id = some b1 ∧
      b1.isWall = b.isWall

theorem strKeep_refl (st : St) : StrKeep st st :=
  ⟨rfl, rfl, rfl, rfl, rfl, rfl, rfl, rfl, fun id b hb => ⟨b, hb, rfl⟩⟩

theorem strKeep_trans {st st1 st2 : St} (h1 : StrKeep st st1) (h2 : StrKeep st1 st2) :
    StrKeep st st2 := by
  obtain ⟨a1, a2, a3, a4, a5, a6, a7, a8, hb1⟩ := h1
  obtain ⟨c1, c2, c3, c4, c5, c6, c7, c8, hb2⟩ := h2
  refine ⟨c1.trans a1, c2.trans a2, c3.trans a3, c4.trans a4, c5.trans a5, c6.trans a6,
    c7.trans a7, c8.trans a8, ?_⟩
  intro id b hb
  obtain ⟨b1, hb1a, hw1⟩ := hb1 id b hb
  obtain ⟨b2, hb2a, hw2⟩ := hb2 id b1 hb1a
  exact ⟨b2, hb2a, hw2.trans hw1⟩

theorem floorAt_strKeep {st st1 : St} (hk : StrKeep st st1) {id : Nat} (hf : FloorAt st id) :
    FloorAt st1 id := by
  obtain ⟨b, hb, hw⟩ := hf
  obtain ⟨b1, hb1, hw1⟩ := hk.2.2.2.2.2.2.2.2 id b hb
  exact ⟨b1, hb1, hw1.trans hw⟩

theorem pathsInv_strKeep {st st1 : St} (hk : StrKeep st st1) (h : PathsInv st) : PathsInv st1 := by
  obtain ⟨hP, hM, hS⟩ := h
  refine ⟨?_, ?_, ?_⟩
  · intro pid hpid
    rw [hk.2.2.1] at hpid
    obtain ⟨pd, hpd, hall⟩ := hP pid hpid
    exact ⟨pd, by rw [hk.2.1]; exact hpd, fun i hi => floorAt_strKeep hk (hall i hi)⟩
  · intro pid hpid
    rw [hk.2.2.2.1] at hpid
    obtain ⟨pd, hpd, hall⟩ := hM pid hpid
    exact ⟨pd, by rw [hk.2.1]; exact hpd, fun i hi => floorAt_strKeep hk (hall i hi)⟩
  · intro i hi
    rw [hk.2.2.2.2.1, hk.2.2.2.2.2.1] at hi
    exact floorAt_strKeep hk (hS i hi)

/-- The coarse relation that holds across a whole rebase: the character
and the configured width are untouched, and no surviving block reference
can turn from floor back into wall. -/
def WallKeep (st st1 : St) : Prop :=
  st1.nBlocks = st.nBlocks ∧ st1.character = st.character ∧
    ∀ id b, st.blocks.get? id = some b → ∃ b1, st1.blocks.get? id = some b1 ∧
      (b1.isWall = b.isWall ∨ b1.isWall = false)

theorem wallKeep_trans {st st1 st2 : St} (h1 : WallKeep st st1) (h2 : WallKeep st1 st2) :
    WallKeep st st2 := by
  obtain ⟨a1, a2, hb1⟩ := h1
  obtain ⟨c1, c2, hb2⟩ := h2
  refine ⟨c1.trans a1, c2.trans a2, ?_⟩
  intro id b hb
  obtain ⟨b1, hb1a, hw1⟩ := hb1 id b hb
  obtain ⟨b2, hb2a, hw2⟩ := hb2 id b1 hb1a
  rcases hw2 with hw2 | hw2
  · exact ⟨b2, hb2a, hw1.imp (fun e => hw2.trans e) (fun e => hw2.trans e)⟩
  · exact ⟨b2, hb2a, Or.inr hw2⟩

theorem wallKeep_of_strKeep {st st1 : St} (hk : StrKeep st st1) : WallKeep st st1 := by
  refine ⟨hk.1, hk.2.2.2.2.2.2.2.1, ?_⟩
  intro id b hb
  obtain ⟨b1, hb1, hw⟩ := hk.2.2.2.2.2.2.2.2 id b hb
  exact ⟨b1, hb1, Or.inl hw⟩

theorem wallKeep_of_genStep {st st1 : St} (hg : GenStep st st1) : WallKeep st st1 := by
  obtain ⟨hn, -, hc, -, hb⟩ := hg
  refine ⟨hn, hc, ?_⟩
  intro id b hbb
  obtain ⟨b1, hb1, -, -, hw, -⟩ := hb id b hbb
  exact ⟨b1, hb1, hw⟩

theorem floorAt_wallKeep {st st1 : St} (hk : WallKeep st st1) {id : Nat} (hf : FloorAt st id) :
    FloorAt st1 id := by
  obtain ⟨b, hb, hw⟩ := hf
  obtain ⟨b1, hb1, hw1⟩ := hk.2.2 id b hb
  rcases hw1 with hw1 | hw1
  · exact ⟨b1, hb1, hw1.trans hw⟩
  · exact ⟨b1, hb1, hw1⟩

/-- A `modifyBlk` that keeps the wall state is a structural step that also
keeps the rows and the random stream. -/
theorem strKeep_modifyBlk {id : Nat} {f : Blk → Blk} (hf : ∀ b, (f b).isWall = b.isWall)
    {st st1 : St} {u : Unit} (h : modifyBlk id f st = (some u, st1)) :
    StrKeep st st1 ∧ st1.mazeRows = st.mazeRows ∧ st1.rng = st.rng := by
  rcases modifyBlk_inv h with ⟨b, hb, rfl⟩
  refine ⟨⟨rfl, rfl, rfl, rfl, rfl, rfl, rfl, rfl, ?_⟩, rfl, rfl⟩
  intro id2 b2 hb2
  by_cases he : id = id2
  · subst he
    rw [hb] at hb2
    cases hb2
    exact ⟨f b, by rw [List.get?_set_eq_of_lt _ (length_lt_of_get? hb)], hf b⟩
  · exact ⟨b2, by rw [List.get?_set_ne _ _ he]; exact hb2, rfl⟩

theorem strKeep_forIds {f : Nat → M Unit}
    (hf : ∀ x st u st1, f x st = (some u, st1) →
      StrKeep st st1 ∧ st1.mazeRows = st.mazeRows ∧ st1.rng = st.rng)
    (l : List Nat) : ∀ st u st1, forIds f l st = (some u, st1) →
      StrKeep st st1 ∧ st1.mazeRows = st.mazeRows ∧ st1.rng = st.rng := by
  induction l with
  | nil =>
    intro st u st1 h
    rw [forIds_nil, pure_apply] at h
    cases h
    exact ⟨strKeep_refl st, rfl, rfl⟩
  | cons x xs ih =>
    intro st u st1 h
    rw [forIds_cons] at h
    rcases bind_inv h with ⟨u1, stm, hA, hB⟩
    obtain ⟨k1, r1, g1⟩ := hf x st u1 stm hA
    obtain ⟨k2, r2, g2⟩ := ih stm u st1 hB
    exact ⟨strKeep_trans k1 k2, r2.trans r1, g2.trans g1⟩

theorem strKeep_getAdjacentBlocks {id : Nat} {st st1 : St} {u : Unit}
    (h : getAdjacentBlocks id st = (some u, st1)) :
    StrKeep st st1 ∧ st1.mazeRows = st.mazeRows ∧ st1.rng = st.rng := by
  obtain ⟨b, hb, rfl⟩ := getAdjacentBlocks_spec h
  refine ⟨⟨rfl, rfl, rfl, rfl, rfl, rfl, rfl, rfl, ?_⟩, rfl, rfl⟩
  intro id2 b2 hb2
  by_cases he : id = id2
  · subst he
    rw [hb] at hb2
    cases hb2
    refine ⟨{ b with adjacentBlocks := ruleNeighborsD st b.rowIndex b.blockIndex }, ?_, rfl⟩
    unfold setBlkPure
    rw [List.get?_set_eq_of_lt _ (length_lt_of_get? hb)]
  · refine ⟨b2, ?_, rfl⟩
    unfold setBlkPure
    rw [List.get?_set_ne _ _ he]
    exact hb2

theorem strKeep_resetAdjacentBlocks {st st1 : St} {u : Unit}
    (h : resetAdjacentBlocks st = (some u, st1)) :
    StrKeep st st1 ∧ st1.mazeRows = st.mazeRows ∧ st1.rng = st.rng := by
  unfold resetAdjacentBlocks at h
  rcases bind_inv h with ⟨s0, sm, hA, hB⟩
  rcases getSt_inv hA with ⟨rfl, rfl⟩
  exact strKeep_forIds (fun x st2 u2 st3 h2 => strKeep_getAdjacentBlocks h2) _ st u st1 hB

theorem shiftRowsDown_spec {st st1 : St} {u : Unit} (h : shiftRowsDown st = (some u, st1)) :
    ∃ r0 rest, st.mazeRows = r0 :: rest ∧ StrKeep st st1 ∧
      st1.mazeRows = r0 :: st.mazeRows.dropLast ∧ st1.rng = st.rng := by
  unfold shiftRowsDown at h
  rcases bind_inv h with ⟨s0, sm, hA, hB⟩
  rcases getSt_inv hA with ⟨rfl, rfl⟩
  cases hrows : st.mazeRows with
  | nil =>
    rw [hrows] at hB
    have hB2 : (crash : M Unit) st = (some u, st1) := hB
    rw [crash_apply] at hB2
    simp at hB2
  | cons r0 rest =>
    rw [hrows] at hB
    have hB2 : (setSt { st with mazeRows := r0 :: (r0 :: rest).dropLast } >>=
        fun x => forIds moveBlockDown (r0 :: rest).dropLast.flatten) st = (some u, st1) := hB
    rcases bind_inv hB2 with ⟨u1, s1, hC, hD⟩
    rw [setSt_apply] at hC
    cases hC
    obtain ⟨hk, hrows1, hrng1⟩ :=
      @strKeep_forIds moveBlockDown
        (fun x st2 u2 st3 h2 =>
          @strKeep_modifyBlk x (fun b => { b with rowIndex := b.rowIndex + 1 })
            (fun b => rfl) st2 st3 u2 h2) _ _ u st1 hD
    refine ⟨r0, rest, rfl, ?_, ?_, ?_⟩
    · exact strKeep_trans ⟨rfl, rfl, rfl, rfl, rfl, rfl, rfl, rfl, fun id b hb => ⟨b, hb, rfl⟩⟩ hk
    · exact hrows1
    · exact hrng1

theorem createNewRow_split {st st1 : St} {u : Unit} (h : createNewRow st = (some u, st1)) :
    ∃ r0 rest, st.mazeRows = r0 :: rest ∧
      resetAdjacentBlocks { st with
        blocks := st.blocks ++ (List.range (mazeColCount st.nBlocks)).map (fun k => freshBlk 0 k),
        mazeRows := ((List.range (mazeColCount st.nBlocks)).map (fun k => st.blocks.length + k)) :: rest }
        = (some u, st1) := by
  unfold createNewRow at h
  rcases bind_inv h with ⟨s0, sm, hA, hB⟩
  rcases getSt_inv hA with ⟨rfl, rfl⟩
  rcases bind_inv hB with ⟨u1, s1, hC, hD⟩
  cases hrows : st.mazeRows with
  | nil =>
    rw [hrows] at hC
    have hC2 : (crash : M Unit) st = (some u1, s1) := hC
    rw [crash_apply] at hC2
    simp at hC2
  | cons r0 rest =>
    rw [hrows] at hC
    have hC2 : setSt { st with
        blocks := st.blocks ++ (List.range (mazeColCount st.nBlocks)).map (fun k => freshBlk 0 k),
        mazeRows := ((List.range (mazeColCount st.nBlocks)).map (fun k => st.blocks.length + k)) :: rest }
        st = (some u1, s1) := hC
    rw [setSt_apply] at hC2
    cases hC2
    exact ⟨r0, rest, rfl, hD⟩

theorem strKeep_appendBlocks (st : St) (l : List Blk) (rows : List (List Nat)) :
    StrKeep st { st with blocks := st.blocks ++ l, mazeRows := rows } := by
  refine ⟨rfl, rfl, rfl, rfl, rfl, rfl, rfl, rfl, ?_⟩
  intro id b hb
  exact ⟨b, by rw [List.get?_append (length_lt_of_get? hb)]; exact hb, rfl⟩

theorem mazeColCount_eq (n : Nat) : mazeColCount n = n - 1 := by
  unfold mazeColCount pointsPerRow numberOfRowPoints
  omega

theorem mazeRowCount_eq (n : Nat) : mazeRowCount n = 3 * n + 1 := by
  unfold mazeRowCount pointGridRowCount numberOfRowPoints
  omega

/-- What one whole rebase does: the character and width are kept, floors
stay floors, the path invariant and the grid shape are preserved, and the
rows become a fresh row on top of the old rows minus their bottom row. -/
theorem shiftMaze_spec {fuel : Nat} {st st1 : St} {u : Unit}
    (h : shiftMaze fuel st = (some u, st1)) :
    WallKeep st st1 ∧ (PathsInv st → PathsInv st1) ∧ (Shape st → Shape st1) ∧
      ∃ fresh : List Nat, fresh.length = mazeColCount st.nBlocks ∧
        st1.mazeRows = fresh :: st.mazeRows.dropLast := by
  unfold shiftMaze at h
  rcases bind_inv h with ⟨s0, sm, hA, hB⟩
  rcases getSt_inv hA with ⟨rfl, rfl⟩
  rcases bind_inv hB with ⟨lastRow, s1, hC, hD⟩
  rcases rowAt_inv hC with ⟨-, rfl⟩
  rcases bind_inv hD with ⟨u1, s2, hE, hF⟩
  obtain ⟨k1, hrows1, -⟩ :=
    @strKeep_forIds (fun id => modifyBlk id (fun b => { b with adjacentBlocks := [] }))
      (fun x st2 u2 st3 h2 =>
        @strKeep_modifyBlk x (fun b => { b with adjacentBlocks := [] })
          (fun b => rfl) st2 st3 u2 h2) lastRow s1 u1 s2 hE
  rcases bind_inv hF with ⟨u2, s3, hG, hH⟩
  obtain ⟨r0, rest, hrows0, k2, hrows2, -⟩ := shiftRowsDown_spec hG
  rcases bind_inv hH with ⟨u3, s4, hI, hJ⟩
  obtain ⟨r0b, restb, hrows0b, hreset⟩ := createNewRow_split hI
  obtain ⟨k3, hrows3, -⟩ := strKeep_resetAdjacentBlocks hreset
  have kApp := strKeep_appendBlocks s3
    ((List.range (mazeColCount s3.nBlocks)).map (fun k => freshBlk 0 k))
    (((List.range (mazeColCount s3.nBlocks)).map (fun k => s3.blocks.length + k)) :: restb)
  rcases bind_inv hJ with ⟨u4, s5, hK, hL⟩
  obtain ⟨k4, hrows4, -⟩ := strKeep_resetAdjacentBlocks hK
  have hgen := genOk_shiftPaths fuel s5 u st1 hL
  have kPre : StrKeep s1 s5 :=
    strKeep_trans k1 (strKeep_trans k2 (strKeep_trans kApp (strKeep_trans k3 k4)))
  refine ⟨?_, ?_, ?_, ?_⟩
  · exact wallKeep_trans (wallKeep_of_strKeep kPre) (wallKeep_of_genStep hgen)
  · intro hinv
    exact psOk_shiftPaths fuel s5 u st1 hL (pathsInv_strKeep kPre hinv)
  · intro hsh
    have hrows5 : st1.mazeRows = s5.mazeRows := hgen.2.1
    have hrestb : restb = s1.mazeRows.dropLast := by
      have : r0 :: s2.mazeRows.dropLast = r0b :: restb := hrows2.symm.trans hrows0b
      have h2 := (List.cons.injEq _ _ _ _).mp this
      rw [← h2.2, hrows1]
    constructor
    · rw [hrows5, hrows4, hrows3]
      have hlen : s1.mazeRows.length = 3 * s1.nBlocks + 1 := hsh.1
      have hnb : s3.nBlocks = s1.nBlocks := (strKeep_trans k1 k2).1
      have hn1 : st1.nBlocks = s1.nBlocks := (wallKeep_trans (wallKeep_of_strKeep kPre)
        (wallKeep_of_genStep hgen)).1
      simp only [List.length_cons, List.length_map]
      rw [hrestb, List.length_dropLast, hlen, hn1]
      omega
    · intro r hr
      rw [hrows5, hrows4, hrows3] at hr
      have hn1 : st1.nBlocks = s1.nBlocks := (wallKeep_trans (wallKeep_of_strKeep kPre)
        (wallKeep_of_genStep hgen)).1
      rcases List.mem_cons.mp hr with hr | hr
      · subst hr
        rw [List.length_map, List.length_range, mazeColCount_eq, hn1]
        have hnb : s3.nBlocks = s1.nBlocks := (strKeep_trans k1 k2).1
        rw [hnb]
      · rw [hrestb] at hr
        rw [hn1]
        exact hsh.2 r (List.dropLast_subset _ hr)
  · refine ⟨(List.range (mazeColCount s3.nBlocks)).map (fun k => s3.blocks.length + k), ?_, ?_⟩
    · rw [List.length_map, List.length_range]
      have hnb : s3.nBlocks = s1.nBlocks := (strKeep_trans k1 k2).1
      rw [hnb]
    · have hrows5 : st1.mazeRows = s5.mazeRows := hgen.2.1
      rw [hrows5, hrows4, hrows3]
      have hrestb : restb = s1.mazeRows.dropLast := by
        have : r0 :: s2.mazeRows.dropLast = r0b :: restb := hrows2.symm.trans hrows0b
        have h2 := (List.cons.injEq _ _ _ _).mp this
        rw [← h2.2, hrows1]
      rw [hrestb]


/-! ## The preserved run invariant and the moves -/

/-- The character, when placed, stands on a floor block. -/
def CharFloor (st : St) : Prop := ∀ id, st.character = some id → FloorAt st id

/-- The invariant that initialization establishes and every key press
preserves. -/
def Inv (st : St) : Prop := Shape st ∧ PathsInv st ∧ CharFloor st

theorem moveDown_inv {st st1 : St} {u : Unit} (h : moveDown st = (some u, st1)) :
    st1 = st ∨ ∃ tid, tid ∈ st.mazeRows.flatten ∧ FloorAt st tid ∧
      st1 = { st with character := some tid } := by
  unfold moveDown at h
  rcases bind_inv h with ⟨s0, sm, hA, hB⟩
  rcases getSt_inv hA with ⟨rfl, rfl⟩
  cases hch : st.character with
  | none =>
    rw [hch] at hB
    have hB2 : (none : Option Unit) = some u := congrArg Prod.fst hB
    exact Option.noConfusion hB2
  | some c =>
    rw [hch] at hB
    rcases bind_inv hB with ⟨locId, s1, hC, hD⟩
    have hC2 : (pure c : M Nat) st = (some locId, s1) := hC
    rw [pure_apply] at hC2
    cases hC2
    rcases bind_inv hD with ⟨loc, s2, hE, hF⟩
    rcases getBlk_inv hE with ⟨hlb, heq1⟩
    rw [heq1] at hF
    rcases bind_inv hF with ⟨tid, s3, hG, hH⟩
    rcases blockIdAt_inv hG with ⟨r, hrow, hcell, heq2⟩
    rw [heq2] at hH
    rcases bind_inv hH with ⟨target, s4, hI, hJ⟩
    rcases getBlk_inv hI with ⟨htb, heq3⟩
    rw [heq3] at hJ
    split at hJ
    case isTrue hw =>
      rw [modifySt_apply] at hJ
      cases hJ
      refine Or.inr ⟨tid, ?_, ⟨target, htb, hw⟩, rfl⟩
      exact List.mem_flatten.mpr ⟨r, List.get?_mem hrow, List.get?_mem hcell⟩
    case isFalse hw =>
      rw [pure_apply] at hJ
      cases hJ
      exact Or.inl rfl

theorem moveRight_inv {st st1 : St} {u : Unit} (h : moveRight st = (some u, st1)) :
    st1 = st ∨ ∃ tid, tid ∈ st.mazeRows.flatten ∧ FloorAt st tid ∧
      st1 = { st with character := some tid } := by
  unfold moveRight at h
  rcases bind_inv h with ⟨s0, sm, hA, hB⟩
  rcases getSt_inv hA with ⟨rfl, rfl⟩
  cases hch : st.character with
  | none =>
    rw [hch] at hB
    have hB2 : (none : Option Unit) = some u := congrArg Prod.fst hB
    exact Option.noConfusion hB2
  | some c =>
    rw [hch] at hB
    rcases bind_inv hB with ⟨locId, s1, hC, hD⟩
    have hC2 : (pure c : M Nat) st = (some locId, s1) := hC
    rw [pure_apply] at hC2
    cases hC2
    rcases bind_inv hD with ⟨loc, s2, hE, hF⟩
    rcases getBlk_inv hE with ⟨hlb, heq1⟩
    rw [heq1] at hF
    rcases bind_inv hF with ⟨tid, s3, hG, hH⟩
    rcases blockIdAt_inv hG with ⟨r, hrow, hcell, heq2⟩
    rw [heq2] at hH
    rcases bind_inv hH with ⟨target, s4, hI, hJ⟩
    rcases getBlk_inv hI with ⟨htb, heq3⟩
    rw [heq3] at hJ
    split at hJ
    case isTrue hw =>
      rw [modifySt_apply] at hJ
      cases hJ
      refine Or.inr ⟨tid, ?_, ⟨target, htb, hw⟩, rfl⟩
      exact List.mem_flatten.mpr ⟨r, List.get?_mem hrow, List.get?_mem hcell⟩
    case isFalse hw =>
      rw [pure_apply] at hJ
      cases hJ
      exact Or.inl rfl

theorem moveLeft_inv {st st1 : St} {u : Unit} (h : moveLeft st = (some u, st1)) :
    st1 = st ∨ ∃ tid, tid ∈ st.mazeRows.flatten ∧ FloorAt st tid ∧
      st1 = { st with character := some tid } := by
  unfold moveLeft at h
  rcases bind_inv h with ⟨s0, sm, hA, hB⟩
  rcases getSt_inv hA with ⟨rfl, rfl⟩
  cases hch : st.character with
  | none =>
    rw [hch] at hB
    have hB2 : (none : Option Unit) = some u := congrArg Prod.fst hB
    exact Option.noConfusion hB2
  | some c =>
    rw [hch] at hB
    rcases bind_inv hB with ⟨locId, s1, hC, hD⟩
    have hC2 : (pure c : M Nat) st = (some locId, s1) := hC
    rw [pure_apply] at hC2
    cases hC2
    rcases bind_inv hD with ⟨loc, s2, hE, hF⟩
    rcases getBlk_inv hE with ⟨hlb, heq1⟩
    rw [heq1] at hF
    split at hF
    case isTrue h0 =>
      have hF2 : (none : Option Unit) = some u := congrArg Prod.fst hF
      exact Option.noConfusion hF2
    case isFalse h0 =>
      rcases bind_inv hF with ⟨tid, s3, hG, hH⟩
      rcases blockIdAt_inv hG with ⟨r, hrow, hcell, heq2⟩
      rw [heq2] at hH
      rcases bind_inv hH with ⟨target, s4, hI, hJ⟩
      rcases getBlk_inv hI with ⟨htb, heq3⟩
      rw [heq3] at hJ
      split at hJ
      case isTrue hw =>
        rw [modifySt_apply] at hJ
        cases hJ
        refine Or.inr ⟨tid, ?_, ⟨target, htb, hw⟩, rfl⟩
        exact List.mem_flatten.mpr ⟨r, List.get?_mem hrow, List.get?_mem hcell⟩
      case isFalse hw =>
        rw [pure_apply] at hJ
        cases hJ
        exact Or.inl rfl

/-- What a successful `moveUp` can do: leave the state alone (wall
target), step the character onto an in-window floor block, or rebase
first and then step the character onto the floor block that was read
before the rebase. -/
theorem moveUp_inv {fuel : Nat} {st st1 : St} {u : Unit} (h : moveUp fuel st = (some u, st1)) :
    st1 = st ∨
    (∃ tid, tid ∈ st.mazeRows.flatten ∧ FloorAt st tid ∧
      st1 = { st with character := some tid }) ∨
    (∃ tid target i k r stS uS,
      st.mazeRows.get? i = some r ∧ r.get? k = some tid ∧
      st.blocks.get? tid = some target ∧ target.isWall = false ∧
      6 * target.rowIndex + 6 < 5 * st.mazeRows.length ∧
      shiftMaze fuel st = (some uS, stS) ∧
      st1 = { stS with character := some tid }) := by
  unfold moveUp at h
  rcases bind_inv h with ⟨s0, sm, hA, hB⟩
  rcases getSt_inv hA with ⟨rfl, rfl⟩
  cases hch : st.character with
  | none =>
    rw [hch] at hB
    have hB2 : (none : Option Unit) = some u := congrArg Prod.fst hB
    exact Option.noConfusion hB2
  | some c =>
    rw [hch] at hB
    rcases bind_inv hB with ⟨locId, s1, hC, hD⟩
    have hC2 : (pure c : M Nat) st = (some locId, s1) := hC
    rw [pure_apply] at hC2
    cases hC2
    rcases bind_inv hD with ⟨loc, s2, hE, hF⟩
    rcases getBlk_inv hE with ⟨hlb, heq1⟩
    rw [heq1] at hF
    split at hF
    case isTrue h0 =>
      have hF2 : (none : Option Unit) = some u := congrArg Prod.fst hF
      exact Option.noConfusion hF2
    case isFalse h0 =>
      rcases bind_inv hF with ⟨tid, s3, hG, hH⟩
      rcases blockIdAt_inv hG with ⟨r, hrow, hcell, heq2⟩
      rw [heq2] at hH
      rcases bind_inv hH with ⟨target, s4, hI, hJ⟩
      rcases getBlk_inv hI with ⟨htb, heq3⟩
      rw [heq3] at hJ
      split at hJ
      case isTrue hw =>
        rcases bind_inv hJ with ⟨st2, s5, hK, hL⟩
        rcases getSt_inv hK with ⟨rfl, rfl⟩
        rcases bind_inv hL with ⟨u1, s6, hM2, hN⟩
        split at hM2
        case isTrue hthr =>
          rw [modifySt_apply] at hN
          cases hN
          exact Or.inr (Or.inr ⟨tid, target, loc.rowIndex - 1, loc.blockIndex, r, s6, u1,
            hrow, hcell, htb, hw, hthr, hM2, rfl⟩)
        case isFalse hthr =>
          rw [pure_apply] at hM2
          cases hM2
          rw [modifySt_apply] at hN
          cases hN
          refine Or.inr (Or.inl ⟨tid, ?_, ⟨target, htb, hw⟩, rfl⟩)
          exact List.mem_flatten.mpr ⟨r, List.get?_mem hrow, List.get?_mem hcell⟩
      case isFalse hw =>
        rw [pure_apply] at hJ
        cases hJ
        exact Or.inl rfl


/-! ## Initialization -/

theorem makeMaze_spec {st st1 : St} {u : Unit} (h : makeMaze st = (some u, st1)) :
    Shape st1 ∧ st1.nBlocks = st.nBlocks ∧ st1.pathHeap = st.pathHeap ∧
      st1.paths = st.paths ∧ st1.mainPathId = st.mainPathId ∧
      st1.pathSeeds = st.pathSeeds ∧ st1.secondSeeds = st.secondSeeds ∧
      st1.pathsToSplice = st.pathsToSplice ∧ st1.character = st.character ∧
      st1.rng = st.rng := by
  unfold makeMaze at h
  rcases bind_inv h with ⟨s0, sm, hA, hB⟩
  rcases getSt_inv hA with ⟨rfl, rfl⟩
  rcases bind_inv hB with ⟨u1, s1, hC, hD⟩
  rw [setSt_apply] at hC
  cases hC
  rcases bind_inv hD with ⟨s2, s3, hE, hF⟩
  rcases getSt_inv hE with ⟨rfl, rfl⟩
  obtain ⟨k, hrows, hrng⟩ :=
    @strKeep_forIds getAdjacentBlocks
      (fun x st2 u2 st3 h2 => strKeep_getAdjacentBlocks h2) _ _ u st1 hF
  obtain ⟨kn, kh, kp, km, kps, kss, kts, kc, -⟩ := k
  refine ⟨?_, kn, kh, kp, km, kps, kss, kts, kc, hrng⟩
  constructor
  · rw [hrows, kn]
    show ((List.range (mazeRowCount st.nBlocks)).map _).length = _
    rw [List.length_map, List.length_range, mazeRowCount_eq]
  · intro r hr
    rw [hrows] at hr
    have hr2 : r ∈ (List.range (mazeRowCount st.nBlocks)).map
        (fun i => (List.range (mazeColCount st.nBlocks)).map
          (fun k2 => i * mazeColCount st.nBlocks + k2)) := hr
    rcases List.mem_map.mp hr2 with ⟨i, -, rfl⟩
    rw [List.length_map, List.length_range, mazeColCount_eq, kn]

theorem makeCharacter_spec {st st1 : St} {u : Unit} (h : makeCharacter st = (some u, st1))
    (hinv : PathsInv st) :
    ∃ c, FloorAt st c ∧ st1 = { st with character := some c } := by
  unfold makeCharacter at h
  rcases bind_inv h with ⟨s0, sm, hA, hB⟩
  rcases getSt_inv hA with ⟨rfl, rfl⟩
  cases hmain : st.mainPathId with
  | none =>
    rw [hmain] at hB
    have hB2 : (none : Option Unit) = some u := congrArg Prod.fst hB
    exact Option.noConfusion hB2
  | some q =>
    rw [hmain] at hB
    rcases bind_inv hB with ⟨pid, s1, hC, hD⟩
    have hC2 : (pure q : M Nat) st = (some pid, s1) := hC
    rw [pure_apply] at hC2
    cases hC2
    rcases bind_inv hD with ⟨p, s2, hE, hF⟩
    rcases getPath_inv hE with ⟨hp, heq1⟩
    rw [heq1] at hF
    rcases bind_inv hF with ⟨c, s3, hG, hH⟩
    rcases listGet_inv hG with ⟨hc, heq2⟩
    rw [heq2] at hH
    rw [modifySt_apply] at hH
    cases hH
    obtain ⟨pd, hpd, hall⟩ := hinv.2.1 q hmain
    rw [hp] at hpd
    cases hpd
    refine ⟨c, hall c (List.get?_mem hc), ?_⟩
    rw [← hmain]

theorem start_inv {n fuel : Nat} {rng : List Nat} {st1 : St} {u : Unit}
    (h : start fuel (initSt n rng) = (some u, st1)) : Inv st1 ∧ st1.nBlocks = n := by
  unfold start at h
  rcases bind_inv h with ⟨u1, s1, hA, hB⟩
  obtain ⟨hsh1, hnb1, hph1, hpa1, hmp1, hps1, hss1, hsp1, hch1, -⟩ := makeMaze_spec hA
  have hinv1 : PathsInv s1 := by
    refine ⟨?_, ?_, ?_⟩
    · intro pid hpid
      rw [hpa1] at hpid
      exact absurd hpid (List.not_mem_nil pid)
    · intro pid hpid
      rw [hmp1] at hpid
      exact Option.noConfusion hpid
    · intro i hi
      rw [hps1, hss1] at hi
      exact absurd hi (List.not_mem_nil i)
  rcases bind_inv hB with ⟨u2, s2, hC, hD⟩
  have hinv2 : PathsInv s2 := psOk_makePath fuel s1 u2 s2 hC hinv1
  have hgen2 := genOk_makePath fuel s1 u2 s2 hC
  have hsh2 : Shape s2 := shape_mono hgen2 hsh1
  obtain ⟨c, hfl, rfl⟩ := makeCharacter_spec hD hinv2
  refine ⟨⟨hsh2, hinv2, ?_⟩, ?_⟩
  · intro id hid
    have : some c = some id := hid
    cases this
    exact hfl
  · show s2.nBlocks = n
    rw [hgen2.1, hnb1]
    rfl

/-! ## Every key press preserves the invariant -/

theorem inv_charStep {st : St} {tid : Nat} (hmem : tid ∈ st.mazeRows.flatten)
    (hfl : FloorAt st tid) (hinv : Inv st) :
    Inv { st with character := some tid } := by
  obtain ⟨hsh, hps, hcf⟩ := hinv
  refine ⟨hsh, hps, ?_⟩
  intro id hid
  have : some tid = some id := hid
  cases this
  exact hfl

theorem inv_applyMove {fuel : Nat} {mv : Mv} {st st1 : St} {u : Unit}
    (h : applyMove fuel mv st = (some u, st1)) (hinv : Inv st) :
    Inv st1 ∧ st1.nBlocks = st.nBlocks := by
  cases mv with
  | down =>
    rcases moveDown_inv h with rfl | ⟨tid, hmem, hfl, rfl⟩
    · exact ⟨hinv, rfl⟩
    · exact ⟨inv_charStep hmem hfl hinv, rfl⟩
  | left =>
    rcases moveLeft_inv h with rfl | ⟨tid, hmem, hfl, rfl⟩
    · exact ⟨hinv, rfl⟩
    · exact ⟨inv_charStep hmem hfl hinv, rfl⟩
  | right =>
    rcases moveRight_inv h with rfl | ⟨tid, hmem, hfl, rfl⟩
    · exact ⟨hinv, rfl⟩
    · exact ⟨inv_charStep hmem hfl hinv, rfl⟩
  | up =>
    rcases moveUp_inv h with rfl | ⟨tid, hmem, hfl, rfl⟩ |
      ⟨tid, target, i, k, r, stS, uS, hrow, hcell, htb, hw, hthr, hshift, rfl⟩
    · exact ⟨hinv, rfl⟩
    · exact ⟨inv_charStep hmem hfl hinv, rfl⟩
    · obtain ⟨hwk, hpsp, hshp, -⟩ := shiftMaze_spec hshift
      obtain ⟨hsh, hps, hcf⟩ := hinv
      have hflS : FloorAt stS tid := floorAt_wallKeep hwk ⟨target, htb, hw⟩
      refine ⟨⟨hshp hsh, hpsp hps, ?_⟩, hwk.1⟩
      intro id hid
      have : some tid = some id := hid
      cases this
      exact hflS

theorem inv_runMoves {fuel : Nat} {moves : List Mv} : ∀ {st st1 : St} {u : Unit},
    runMoves fuel moves st = (some u, st1) → Inv st →
      Inv st1 ∧ st1.nBlocks = st.nBlocks := by
  induction moves with
  | nil =>
    intro st st1 u h hinv
    rw [runMoves_nil, pure_apply] at h
    cases h
    exact ⟨hinv, rfl⟩
  | cons mv rest ih =>
    intro st st1 u h hinv
    rw [runMoves_cons] at h
    rcases bind_inv h with ⟨u1, stm, hA, hB⟩
    obtain ⟨hinv1, hnb1⟩ := inv_applyMove hA hinv
    obtain ⟨hinv2, hnb2⟩ := ih hB hinv1
    exact ⟨hinv2, hnb2.trans hnb1⟩

/-- The master run theorem: every successful run of the program ends in a
state satisfying the invariant, with the configured width intact. -/
theorem runProgram_inv {n fuel : Nat} {rng : List Nat} {moves : List Mv} {st1 : St}
    (h : runProgram n fuel rng moves = (some (), st1)) : Inv st1 ∧ st1.nBlocks = n := by
  unfold runProgram at h
  rcases bind_inv h with ⟨u1, s1, hA, hB⟩
  obtain ⟨hinv1, hnb1⟩ := start_inv hA
  obtain ⟨hinv2, hnb2⟩ := inv_runMoves hB hinv1
  exact ⟨hinv2, hnb2.trans hnb1⟩


/-! ## The adjacency rebuild of a rebase -/

theorem adjRuled_getAdjacentBlocks {id : Nat} {st st1 : St} {u : Unit}
    (h : getAdjacentBlocks id st = (some u, st1)) : AdjRuled st1 id := by
  obtain ⟨b, hb, rfl⟩ := getAdjacentBlocks_spec h
  refine ⟨{ b with adjacentBlocks := ruleNeighborsD st b.rowIndex b.blockIndex }, ?_, ?_⟩
  · unfold setBlkPure
    rw [List.get?_set_eq_of_lt _ (length_lt_of_get? hb)]
  · exact (ruleNeighborsD_congr rfl rfl b.rowIndex b.blockIndex).symm

theorem adjRuled_forIds {l : List Nat} : ∀ {st st1 : St} {u : Unit},
    forIds getAdjacentBlocks l st = (some u, st1) → ∀ id ∈ l, AdjRuled st1 id := by
  induction l with
  | nil =>
    intro st st1 u h id hid
    exact absurd hid (List.not_mem_nil id)
  | cons x xs ih =>
    intro st st1 u h id hid
    rw [forIds_cons] at h
    rcases bind_inv h with ⟨u1, stm, hA, hB⟩
    rcases List.mem_cons.mp hid with rfl | hid2
    · exact adjRuled_mono (genOk_forIds (fun y => genOk_getAdjacentBlocks y) xs stm u st1 hB)
        (adjRuled_getAdjacentBlocks hA)
    · exact ih hB id hid2

theorem adjRuled_resetAdjacentBlocks {st st1 : St} {u : Unit}
    (h : resetAdjacentBlocks st = (some u, st1)) :
    ∀ id ∈ (st.mazeRows.drop 1).flatten, AdjRuled st1 id := by
  unfold resetAdjacentBlocks at h
  rcases bind_inv h with ⟨s0, sm, hA, hB⟩
  rcases getSt_inv hA with ⟨rfl, rfl⟩
  intro id hid
  refine adjRuled_forIds hB id ?_
  rcases List.mem_flatten.mp hid with ⟨r, hr, hidr⟩
  exact List.mem_flatten.mpr ⟨r, List.mem_reverse.mpr hr, hidr⟩

/-- After a rebase, every block of every row other than the fresh row 0
carries the rule value in its adjacency list. -/
theorem shiftMaze_adjRuled {fuel : Nat} {st st1 : St} {u : Unit}
    (h : shiftMaze fuel st = (some u, st1)) :
    ∀ id ∈ (st1.mazeRows.drop 1).flatten, AdjRuled st1 id := by
  unfold shiftMaze at h
  rcases bind_inv h with ⟨s0, sm, hA, hB⟩
  rcases getSt_inv hA with ⟨rfl, rfl⟩
  rcases bind_inv hB with ⟨lastRow, s1, hC, hD⟩
  rcases rowAt_inv hC with ⟨-, rfl⟩
  rcases bind_inv hD with ⟨u1, s2, hE, hF⟩
  rcases bind_inv hF with ⟨u2, s3, hG, hH⟩
  rcases bind_inv hH with ⟨u3, s4, hI, hJ⟩
  rcases bind_inv hJ with ⟨u4, s5, hK, hL⟩
  intro id hid
  have hgen := genOk_shiftPaths fuel s5 u st1 hL
  have hrows : st1.mazeRows = s4.mazeRows := by
    rw [hgen.2.1, (strKeep_resetAdjacentBlocks hK).2.1]
  rw [hrows] at hid
  exact adjRuled_mono hgen (adjRuled_resetAdjacentBlocks hK id hid)


/-! ## Moves into walls are rejected with no state change -/

theorem moveDown_wall {st : St} {c : Nat} {loc : Blk} {row : List Nat} {tid : Nat}
    {target : Blk}
    (hch : st.character = some c) (hc : st.blocks.get? c = some loc)
    (hrow : st.mazeRows.get? (loc.rowIndex + 1) = some row)
    (hcell : row.get? loc.blockIndex = some tid)
    (htb : st.blocks.get? tid = some target) (hw : target.isWall = true) :
    moveDown st = (some (), st) := by
  simp only [moveDown, rowAt, blockIdAt, getBlk, listGet, bind_apply, getSt_apply,
    pure_apply, crash_apply, hch, hc, hrow, hcell, htb, hw, Bool.true_eq_false, ite_false]

theorem moveUp_wall {fuel : Nat} {st : St} {c : Nat} {loc : Blk} {row : List Nat} {tid : Nat}
    {target : Blk}
    (hch : st.character = some c) (hc : st.blocks.get? c = some loc) (h0 : ¬(loc.rowIndex = 0))
    (hrow : st.mazeRows.get? (loc.rowIndex - 1) = some row)
    (hcell : row.get? loc.blockIndex = some tid)
    (htb : st.blocks.get? tid = some target) (hw : target.isWall = true) :
    moveUp fuel st = (some (), st) := by
  simp only [moveUp, rowAt, blockIdAt, getBlk, listGet, bind_apply, getSt_apply,
    pure_apply, crash_apply, hch, hc, h0, hrow, hcell, htb, hw, Bool.true_eq_false,
    ite_false, eq_self_iff_true]

theorem moveLeft_wall {st : St} {c : Nat} {loc : Blk} {row : List Nat} {tid : Nat}
    {target : Blk}
    (hch : st.character = some c) (hc : st.blocks.get? c = some loc)
    (h0 : ¬(loc.blockIndex = 0))
    (hrow : st.mazeRows.get? loc.rowIndex = some row)
    (hcell : row.get? (loc.blockIndex - 1) = some tid)
    (htb : st.blocks.get? tid = some target) (hw : target.isWall = true) :
    moveLeft st = (some (), st) := by
  simp only [moveLeft, rowAt, blockIdAt, getBlk, listGet, bind_apply, getSt_apply,
    pure_apply, crash_apply, hch, hc, h0, hrow, hcell, htb, hw, Bool.true_eq_false,
    ite_false, eq_self_iff_true]

theorem moveRight_wall {st : St} {c : Nat} {loc : Blk} {row : List Nat} {tid : Nat}
    {target : Blk}
    (hch : st.character = some c) (hc : st.blocks.get? c = some loc)
    (hrow : st.mazeRows.get? loc.rowIndex = some row)
    (hcell : row.get? (loc.blockIndex + 1) = some tid)
    (htb : st.blocks.get? tid = some target) (hw : target.isWall = true) :
    moveRight st = (some (), st) := by
  simp only [moveRight, rowAt, blockIdAt, getBlk, listGet, bind_apply, getSt_apply,
    pure_apply, crash_apply, hch, hc, hrow, hcell, htb, hw, Bool.true_eq_false, ite_false]


/-! ## The main path never moves downward -/

/-- The `rowIndex` of the block a reference points at (`0` if dangling). -/
def rowOf (st : St) (id : Nat) : Nat :=
  match st.blocks.get? id with
  | some b => b.rowIndex
  | none => 0

theorem rowOf_eq {st : St} {id : Nat} {b : Blk} (hb : st.blocks.get? id = some b) :
    rowOf st id = b.rowIndex := by
  unfold rowOf
  rw [hb]

theorem rowOf_mono {st st1 : St} (h : GenStep st st1) {id : Nat} {b : Blk}
    (hb : st.blocks.get? id = some b) : rowOf st1 id = b.rowIndex := by
  obtain ⟨-, -, -, -, hblocks⟩ := h
  obtain ⟨b1, hb1, hrow, -⟩ := hblocks id b hb
  rw [rowOf_eq hb1, hrow]

theorem extendMainPoolGo_mem {latestRow : Nat} :
    ∀ (l acc : List Nat) (st : St) (pool : List Nat) (st1 : St),
      extendMainPoolGo latestRow l acc st = (some pool, st1) →
      ∀ x ∈ pool, x ∈ acc ∨ PoolFact st1 x (fun r => r ≤ latestRow ∨ r = 1) := by
  intro l
  induction l with
  | nil =>
    intro acc st pool st1 h x hx
    rw [extendMainPoolGo_nil, pure_apply] at h
    cases h
    exact Or.inl hx
  | cons nId rest ih =>
    intro acc st pool st1 h x hx
    rw [extendMainPoolGo_cons] at h
    rcases bind_inv h with ⟨u, stm0, hck, hA⟩
    rcases bind_inv hA with ⟨st0, stm1, h0, hB⟩
    obtain ⟨rfl, rfl⟩ := getSt_inv h0
    rcases bind_inv hB with ⟨nb, stm2, hnb, hC⟩
    rcases getBlk_inv hnb with ⟨hnb1, rfl⟩
    split at hC
    case isTrue hc =>
      rcases ih _ _ _ _ hC x hx with hacc | hfact
      · rcases List.mem_append.mp hacc with hy | hy
        · exact Or.inl hy
        · rw [List.mem_singleton] at hy
          subst hy
          exact Or.inr (poolFact_transport (countOk_extendMainPoolGo _ _ _ _ _ _ hC)
            ⟨nb, hnb1, hc.1, Or.inl hc.2.1⟩)
      · exact Or.inr hfact
    case isFalse hc =>
      split at hC
      case isTrue hc2 =>
        rcases ih _ _ _ _ hC x hx with hacc | hfact
        · rcases List.mem_append.mp hacc with hy | hy
          · exact Or.inl hy
          · rw [List.mem_singleton] at hy
            subst hy
            refine Or.inr (poolFact_transport (countOk_extendMainPoolGo _ _ _ _ _ _ hC) ?_)
            exact ⟨nb, hnb1, by rw [hc2.1], Or.inr hc2.1⟩
        · exact Or.inr hfact
      case isFalse hc2 =>
        rcases ih _ _ _ _ hC x hx with hacc | hfact
        · exact Or.inl hacc
        · exact Or.inr hfact

theorem makePathPool_mem {curId : Nat} {st : St} {pool : List Nat} {st1 : St}
    (h : makePathPool curId st = (some pool, st1)) {cb : Blk}
    (hcb : st.blocks.get? curId = some cb) :
    ∀ x ∈ pool, PoolFact st1 x (fun r => r ≤ cb.rowIndex) := by
  unfold makePathPool at h
  rcases bind_inv h with ⟨cur, stm, hA, hB⟩
  rcases getBlk_inv hA with ⟨hcur, rfl⟩
  rw [hcb] at hcur
  cases hcur
  intro x hx
  rcases makePathPoolGo_mem _ _ _ _ _ hB x hx with hacc | hfact
  · exact absurd hacc (List.not_mem_nil x)
  · exact hfact

theorem extendMainPool_mem {latestId : Nat} {st : St} {pool : List Nat} {st1 : St}
    (h : extendMainPool latestId st = (some pool, st1)) {lb : Blk}
    (hlb : st.blocks.get? latestId = some lb) :
    ∀ x ∈ pool, PoolFact st1 x (fun r => r ≤ lb.rowIndex ∨ r = 1) := by
  unfold extendMainPool at h
  rcases bind_inv h with ⟨latest, stm, hA, hB⟩
  rcases getBlk_inv hA with ⟨hcur, rfl⟩
  rw [hlb] at hcur
  cases hcur
  intro x hx
  rcases extendMainPoolGo_mem _ _ _ _ _ hB x hx with hacc | hfact
  · exact absurd hacc (List.not_mem_nil x)
  · exact hfact

/-- The `makePath` growth loop only appends, and the appended references,
read in the final state, have non-increasing row indices starting at the
current block's row. -/
theorem makePathLoop_chain (fuel pid : Nat) : ∀ (curId : Nat) {st st1 : St} {u : Unit},
    makePathLoop fuel pid curId st = (some u, st1) →
    ∀ cb, st.blocks.get? curId = some cb →
    ∃ new : List Nat,
      (∀ pd, st.pathHeap.get? pid = some pd → ∃ pd1, st1.pathHeap.get? pid = some pd1 ∧
        pd1.subPath = pd.subPath ++ new) ∧
      List.Chain' (fun a b => rowOf st1 b ≤ rowOf st1 a) (curId :: new) := by
  induction fuel with
  | zero =>
    intro curId st st1 u h cb hcb
    rw [makePathLoop_zero, crash_apply] at h
    simp at h
  | succ n ih =>
    intro curId st st1 u h cb hcb
    rw [makePathLoop_succ] at h
    rcases bind_inv h with ⟨pool, s2, hA, hB⟩
    have hpoolstep := countOk_makePathPool curId st pool s2 hA
    have hpoolmem := makePathPool_mem hA hcb
    rcases bind_inv hB with ⟨cur, s2b, hC, hD⟩
    rcases getBlk_inv hC with ⟨hcur, rfl⟩
    split at hD
    case isTrue hstop =>
      rw [pure_apply] at hD
      cases hD
      refine ⟨[], ?_, List.chain'_singleton curId⟩
      intro pd hpd
      refine ⟨pd, ?_, (List.append_nil pd.subPath).symm⟩
      rw [hpoolstep.2.2.1]
      exact hpd
    case isFalse hstop =>
      rcases bind_inv hD with ⟨j, s3, hE, hF⟩
      rw [randBelow_apply] at hE
      cases hE
      rcases bind_inv hF with ⟨nId, s4, hG, hH⟩
      rcases listGet_inv hG with ⟨hjget, rfl⟩
      have hnmem : nId ∈ pool := List.get?_mem hjget
      obtain ⟨pb, hpb, hpb1, hpble⟩ := hpoolmem nId hnmem
      rcases bind_inv hH with ⟨u1, s5, hI, hJ⟩
      have hgenWall := genOk_setWallFalse nId _ u1 s5 hI
      rcases modifyBlk_inv hI with ⟨wb, hwb, rfl⟩
      rcases bind_inv hJ with ⟨u2, s6, hK, hL⟩
      have hgenPush := genOk_pushSub pid nId _ u2 s6 hK
      rcases modifyPath_inv hK with ⟨p, hp, rfl⟩
      rcases bind_inv hL with ⟨sv, s7, hM2, hN⟩
      rw [randBelow_apply] at hM2
      cases hM2
      rcases bind_inv hN with ⟨u3, s8, hO, hP2⟩
      have hg5 : GenStep { s2b with rng := s2b.rng.tail, blocks := s2b.blocks.set nId { wb with isWall := false } } s8 := by
        split at hO
        case isTrue hs => exact absurd hs (by decide)
        case isFalse hs =>
          split at hO
          case isTrue hss =>
            exact genStep_trans hgenPush
              (genStep_trans (genStep_rngOnly _ _) (genOk_pushPathSeed nId _ u3 s8 hO))
          case isFalse hss =>
            rw [pure_apply] at hO
            cases hO
            exact hgenPush
      have hgenLoop := genOk_makePathLoop n pid nId s8 u st1 hP2
      have hg2 : GenStep { s2b with rng := s2b.rng.tail } st1 :=
        genStep_trans hgenWall (genStep_trans hg5 hgenLoop)
      have hgAll : GenStep st st1 :=
        genStep_trans (countStep_toGenStep hpoolstep) hg2
      have hpb2 : ({ s2b with rng := s2b.rng.tail, blocks := s2b.blocks.set nId { wb with isWall := false } } : St).blocks.get? nId = some { wb with isWall := false } := by
        show (s2b.blocks.set nId _).get? nId = _
        rw [List.get?_set_eq_of_lt _ (length_lt_of_get? hwb)]
      have hwbpb : wb = pb := by
        have h2 : s2b.blocks.get? nId = some pb := hpb
        rw [hwb] at h2
        exact (Option.some.injEq _ _).mp h2
      obtain ⟨-, -, -, -, hblocks58⟩ := hg5
      obtain ⟨b8, hb8, hb8row, -⟩ := hblocks58 nId _ hpb2
      obtain ⟨new2, hrec2, hchain2⟩ := ih nId hP2 b8 hb8
      refine ⟨nId :: new2, ?_, ?_⟩
      · intro pd hpd
        have hpds2 : s2b.pathHeap.get? pid = some pd := by
          rw [hpoolstep.2.2.1]
          exact hpd
        have hps : p = pd := by
          have h2 : s2b.pathHeap.get? pid = some p := hp
          rw [hpds2] at h2
          exact ((Option.some.injEq _ _).mp h2).symm
        subst hps
        have hpd8 : s8.pathHeap.get? pid =
            some { p with subPath := p.subPath ++ [nId] } := by
          have hset : ∀ s9 : St, s9.pathHeap = ({ s2b with rng := s2b.rng.tail, blocks := s2b.blocks.set nId { wb with isWall := false } } : St).pathHeap.set pid { p with subPath := p.subPath ++ [nId] } → s9.pathHeap.get? pid = some { p with subPath := p.subPath ++ [nId] } := by
            intro s9 h9
            rw [h9]
            rw [List.get?_set_eq_of_lt _ (length_lt_of_get? hp)]
          split at hO
          case isTrue hs => exact absurd hs (by decide)
          case isFalse hs =>
            split at hO
            case isTrue hss =>
              rw [pushPathSeed_apply] at hO
              cases hO
              exact hset _ rfl
            case isFalse hss =>
              rw [pure_apply] at hO
              cases hO
              exact hset _ rfl
        obtain ⟨pd1, hpd1, hsub1⟩ := hrec2 _ hpd8
        refine ⟨pd1, hpd1, ?_⟩
        rw [hsub1]
        show p.subPath ++ [nId] ++ new2 = p.subPath ++ (nId :: new2)
        rw [List.append_assoc, List.singleton_append]
      · refine List.chain'_cons.mpr ⟨?_, hchain2⟩
        have h1 : rowOf st1 nId = b8.rowIndex := rowOf_mono hgenLoop hb8
        have h2 : rowOf st1 curId = cb.rowIndex := rowOf_mono hgAll hcb
        rw [h1, h2, hb8row]
        show ({ wb with isWall := false } : Blk).rowIndex ≤ cb.rowIndex
        rw [hwbpb]
        show pb.rowIndex ≤ cb.rowIndex
        exact hpble


theorem modifyPath_heap {pid : Nat} {f : PathD → PathD} {st st1 : St} {u : Unit} {p : PathD}
    (h : modifyPath pid f st = (some u, st1)) (hp : st.pathHeap.get? pid = some p) :
    st1.pathHeap.get? pid = some (f p) := by
  rcases modifyPath_inv h with ⟨q, hq, rfl⟩
  rw [hq] at hp
  cases hp
  show (st.pathHeap.set pid _).get? pid = _
  rw [List.get?_set_eq_of_lt _ (length_lt_of_get? hq)]

theorem modifyBlk_heapKeep {id : Nat} {f : Blk → Blk} {st st1 : St} {u : Unit}
    (h : modifyBlk id f st = (some u, st1)) : st1.pathHeap = st.pathHeap := by
  rcases modifyBlk_inv h with ⟨b, hb, rfl⟩
  rfl

theorem seedIte_heapKeep {c : Prop} [Decidable c] {id : Nat} {st st1 : St} {u : Unit}
    (h : (if c then pushPathSeed id else pure ()) st = (some u, st1)) :
    st1.pathHeap = st.pathHeap := by
  split at h
  · rw [pushPathSeed_apply] at h
    cases h
    rfl
  · rw [pure_apply] at h
    cases h
    rfl

theorem seedIte_genStep {c : Prop} [Decidable c] {id : Nat} {st st1 : St} {u : Unit}
    (h : (if c then pushPathSeed id else pure ()) st = (some u, st1)) : GenStep st st1 := by
  split at h
  · exact genOk_pushPathSeed id st u st1 h
  · rw [pure_apply] at h
    cases h
    exact genStep_refl st

theorem secondIte_heapKeep {c : Prop} [Decidable c] {id : Nat} {st st1 : St} {u : Unit}
    (h : (if c then pushSecondSeed id else pure ()) st = (some u, st1)) :
    st1.pathHeap = st.pathHeap := by
  split at h
  · rw [pushSecondSeed_apply] at h
    cases h
    rfl
  · rw [pure_apply] at h
    cases h
    rfl

theorem secondIte_genStep {c : Prop} [Decidable c] {id : Nat} {st st1 : St} {u : Unit}
    (h : (if c then pushSecondSeed id else pure ()) st = (some u, st1)) : GenStep st st1 := by
  split at h
  · exact genOk_pushSecondSeed id st u st1 h
  · rw [pure_apply] at h
    cases h
    exact genStep_refl st

theorem setWallFalse_heapKeep {id : Nat} {st st1 : St} {u : Unit}
    (h : setWallFalse id st = (some u, st1)) : st1.pathHeap = st.pathHeap := by
  unfold setWallFalse at h
  exact modifyBlk_heapKeep h

theorem drop_push_tail (l : List Nat) (a : Nat) (m : List Nat) :
    ((l ++ [a]).tail ++ m).drop m.length = (l ++ (a :: m)).drop (m.length + 1) := by
  cases l with
  | nil => simp
  | cons b l2 =>
    show ((l2 ++ [a]) ++ m).drop m.length = (l2 ++ (a :: m)).drop m.length
    rw [List.append_assoc, List.singleton_append]

/-- The `extendMainPath` growth loop: each appended reference is paired
with one `splice(0, 1)` at the front, and the appended references, read in
the final state, have non-increasing row indices starting at the frontier
block's row. -/
theorem extendMainPathLoop_chain (fuel pid : Nat) : ∀ (latestId : Nat) {st st1 : St} {u : Unit},
    extendMainPathLoop fuel pid latestId st = (some u, st1) →
    ∀ lb, st.blocks.get? latestId = some lb → 1 ≤ lb.rowIndex →
    ∃ new : List Nat,
      (∀ pd, st.pathHeap.get? pid = some pd → ∃ pd1, st1.pathHeap.get? pid = some pd1 ∧
        pd1.subPath = (pd.subPath ++ new).drop new.length) ∧
      List.Chain' (fun a b => rowOf st1 b ≤ rowOf st1 a) (latestId :: new) := by
  induction fuel with
  | zero =>
    intro latestId st st1 u h lb hlb hlb1
    rw [extendMainPathLoop_zero, crash_apply] at h
    simp at h
  | succ n ih =>
    intro latestId st st1 u h lb hlb hlb1
    rw [extendMainPathLoop_succ] at h
    rcases bind_inv h with ⟨pool, s2, hA, hB⟩
    have hpoolstep := countOk_extendMainPool latestId st pool s2 hA
    have hpoolmem := extendMainPool_mem hA hlb
    rcases bind_inv hB with ⟨newLatest, s3, hC, hD⟩
    split at hC
    case isFalse hpool =>
      rw [pure_apply] at hC
      cases hC
      rcases bind_inv hD with ⟨nb, s4, hE, hF⟩
      rcases getBlk_inv hE with ⟨hnb, heq⟩
      rw [heq] at hF
      split at hF
      case isTrue hstop =>
        rw [pure_apply] at hF
        cases hF
        refine ⟨[], ?_, List.chain'_singleton latestId⟩
        intro pd hpd
        refine ⟨pd, ?_, ?_⟩
        · rw [hpoolstep.2.2.1]
          exact hpd
        · simp
      case isFalse hstop =>
        exact absurd (Or.inr (Nat.eq_zero_of_not_pos hpool)) hstop
    case isTrue hpool =>
      rcases bind_inv hC with ⟨j, t1, hE, hF⟩
      rw [randBelow_apply] at hE
      cases hE
      rcases bind_inv hF with ⟨nId, t2, hG, hH⟩
      rcases listGet_inv hG with ⟨hjget, rfl⟩
      have hnmem : nId ∈ pool := List.get?_mem hjget
      obtain ⟨pb, hpb, hpb1, hpble⟩ := hpoolmem nId hnmem
      have hpbrow : pb.rowIndex ≤ lb.rowIndex := by
        rcases hpble with h1 | h1
        · exact h1
        · rw [h1]
          exact hlb1
      rcases bind_inv hH with ⟨u1, t3, hI, hJ⟩
      have hgenWall := genOk_setWallFalse nId _ u1 t3 hI
      have hheap3 := setWallFalse_heapKeep hI
      rcases bind_inv hJ with ⟨u2, t4, hK, hL⟩
      have hgenPush := genOk_pushSub pid nId t3 u2 t4 hK
      rcases bind_inv hL with ⟨u3, t5, hM2, hN⟩
      have hgenDrop := genOk_dropSubHead pid t4 u3 t5 hM2
      rw [pure_apply] at hN
      cases hN
      have hg2s3 : GenStep s2 s3 :=
        genStep_trans (genStep_rngOnly s2 s2.rng.tail)
          (genStep_trans hgenWall (genStep_trans hgenPush hgenDrop))
      have hgStT5 : GenStep st s3 :=
        genStep_trans (countStep_toGenStep hpoolstep) hg2s3
      obtain ⟨-, -, -, -, hblocks25⟩ := hg2s3
      obtain ⟨b5, hb5, hb5row, -⟩ := hblocks25 newLatest pb hpb
      have hb5le : b5.rowIndex ≤ lb.rowIndex := by
        rw [hb5row]
        exact hpbrow
      have hb51 : 1 ≤ b5.rowIndex := by
        rw [hb5row]
        exact hpb1
      have hrec5 : ∀ pd, st.pathHeap.get? pid = some pd →
          s3.pathHeap.get? pid =
            some { pd with subPath := (pd.subPath ++ [newLatest]).tail } := by
        intro pd hpd
        have hp2 : s2.pathHeap.get? pid = some pd := by
          rw [hpoolstep.2.2.1]
          exact hpd
        have hp3 : t3.pathHeap.get? pid = some pd := by
          rw [hheap3]
          exact hp2
        have hp4 := modifyPath_heap hK hp3
        have hp5 := modifyPath_heap hM2 hp4
        exact hp5
      rcases bind_inv hD with ⟨nb, s4, hO, hP2⟩
      rcases getBlk_inv hO with ⟨hnb, heq⟩
      rw [heq] at hP2
      split at hP2
      case isTrue hstop =>
        rw [pure_apply] at hP2
        cases hP2
        refine ⟨[newLatest], ?_, ?_⟩
        · intro pd hpd
          refine ⟨_, hrec5 pd hpd, ?_⟩
          show (pd.subPath ++ [newLatest]).tail = (pd.subPath ++ [newLatest]).drop 1
          rw [List.drop_one]
        · refine List.chain'_cons.mpr ⟨?_, List.chain'_singleton newLatest⟩
          rw [rowOf_eq hb5, rowOf_mono hgStT5 hlb]
          exact hb5le
      case isFalse hstop =>
        rcases bind_inv hP2 with ⟨sv, t6, hQ, hR⟩
        rw [randBelow_apply] at hQ
        cases hQ
        rcases bind_inv hR with ⟨u4, t7, hS2, hT⟩
        obtain ⟨hg57, hheap7⟩ : GenStep s3 t7 ∧ t7.pathHeap = s3.pathHeap := by
          split at hS2
          case isTrue hs => exact absurd hs (by decide)
          case isFalse hs =>
            split at hS2
            case isTrue hss =>
              rw [pushPathSeed_apply] at hS2
              cases hS2
              exact ⟨genStep_trans (genStep_rngOnly _ _)
                (genOk_pushPathSeed newLatest _ _ _ (pushPathSeed_apply _ _)), rfl⟩
            case isFalse hss =>
              rw [pure_apply] at hS2
              cases hS2
              exact ⟨genStep_rngOnly _ _, rfl⟩
        have hgenLoop := genOk_extendMainPathLoop n pid newLatest t7 u st1 hT
        have hgAll : GenStep st st1 :=
          genStep_trans hgStT5 (genStep_trans hg57 hgenLoop)
        obtain ⟨-, -, -, -, hblocks57⟩ := hg57
        obtain ⟨b7, hb7, hb7row, -⟩ := hblocks57 newLatest b5 hb5
        have hb71 : 1 ≤ b7.rowIndex := by
          rw [hb7row]
          exact hb51
        obtain ⟨new2, hrec2, hchain2⟩ := ih newLatest hT b7 hb7 hb71
        refine ⟨newLatest :: new2, ?_, ?_⟩
        · intro pd hpd
          have hpd7 : t7.pathHeap.get? pid =
              some { pd with subPath := (pd.subPath ++ [newLatest]).tail } := by
            rw [hheap7]
            exact hrec5 pd hpd
          obtain ⟨pd1, hpd1, hsub1⟩ := hrec2 _ hpd7
          refine ⟨pd1, hpd1, ?_⟩
          rw [hsub1]
          exact drop_push_tail pd.subPath newLatest new2
        · refine List.chain'_cons.mpr ⟨?_, hchain2⟩
          have h1 : rowOf st1 newLatest = b7.rowIndex := rowOf_mono hgenLoop hb7
          have h2 : rowOf st1 latestId = lb.rowIndex := rowOf_mono hgAll hlb
          rw [h1, h2, hb7row, hb5row]
          exact hpbrow


/-! ## Length caps of the branch-growth loops -/

/-- `makeSubPath`'s growth loop: it always pushes one block before
checking the cap, so the final length is bounded by
`max (entry + 1) distance`, not by `distance` alone. -/
theorem makeSubPathLoop_len (fuel pid : Nat) : ∀ (curId : Nat) {st st1 : St} {u : Unit},
    makeSubPathLoop fuel pid curId st = (some u, st1) →
    ∀ pd, st.pathHeap.get? pid = some pd →
      ∃ pd1, st1.pathHeap.get? pid = some pd1 ∧ pd1.distance = pd.distance ∧
        pd1.subPath.length ≤ max (pd.subPath.length + 1) pd.distance := by
  induction fuel with
  | zero =>
    intro curId st st1 u h pd hpd
    rw [makeSubPathLoop_zero, crash_apply] at h
    simp at h
  | succ n ih =>
    intro curId st st1 u h pd hpd
    rw [makeSubPathLoop_succ] at h
    rcases bind_inv h with ⟨pool, s2, hA, hB⟩
    have hpoolstep := countOk_subPool curId st pool s2 hA
    have hp2 : s2.pathHeap.get? pid = some pd := by
      rw [hpoolstep.2.2.1]
      exact hpd
    rcases bind_inv hB with ⟨newCur, s3, hC, hD⟩
    have hstep : ∃ pdm, s3.pathHeap.get? pid = some pdm ∧ pdm.distance = pd.distance ∧
        (pdm.subPath.length = pd.subPath.length + 1 ∨ (pdm = pd ∧ pool.length = 0)) := by
      split at hC
      case isTrue hcond =>
        rcases bind_inv hC with ⟨j, t1, hE, hF⟩
        rw [randBelow_apply] at hE
        cases hE
        rcases bind_inv hF with ⟨nId, t2, hG, hH⟩
        rcases listGet_inv hG with ⟨hjget, rfl⟩
        rcases bind_inv hH with ⟨u1, t3, hI, hJ⟩
        have hheap3 := setWallFalse_heapKeep hI
        have hp3 : t3.pathHeap.get? pid = some pd := by
          rw [hheap3]
          exact hp2
        rcases bind_inv hJ with ⟨u2, t4, hK, hL⟩
        have hp4 := modifyPath_heap hK hp3
        rw [pure_apply] at hL
        cases hL
        exact ⟨_, hp4, rfl, Or.inl (by simp)⟩
      case isFalse hcond =>
        rw [pure_apply] at hC
        cases hC
        exact ⟨pd, hp2, rfl, Or.inr ⟨rfl, Nat.eq_zero_of_not_pos hcond⟩⟩
    obtain ⟨pdm, hpdm, hdm, hcase⟩ := hstep
    rcases bind_inv hD with ⟨nb, s4, hM2, hN⟩
    rcases getBlk_inv hM2 with ⟨hnb, heq1⟩
    rw [heq1] at hN
    rcases bind_inv hN with ⟨pdR, s5, hO, hP2⟩
    rcases getPath_inv hO with ⟨hpdR, heq2⟩
    rw [heq2] at hP2
    have hRm : pdR = pdm := by
      rw [hpdm] at hpdR
      exact ((Option.some.injEq _ _).mp hpdR).symm
    subst hRm
    split at hP2
    case isTrue hstop =>
      have hfin : st1.pathHeap.get? pid = some pdR := by
        split at hP2
        case isTrue hm =>
          rw [markForSplice_apply] at hP2
          cases hP2
          exact hpdm
        case isFalse hm =>
          rw [pure_apply] at hP2
          cases hP2
          exact hpdm
      refine ⟨pdR, hfin, hdm, ?_⟩
      rcases hcase with h1 | ⟨rfl, -⟩
      · rw [h1]
        exact le_max_left _ _
      · exact le_trans (Nat.le_succ _) (le_max_left _ _)
    case isFalse hstop =>
      have hx : pdR.subPath.length < pdR.distance :=
        Nat.lt_of_not_le (fun hxx => hstop (Or.inr (Or.inr hxx)))
      have hpool0 : ¬ pool.length = 0 := fun hxx => hstop (Or.inr (Or.inl hxx))
      have hpush : pdR.subPath.length = pd.subPath.length + 1 := by
        rcases hcase with h1 | ⟨-, h0⟩
        · exact h1
        · exact absurd h0 hpool0
      rcases bind_inv hP2 with ⟨sv, s6, hQ, hR⟩
      rw [randBelow_apply] at hQ
      cases hQ
      rcases bind_inv hR with ⟨u3, s7, hS2, hT⟩
      have hheap7 : s7.pathHeap.get? pid = some pdR := by
        split at hS2
        case isTrue hs => exact absurd hs (by decide)
        case isFalse hs =>
          split at hS2
          case isTrue hss =>
            rw [pushSecondSeed_apply] at hS2
            cases hS2
            exact hpdm
          case isFalse hss =>
            rw [pure_apply] at hS2
            cases hS2
            exact hpdm
      obtain ⟨pd1, hpd1, hd1, hlen1⟩ := ih newCur hT pdR hheap7
      refine ⟨pd1, hpd1, hd1.trans hdm, ?_⟩
      refine hlen1.trans (max_le ?_ ?_)
      · have h2 : pd.subPath.length + 2 ≤ pd.distance := by
          rw [hpush, hdm] at hx
          omega
        rw [hpush]
        exact le_trans h2 (le_max_right _ _)
      · rw [hdm]
        exact le_max_right _ _

/-- `extendPaths`'s growth loop obeys the same `max (entry + 1) distance`
bound. -/
theorem extendPathsLoop_len (fuel pid : Nat) :
    ∀ (latestId : Nat) (lastEx : Option Nat) {st st1 : St} {u : Unit},
    extendPathsLoop fuel pid latestId lastEx st = (some u, st1) →
    ∀ pd, st.pathHeap.get? pid = some pd →
      ∃ pd1, st1.pathHeap.get? pid = some pd1 ∧ pd1.distance = pd.distance ∧
        pd1.subPath.length ≤ max (pd.subPath.length + 1) pd.distance := by
  induction fuel with
  | zero =>
    intro latestId lastEx st st1 u h pd hpd
    rw [extendPathsLoop_zero, crash_apply] at h
    simp at h
  | succ n ih =>
    intro latestId lastEx st st1 u h pd hpd
    rw [extendPathsLoop_succ] at h
    rcases bind_inv h with ⟨latest, s1, hgb, hB⟩
    rcases getBlk_inv hgb with ⟨hlat, heq0⟩
    rw [heq0] at hB
    rcases bind_inv hB with ⟨st0, s2, hgs, hC⟩
    rcases getSt_inv hgs with ⟨rfl, rfl⟩
    rcases bind_inv hC with ⟨poolPair, s3, hE2, hF2⟩
    have hpoolstep := countOk_extendPathsPoolGo _ _ _ _ _ poolPair s3 hE2
    have hp3 : s3.pathHeap.get? pid = some pd := by
      rw [hpoolstep.2.2.1]
      exact hpd
    rcases bind_inv hF2 with ⟨newLatest, s4, hG2, hH2⟩
    have hstep : ∃ pdm, s4.pathHeap.get? pid = some pdm ∧ pdm.distance = pd.distance ∧
        (pdm.subPath.length = pd.subPath.length + 1 ∨
          (pdm = pd ∧ poolPair.1.length = 0)) := by
      split at hG2
      case isTrue hcond =>
        rcases bind_inv hG2 with ⟨j, t1, hE, hF⟩
        rw [randBelow_apply] at hE
        cases hE
        rcases bind_inv hF with ⟨nId, t2, hG, hH⟩
        rcases listGet_inv hG with ⟨hjget, rfl⟩
        rcases bind_inv hH with ⟨u1, t3, hI, hJ⟩
        have hheap3 := setWallFalse_heapKeep hI
        have hp4 : t3.pathHeap.get? pid = some pd := by
          rw [hheap3]
          exact hp3
        rcases bind_inv hJ with ⟨u2, t4, hK, hL⟩
        have hp5 := modifyPath_heap hK hp4
        rcases bind_inv hL with ⟨sv, t5, hQ, hR⟩
        rw [randBelow_apply] at hQ
        cases hQ
        rcases bind_inv hR with ⟨u3, t6, hS2, hT⟩
        have hp6 : t6.pathHeap.get? pid =
            some { pd with subPath := pd.subPath ++ [nId] } := by
          split at hS2
          case isTrue hs => exact absurd hs (by decide)
          case isFalse hs =>
            split at hS2
            case isTrue hss =>
              rw [pushSecondSeed_apply] at hS2
              cases hS2
              exact hp5
            case isFalse hss =>
              rw [pure_apply] at hS2
              cases hS2
              exact hp5
        rw [pure_apply] at hT
        cases hT
        exact ⟨_, hp6, rfl, Or.inl (by simp)⟩
      case isFalse hcond =>
        rw [pure_apply] at hG2
        cases hG2
        exact ⟨pd, hp3, rfl, Or.inr ⟨rfl, Nat.eq_zero_of_not_pos hcond⟩⟩
    obtain ⟨pdm, hpdm, hdm, hcase⟩ := hstep
    rcases bind_inv hH2 with ⟨nb, s5, hM2, hN⟩
    rcases getBlk_inv hM2 with ⟨hnb, heq1⟩
    rw [heq1] at hN
    rcases bind_inv hN with ⟨pdR, s6, hO, hP2⟩
    rcases getPath_inv hO with ⟨hpdR, heq2⟩
    rw [heq2] at hP2
    have hRm : pdR = pdm := by
      rw [hpdm] at hpdR
      exact ((Option.some.injEq _ _).mp hpdR).symm
    subst hRm
    split at hP2
    case isTrue hstop =>
      rcases bind_inv hP2 with ⟨mark, s7, hY, hZ⟩
      have hmk : s7.pathHeap.get? pid = some pdR := by
        split at hY
        case isTrue h1 =>
          rw [pure_apply] at hY
          cases hY
          exact hpdm
        case isFalse h1 =>
          split at hY
          case isTrue h2 =>
            rw [pure_apply] at hY
            cases hY
            exact hpdm
          case isFalse h2 =>
            rcases bind_inv hY with ⟨lbk, t7, hY1, hY2⟩
            have h7 : t7.pathHeap.get? pid = some pdR := by
              cases hlast : poolPair.2 with
              | none =>
                rw [hlast] at hY1
                have hY1b : (crash : M Blk) _ = (some lbk, t7) := hY1
                rw [crash_apply] at hY1b
                simp at hY1b
              | some x =>
                rw [hlast] at hY1
                rcases getBlk_inv hY1 with ⟨-, rfl⟩
                exact hpdm
            rcases bind_inv hY2 with ⟨st2, t8, hY3, hY4⟩
            rcases getSt_inv hY3 with ⟨rfl, rfl⟩
            rw [pure_apply] at hY4
            cases hY4
            exact h7
      have hfin : st1.pathHeap.get? pid = some pdR := by
        split at hZ
        case isTrue hm =>
          rw [markForSplice_apply] at hZ
          cases hZ
          exact hmk
        case isFalse hm =>
          rw [pure_apply] at hZ
          cases hZ
          exact hmk
      refine ⟨pdR, hfin, hdm, ?_⟩
      rcases hcase with h1 | ⟨rfl, -⟩
      · rw [h1]
        exact le_max_left _ _
      · exact le_trans (Nat.le_succ _) (le_max_left _ _)
    case isFalse hstop =>
      have hx : pdR.subPath.length < pdR.distance :=
        Nat.lt_of_not_le (fun hxx => hstop (Or.inr (Or.inr hxx)))
      have hpool0 : ¬ poolPair.1.length = 0 := fun hxx => hstop (Or.inr (Or.inl hxx))
      have hpush : pdR.subPath.length = pd.subPath.length + 1 := by
        rcases hcase with h1 | ⟨-, h0⟩
        · exact h1
        · exact absurd h0 hpool0
      obtain ⟨pd1, hpd1, hd1, hlen1⟩ := ih newLatest poolPair.2 hP2 pdR hpdm
      refine ⟨pd1, hpd1, hd1.trans hdm, ?_⟩
      refine hlen1.trans (max_le ?_ ?_)
      · have h2 : pd.subPath.length + 2 ≤ pd.distance := by
          rw [hpush, hdm] at hx
          omega
        rw [hpush]
        exact le_trans h2 (le_max_right _ _)
      · rw [hdm]
        exact le_max_right _ _


/-! ## Branch counting: the aliased second-generation drain -/

theorem modifyBlk_pathsKeep {id : Nat} {f : Blk → Blk} {st st1 : St} {u : Unit}
    (h : modifyBlk id f st = (some u, st1)) :
    st1.pathHeap = st.pathHeap ∧ st1.secondSeeds = st.secondSeeds := by
  rcases modifyBlk_inv h with ⟨b, hb, rfl⟩
  exact ⟨rfl, rfl⟩

theorem modifyPath_keep {pid : Nat} {f : PathD → PathD} {st st1 : St} {u : Unit}
    (h : modifyPath pid f st = (some u, st1)) :
    st1.pathHeap.length = st.pathHeap.length ∧ st1.secondSeeds = st.secondSeeds := by
  rcases modifyPath_inv h with ⟨p, hp, rfl⟩
  refine ⟨?_, rfl⟩
  simp

theorem makeSubPathLoop_counts (fuel pid : Nat) : ∀ (curId : Nat) {st st1 : St} {u : Unit},
    makeSubPathLoop fuel pid curId st = (some u, st1) →
    st1.pathHeap.length = st.pathHeap.length ∧
      ∃ ext, st1.secondSeeds = st.secondSeeds ++ ext := by
  induction fuel with
  | zero =>
    intro curId st st1 u h
    rw [makeSubPathLoop_zero, crash_apply] at h
    simp at h
  | succ n ih =>
    intro curId st st1 u h
    rw [makeSubPathLoop_succ] at h
    rcases bind_inv h with ⟨pool, s2, hA, hB⟩
    have hps := countOk_subPool curId st pool s2 hA
    rcases bind_inv hB with ⟨newCur, s3, hC, hD⟩
    have hstep : s3.pathHeap.length = st.pathHeap.length ∧
        s3.secondSeeds = st.secondSeeds := by
      split at hC
      case isTrue hcond =>
        rcases bind_inv hC with ⟨j, t1, hE, hF⟩
        rw [randBelow_apply] at hE
        cases hE
        rcases bind_inv hF with ⟨nId, t2, hG, hH⟩
        rcases listGet_inv hG with ⟨hjget, rfl⟩
        rcases bind_inv hH with ⟨u1, t3, hI, hJ⟩
        have hkeep3 : t3.pathHeap = s2.pathHeap ∧ t3.secondSeeds = s2.secondSeeds := by
          unfold setWallFalse at hI
          have h2 := modifyBlk_pathsKeep hI
          exact h2
        rcases bind_inv hJ with ⟨u2, t4, hK, hL⟩
        have hkeep4 := modifyPath_keep hK
        rw [pure_apply] at hL
        cases hL
        constructor
        · rw [hkeep4.1, hkeep3.1, hps.2.2.1]
        · rw [hkeep4.2, hkeep3.2, hps.2.2.2.2.2.2.1]
      case isFalse hcond =>
        rw [pure_apply] at hC
        cases hC
        exact ⟨by rw [hps.2.2.1], hps.2.2.2.2.2.2.1⟩
    rcases bind_inv hD with ⟨nb, s4, hM2, hN⟩
    rcases getBlk_inv hM2 with ⟨hnb, heq1⟩
    rw [heq1] at hN
    rcases bind_inv hN with ⟨pdR, s5, hO, hP2⟩
    rcases getPath_inv hO with ⟨hpdR, heq2⟩
    rw [heq2] at hP2
    split at hP2
    case isTrue hstop =>
      split at hP2
      case isTrue hm =>
        rw [markForSplice_apply] at hP2
        cases hP2
        exact ⟨hstep.1, [], by rw [hstep.2, List.append_nil]⟩
      case isFalse hm =>
        rw [pure_apply] at hP2
        cases hP2
        exact ⟨hstep.1, [], by rw [hstep.2, List.append_nil]⟩
    case isFalse hstop =>
      rcases bind_inv hP2 with ⟨sv, s6, hQ, hR⟩
      rw [randBelow_apply] at hQ
      cases hQ
      rcases bind_inv hR with ⟨u3, s7, hS2, hT⟩
      have hseed : s7.pathHeap.length = s3.pathHeap.length ∧
          ∃ ext1, s7.secondSeeds = s3.secondSeeds ++ ext1 := by
        split at hS2
        case isTrue hs => exact absurd hs (by decide)
        case isFalse hs =>
          split at hS2
          case isTrue hss =>
            rw [pushSecondSeed_apply] at hS2
            cases hS2
            exact ⟨rfl, [newCur], rfl⟩
          case isFalse hss =>
            rw [pure_apply] at hS2
            cases hS2
            exact ⟨rfl, [], (List.append_nil _).symm⟩
      obtain ⟨hlen2, ext2, hext2⟩ := ih newCur hT
      obtain ⟨hlen1, ext1, hext1⟩ := hseed
      refine ⟨by rw [hlen2, hlen1, hstep.1], ext1 ++ ext2, ?_⟩
      rw [hext2, hext1, hstep.2, List.append_assoc]

theorem makeSubPath_counts {fuel firstBlock : Nat} {st st1 : St} {u : Unit}
    (h : makeSubPath fuel firstBlock st = (some u, st1)) :
    st1.pathHeap.length = st.pathHeap.length + 1 ∧
      ∃ ext, st1.secondSeeds = st.secondSeeds ++ ext := by
  unfold makeSubPath at h
  rcases bind_inv h with ⟨pid, s1, hA, hB⟩
  rw [newPath_apply] at hA
  cases hA
  rcases bind_inv hB with ⟨s0, s2, hC, hD⟩
  rcases getSt_inv hC with ⟨rfl, rfl⟩
  rcases bind_inv hD with ⟨d, s3, hE, hF⟩
  rw [randBelow_apply] at hE
  cases hE
  rcases bind_inv hF with ⟨u1, s4, hG, hH⟩
  have hk4 := modifyPath_keep hG
  rcases bind_inv hH with ⟨u2, s5, hI, hJ⟩
  have hk5 := modifyPath_keep hI
  obtain ⟨hlen, ext, hext⟩ := makeSubPathLoop_counts fuel _ firstBlock hJ
  constructor
  · rw [hlen, hk5.1, hk4.1]
    simp
  · refine ⟨ext, ?_⟩
    rw [hext, hk5.2, hk4.2]

/-- The aliased drain: the number of branch paths it creates equals the
number of seeds present in the FINAL queue beyond the start index — seeds
enqueued by second-generation branches are themselves expanded. -/
theorem drainSecondSeeds_counts (fuel : Nat) : ∀ (i : Nat) {st st1 : St} {u : Unit},
    drainSecondSeeds fuel i st = (some u, st1) → i ≤ st.secondSeeds.length →
    (∃ ext, st1.secondSeeds = st.secondSeeds ++ ext) ∧
      st1.pathHeap.length + i = st.pathHeap.length + st1.secondSeeds.length := by
  induction fuel with
  | zero =>
    intro i st st1 u h hi
    rw [drainSecondSeeds_zero, crash_apply] at h
    simp at h
  | succ n ih =>
    intro i st st1 u h hi
    rw [drainSecondSeeds_succ] at h
    rcases bind_inv h with ⟨s0, sm, hA, hB⟩
    rcases getSt_inv hA with ⟨rfl, rfl⟩
    cases hg : st.secondSeeds.get? i with
    | none =>
      rw [hg] at hB
      have hB2 : (pure () : M Unit) st = (some u, st1) := hB
      rw [pure_apply] at hB2
      cases hB2
      have hlen : st.secondSeeds.length ≤ i := by
        by_contra hlt
        rw [List.get?_eq_get (Nat.lt_of_not_le hlt)] at hg
        exact Option.noConfusion hg
      have : i = st.secondSeeds.length := Nat.le_antisymm hlen hi |>.symm
      refine ⟨⟨[], (List.append_nil _).symm⟩, ?_⟩
      rw [this]
    | some seed =>
      rw [hg] at hB
      rcases bind_inv hB with ⟨u1, s2, hC, hD⟩
      obtain ⟨hlen2, ext2, hext2⟩ := makeSubPath_counts hC
      have hi2 : i + 1 ≤ s2.secondSeeds.length := by
        have hi1 : i < st.secondSeeds.length := length_lt_of_get? hg
        rw [hext2, List.length_append]
        omega
      obtain ⟨⟨ext3, hext3⟩, hcount⟩ := ih (i + 1) hD hi2
      refine ⟨⟨ext2 ++ ext3, ?_⟩, ?_⟩
      · rw [hext3, hext2, List.append_assoc]
      · rw [hlen2] at hcount
        omega

end Maze


/-! ## Concrete inputs: random streams, key sequences and small states -/

namespace Maze

/-- A hand-picked random stream for a `numberOfRowBlocks = 4` run: the
main path is carved straight up the middle column, and every branch seed
draw misses, so the generated maze is fully predictable. -/
def rngA : List Nat := [0, 3,20, 0,20, 0,20, 0,20, 0,20, 0,20, 0,20, 0,20, 0,20, 0,20, 0,20, 0, 0]

/-- Like `rngA` but with one branch-seed draw hitting, so that the run
creates one branch path besides the main path. -/
def rngB : List Nat :=
  [0, 3,20, 0,20, 0,20, 0,20, 0,20, 0,20, 0,20, 0,20, 0,20, 0,20, 0,20, 1, 0, 0, 0, 0]

/-- An arbitrary random stream for a `numberOfRowBlocks = 6` generation
pass rich enough to enqueue second-generation branch seeds. -/
def rngC : List Nat :=
  [15978, 6071, 33665, 26751, 46753, 37750, 63207, 63117, 44700, 47891, 57097, 28430,
   9899, 60389, 37570, 54831, 50516, 40349, 23311, 24922, 22714, 52316, 52754, 44653,
   23617, 6662, 63576, 62504, 42608, 31446, 6237, 8165, 41752, 33075, 61518, 5261,
   48564, 40132, 61966, 32455, 57360, 57536, 51581, 62067, 10543, 9608, 2293, 17752,
   16487, 39288, 64534, 23323, 59599, 5370, 58565, 54897, 47324, 50654, 9840, 25493,
   6727, 1511, 9109, 36861, 63027, 28839, 53634, 25418, 45453, 35981, 18015, 11646,
   23988, 39741, 50539, 15987, 16731, 25888, 3460, 31368, 7596, 5181, 60906, 159,
   54191, 29257, 25926, 21829, 19947, 7674]

/-- Five key presses: enough `up` moves to trigger two rebases. -/
def mvA : List Mv := [Mv.up, Mv.right, Mv.up, Mv.up, Mv.up]

/-- Four key presses: the final `up` triggers a rebase, so the run ends
immediately after a `shiftMaze`. -/
def mvA4 : List Mv := [Mv.up, Mv.right, Mv.up, Mv.up]

/-- A wall block at grid position `(i, k)` with an empty adjacency list. -/
def blkW (i k : Nat) : Blk := ⟨true, i, k, [], 0⟩

/-- A floor block at grid position `(i, k)` with an empty adjacency list. -/
def blkF (i k : Nat) : Blk := ⟨false, i, k, [], 0⟩

/-- A two-block state whose character stands at `(1,0)` under a wall at
`(0,0)`: `moveUp` hits the wall. -/
def stUpWall : St :=
  { nBlocks := 2, blocks := [blkW 0 0, blkF 1 0], mazeRows := [[0], [1]], pathHeap := [],
    paths := [], mainPathId := none, pathSeeds := [], secondSeeds := [], pathsToSplice := [],
    character := some 1, rng := [] }

/-- Character at `(0,0)` above a wall at `(1,0)`: `moveDown` hits the wall. -/
def stDownWall : St :=
  { nBlocks := 2, blocks := [blkF 0 0, blkW 1 0], mazeRows := [[0], [1]], pathHeap := [],
    paths := [], mainPathId := none, pathSeeds := [], secondSeeds := [], pathsToSplice := [],
    character := some 0, rng := [] }

/-- Character at `(0,1)` right of a wall at `(0,0)`: `moveLeft` hits the wall. -/
def stLeftWall : St :=
  { nBlocks := 2, blocks := [blkW 0 0, blkF 0 1], mazeRows := [[0, 1]], pathHeap := [],
    paths := [], mainPathId := none, pathSeeds := [], secondSeeds := [], pathsToSplice := [],
    character := some 1, rng := [] }

/-- Character at `(0,0)` left of a wall at `(0,1)`: `moveRight` hits the wall. -/
def stRightWall : St :=
  { nBlocks := 2, blocks := [blkF 0 0, blkW 0 1], mazeRows := [[0, 1]], pathHeap := [],
    paths := [], mainPathId := none, pathSeeds := [], secondSeeds := [], pathsToSplice := [],
    character := some 0, rng := [] }

/-- A one-block state holding one path `⟨[0], 5⟩` whose frontier block sits
on row 1 with no neighbours: every generation loop stops at once on it. -/
def stLoop : St :=
  { nBlocks := 2, blocks := [blkF 1 1], mazeRows := [[0]], pathHeap := [⟨[0], 5⟩],
    paths := [0], mainPathId := some 0, pathSeeds := [], secondSeeds := [],
    pathsToSplice := [], character := none, rng := [] }

/-- `runProgram` on `rngA` with no key presses. -/
def runA0 : Option Unit × St := runProgram 4 1000 rngA []

/-- `runProgram` on `rngA` with the five presses of `mvA`. -/
def runA5 : Option Unit × St := runProgram 4 1000 rngA mvA

/-- `runProgram` on `rngA` with the four presses of `mvA4`. -/
def runA4 : Option Unit × St := runProgram 4 1000 rngA mvA4

/-- `runProgram` on `rngB` with the four presses of `mvA4`. -/
def runB4 : Option Unit × St := runProgram 4 1000 rngB mvA4

/-- The state reached after three of `mvA`'s presses, on which the next
`up` would run `shiftMaze`. -/
def stAfter3 : St := (runProgram 4 1000 rngA [Mv.up, Mv.right, Mv.up]).2

/-- A generation pass as the source performs it: `makeMaze` then
`makePath`. -/
def mpLive : Option Unit × St := (makeMaze >>= fun _ => makePath 1000) (initSt 6 rngC)

/-- The same pass with the spec-modelled snapshot drain
(`makePathOneExtraGen`) in place of the source's aliased drain. -/
def mpSnap : Option Unit × St := (makeMaze >>= fun _ => makePathOneExtraGen 1000) (initSt 6 rngC)

/-- Grid-neighbourhood as claim C5 words it: row/column indices differ by
exactly one step in exactly one direction (spec-side definition). -/
def gridNbr (b1 b2 : Blk) : Bool :=
  (b1.rowIndex == b2.rowIndex &&
    (b1.blockIndex + 1 == b2.blockIndex || b2.blockIndex + 1 == b1.blockIndex)) ||
  (b1.blockIndex == b2.blockIndex &&
    (b1.rowIndex + 1 == b2.rowIndex || b2.rowIndex + 1 == b1.rowIndex))

theorem get?_dropLast {α : Type} {l : List α} {i : Nat} (h : i + 1 < l.length) :
    l.dropLast.get? i = l.get? i := by
  rw [List.dropLast_eq_take]
  exact List.get?_take (by omega)


/-! ## The claims -/

/-- C2 (amended): after a successful `moveUp` — the only move that can
trigger a rebase — the character is unchanged, or it stands on a block of
the post-rebase grid window (never on the detached row).  The path half of
claim C2 is refuted by `claim_C2_counterexample`. -/
theorem claim_C2 {fuel : Nat} {st st1 : St} {u : Unit}
    (hidx : IdxOK st) (h : moveUp fuel st = (some u, st1)) :
    st1.character = st.character ∨
      ∀ id, st1.character = some id → id ∈ st1.mazeRows.flatten := by
  rcases moveUp_inv h with rfl | hcase | hcase
  · exact Or.inl rfl
  · obtain ⟨tid, hmem, hfl, rfl⟩ := hcase
    refine Or.inr ?_
    intro id hid
    have htid : tid = id := Option.some.inj hid
    subst htid
    exact hmem
  · obtain ⟨tid, target, i, k, r, stS, uS, hrowq, hcell, htb, hw, hthr, hshift, rfl⟩ := hcase
    refine Or.inr ?_
    intro id hid
    have htid : tid = id := Option.some.inj hid
    subst htid
    show tid ∈ stS.mazeRows.flatten
    obtain ⟨-, -, -, fresh, -, hrows⟩ := shiftMaze_spec hshift
    rw [hrows]
    obtain ⟨b, hb, hbrow, hbcol⟩ := hidx i r k tid hrowq hcell
    have hbt : b = target := Option.some.inj (hb.symm.trans htb)
    subst hbt
    rw [hbrow] at hthr
    have hlen : i + 1 < st.mazeRows.length := by omega
    refine List.mem_flatten.mpr ⟨r, ?_, List.get?_mem hcell⟩
    have hget : st.mazeRows.dropLast.get? i = some r := by
      rw [get?_dropLast hlen]
      exact hrowq
    exact List.mem_cons_of_mem fresh (List.get?_mem hget)

/-- Witness for C2: `moveUp` on `stUpWall` (a wall above) succeeds leaving
the character unchanged, and `stUpWall` satisfies the index hypothesis. -/
theorem claim_C2_witness :
    moveUp 7 stUpWall = (some (), stUpWall) ∧
    (stUpWall.character = stUpWall.character ∨
      ∀ id, stUpWall.character = some id → id ∈ stUpWall.mazeRows.flatten) := by
  have h : moveUp 7 stUpWall = (some (), stUpWall) := rfl
  refine ⟨h, claim_C2 ?_ h⟩
  intro i r k id hrow hcell
  have hrows : stUpWall.mazeRows = [[0], [1]] := rfl
  rw [hrows] at hrow
  have hi : i < 2 := length_lt_of_get? hrow
  interval_cases i
  · have hr : [0] = r := Option.some.inj hrow
    subst hr
    have hk : k < 1 := length_lt_of_get? hcell
    interval_cases k
    have hid : 0 = id := Option.some.inj hcell
    subst hid
    exact ⟨blkW 0 0, rfl, rfl, rfl⟩
  · have hr : [1] = r := Option.some.inj hrow
    subst hr
    have hk : k < 1 := length_lt_of_get? hcell
    interval_cases k
    have hid : 1 = id := Option.some.inj hcell
    subst hid
    exact ⟨blkF 1 0, rfl, rfl, rfl⟩

/-- C3 (amended): a move whose target block exists and is a wall is
rejected with no state change at all, in each of the four directions.
The out-of-bounds half of claim C3 is refuted by
`claim_C3_counterexample`: there the program crashes instead of
rejecting. -/
theorem claim_C3 :
    (∀ (st : St) (c : Nat) (loc : Blk) (row : List Nat) (tid : Nat) (target : Blk),
      st.character = some c → st.blocks.get? c = some loc →
      st.mazeRows.get? (loc.rowIndex + 1) = some row →
      row.get? loc.blockIndex = some tid →
      st.blocks.get? tid = some target → target.isWall = true →
      moveDown st = (some (), st)) ∧
    (∀ (fuel : Nat) (st : St) (c : Nat) (loc : Blk) (row : List Nat) (tid : Nat) (target : Blk),
      st.character = some c → st.blocks.get? c = some loc → ¬(loc.rowIndex = 0) →
      st.mazeRows.get? (loc.rowIndex - 1) = some row →
      row.get? loc.blockIndex = some tid →
      st.blocks.get? tid = some target → target.isWall = true →
      moveUp fuel st = (some (), st)) ∧
    (∀ (st : St) (c : Nat) (loc : Blk) (row : List Nat) (tid : Nat) (target : Blk),
      st.character = some c → st.blocks.get? c = some loc → ¬(loc.blockIndex = 0) →
      st.mazeRows.get? loc.rowIndex = some row →
      row.get? (loc.blockIndex - 1) = some tid →
      st.blocks.get? tid = some target → target.isWall = true →
      moveLeft st = (some (), st)) ∧
    (∀ (st : St) (c : Nat) (loc : Blk) (row : List Nat) (tid : Nat) (target : Blk),
      st.character = some c → st.blocks.get? c = some loc →
      st.mazeRows.get? loc.rowIndex = some row →
      row.get? (loc.blockIndex + 1) = some tid →
      st.blocks.get? tid = some target → target.isWall = true →
      moveRight st = (some (), st)) :=
  ⟨fun st c loc row tid target hch hc hrow hcell htb hw =>
      moveDown_wall hch hc hrow hcell htb hw,
   fun fuel st c loc row tid target hch hc h0 hrow hcell htb hw =>
      moveUp_wall hch hc h0 hrow hcell htb hw,
   fun st c loc row tid target hch hc h0 hrow hcell htb hw =>
      moveLeft_wall hch hc h0 hrow hcell htb hw,
   fun st c loc row tid target hch hc hrow hcell htb hw =>
      moveRight_wall hch hc hrow hcell htb hw⟩

/-- Witness for C3: the four wall states each reject the move unchanged. -/
theorem claim_C3_witness :
    moveDown stDownWall = (some (), stDownWall) ∧
    moveUp 7 stUpWall = (some (), stUpWall) ∧
    moveLeft stLeftWall = (some (), stLeftWall) ∧
    moveRight stRightWall = (some (), stRightWall) :=
  ⟨claim_C3.1 stDownWall 0 (blkF 0 0) [1] 1 (blkW 1 0) rfl rfl rfl rfl rfl rfl,
   claim_C3.2.1 7 stUpWall 1 (blkF 1 0) [0] 0 (blkW 0 0) rfl rfl (by decide) rfl rfl rfl rfl,
   claim_C3.2.2.1 stLeftWall 1 (blkF 0 1) [0, 1] 0 (blkW 0 0) rfl rfl (by decide) rfl rfl rfl rfl,
   claim_C3.2.2.2 stRightWall 0 (blkF 0 0) [0, 1] 1 (blkW 0 1) rfl rfl rfl rfl rfl rfl⟩

/-- C4 (confirmed): along the main path the row index never increases
within a generation pass: in the `makePath` loop and in the
`extendMainPath` loop, the newly appended blocks form a chain whose row
indices (in the final state) are non-increasing, starting from the
frontier block. -/
theorem claim_C4 :
    (∀ (fuel pid curId : Nat) {st st1 : St} {u : Unit},
      makePathLoop fuel pid curId st = (some u, st1) →
      ∀ cb, st.blocks.get? curId = some cb →
      ∃ new : List Nat,
        (∀ pd, st.pathHeap.get? pid = some pd → ∃ pd1, st1.pathHeap.get? pid = some pd1 ∧
          pd1.subPath = pd.subPath ++ new) ∧
        List.Chain' (fun a b => rowOf st1 b ≤ rowOf st1 a) (curId :: new)) ∧
    (∀ (fuel pid latestId : Nat) {st st1 : St} {u : Unit},
      extendMainPathLoop fuel pid latestId st = (some u, st1) →
      ∀ lb, st.blocks.get? latestId = some lb → 1 ≤ lb.rowIndex →
      ∃ new : List Nat,
        (∀ pd, st.pathHeap.get? pid = some pd → ∃ pd1, st1.pathHeap.get? pid = some pd1 ∧
          pd1.subPath = (pd.subPath ++ new).drop new.length) ∧
        List.Chain' (fun a b => rowOf st1 b ≤ rowOf st1 a) (latestId :: new)) :=
  ⟨makePathLoop_chain, extendMainPathLoop_chain⟩

/-- Witness for C4: both loops run on `stLoop` (frontier on row 1, no
candidates) and stop at once, so the appended chain is trivial. -/
theorem claim_C4_witness :
    (makePathLoop 1 0 0 stLoop = (some (), stLoop) ∧
      extendMainPathLoop 1 0 0 stLoop = (some (), stLoop) ∧
      stLoop.blocks.get? 0 = some (blkF 1 1) ∧ 1 ≤ (blkF 1 1).rowIndex) ∧
    (∃ new : List Nat,
      (∀ pd, stLoop.pathHeap.get? 0 = some pd → ∃ pd1, stLoop.pathHeap.get? 0 = some pd1 ∧
        pd1.subPath = pd.subPath ++ new) ∧
      List.Chain' (fun a b => rowOf stLoop b ≤ rowOf stLoop a) (0 :: new)) ∧
    (∃ new : List Nat,
      (∀ pd, stLoop.pathHeap.get? 0 = some pd → ∃ pd1, stLoop.pathHeap.get? 0 = some pd1 ∧
        pd1.subPath = (pd.subPath ++ new).drop new.length) ∧
      List.Chain' (fun a b => rowOf stLoop b ≤ rowOf stLoop a) (0 :: new)) := by
  have hA : makePathLoop 1 0 0 stLoop = (some (), stLoop) := rfl
  have hB : extendMainPathLoop 1 0 0 stLoop = (some (), stLoop) := rfl
  exact ⟨⟨hA, hB, rfl, by decide⟩, claim_C4.1 1 0 0 hA (blkF 1 1) rfl,
    claim_C4.2 1 0 0 hB (blkF 1 1) rfl (by decide)⟩

/-- C7 (amended): the second-generation drain works on the LIVE seed
queue (`pathSeeds = secondSeeds` aliases the two arrays), so when it
finishes it has created one branch path per seed of the FINAL queue beyond
its start index — seeds enqueued during second-generation runs included.
The one-extra-generation reading of claim C7 is refuted by
`claim_C7_counterexample`. -/
theorem claim_C7 {fuel i : Nat} {st st1 : St} {u : Unit}
    (h : drainSecondSeeds fuel i st = (some u, st1)) (hi : i ≤ st.secondSeeds.length) :
    (∃ ext, st1.secondSeeds = st.secondSeeds ++ ext) ∧
      st1.pathHeap.length + i = st.pathHeap.length + st1.secondSeeds.length :=
  drainSecondSeeds_counts fuel i h hi

/-- Witness for C7: the drain on an empty seed queue stops at once and
creates no paths. -/
theorem claim_C7_witness :
    drainSecondSeeds 1 0 stLoop = (some (), stLoop) ∧ 0 ≤ stLoop.secondSeeds.length ∧
    ((∃ ext, stLoop.secondSeeds = stLoop.secondSeeds ++ ext) ∧
      stLoop.pathHeap.length + 0 = stLoop.pathHeap.length + stLoop.secondSeeds.length) := by
  have h : drainSecondSeeds 1 0 stLoop = (some (), stLoop) := rfl
  exact ⟨h, Nat.zero_le _, claim_C7 h (Nat.zero_le _)⟩

/-- C8 (amended): in the branch-growth loops (`makeSubPath`'s and
`extendPaths`'s), a path's `distance` never changes and its `subPath` may
overshoot the cap by AT MOST ONE block: the final length is bounded by
`max (initial + 1) distance`.  The exact-cap reading of claim C8 is
refuted by `claim_C8_counterexample` (a path of length 2 with
`distance = 0`). -/
theorem claim_C8 :
    (∀ (fuel pid curId : Nat) {st st1 : St} {u : Unit},
      makeSubPathLoop fuel pid curId st = (some u, st1) →
      ∀ pd, st.pathHeap.get? pid = some pd →
        ∃ pd1, st1.pathHeap.get? pid = some pd1 ∧ pd1.distance = pd.distance ∧
          pd1.subPath.length ≤ max (pd.subPath.length + 1) pd.distance) ∧
    (∀ (fuel pid latestId : Nat) (lastEx : Option Nat) {st st1 : St} {u : Unit},
      extendPathsLoop fuel pid latestId lastEx st = (some u, st1) →
      ∀ pd, st.pathHeap.get? pid = some pd →
        ∃ pd1, st1.pathHeap.get? pid = some pd1 ∧ pd1.distance = pd.distance ∧
          pd1.subPath.length ≤ max (pd.subPath.length + 1) pd.distance) :=
  ⟨makeSubPathLoop_len, extendPathsLoop_len⟩

/-- Witness for C8: both branch loops on `stLoop` keep the path `⟨[0], 5⟩`
within the bound. -/
theorem claim_C8_witness :
    (makeSubPathLoop 1 0 0 stLoop).1 = some () ∧
    (extendPathsLoop 1 0 0 none stLoop).1 = some () ∧
    (∃ pd1, (makeSubPathLoop 1 0 0 stLoop).2.pathHeap.get? 0 = some pd1 ∧
      pd1.distance = 5 ∧ pd1.subPath.length ≤ max (1 + 1) 5) ∧
    (∃ pd1, (extendPathsLoop 1 0 0 none stLoop).2.pathHeap.get? 0 = some pd1 ∧
      pd1.distance = 5 ∧ pd1.subPath.length ≤ max (1 + 1) 5) := by
  have h1 : (makeSubPathLoop 1 0 0 stLoop).1 = some () := rfl
  have hA : makeSubPathLoop 1 0 0 stLoop = (some (), (makeSubPathLoop 1 0 0 stLoop).2) := by
    rw [← h1]
  have h2 : (extendPathsLoop 1 0 0 none stLoop).1 = some () := rfl
  have hB : extendPathsLoop 1 0 0 none stLoop =
      (some (), (extendPathsLoop 1 0 0 none stLoop).2) := by
    rw [← h2]
  exact ⟨h1, h2, claim_C8.1 1 0 0 hA ⟨[0], 5⟩ rfl, claim_C8.2 1 0 0 none hB ⟨[0], 5⟩ rfl⟩

end Maze

namespace Maze

set_option maxHeartbeats 8000000 in
/-- C9 (amended): constructing with `numberOfRowBlocks < 3` CRASHES during
initialization (a `TypeError` inside `makePath`), whatever the fuel and
random stream — no engine is returned, but a partial state HAS been
built: a path object is already allocated (`paths = [0]`); only the
character is never placed.  The clean-rejection reading of claim C9 is
refuted by `claim_C9_counterexample`. -/
theorem claim_C9 : ∀ n : Nat, n < 3 → ∀ (fuel : Nat) (rng : List Nat),
    (start fuel (initSt n rng)).1 = none ∧
    (start fuel (initSt n rng)).2.character = none ∧
    (start fuel (initSt n rng)).2.paths = [0] := by
  intro n hn fuel rng
  interval_cases n
  · exact ⟨rfl, rfl, rfl⟩
  · exact ⟨rfl, rfl, rfl⟩
  · exact ⟨rfl, rfl, rfl⟩

/-- Witness for C9: the concrete configuration `n = 2`. -/
theorem claim_C9_witness :
    2 < 3 ∧ ((start 5 (initSt 2 [7])).1 = none ∧
      (start 5 (initSt 2 [7])).2.character = none ∧
      (start 5 (initSt 2 [7])).2.paths = [0]) :=
  ⟨by decide, claim_C9 2 (by decide) 5 [7]⟩

set_option maxRecDepth 100000 in
set_option maxHeartbeats 8000000 in
/-- C9 counterexample: with `numberOfRowBlocks = 2` the program crashes,
yet the partial state holds a full 7-row grid and an allocated path — the
configuration is not rejected cleanly. -/
theorem claim_C9_counterexample :
    (runProgram 2 1000 [] []).1 = none ∧
    (runProgram 2 1000 [] []).2.mazeRows.length = 7 ∧
    (runProgram 2 1000 [] []).2.paths = [0] ∧
    (runProgram 2 1000 [] []).2.character = none :=
  ⟨rfl, rfl, rfl, rfl⟩

set_option maxRecDepth 100000 in
set_option maxHeartbeats 8000000 in
theorem runA0_fst : runA0.1 = some () := by decide

/-- C1 (amended): after any successful run the grid has `3 * n + 1` rows
(`makePointGrid` builds one extra row) of `n - 1` cells each — not
`3 * n` rows of `n` cells.  The literal-count reading of claim C1 is
refuted by `claim_C1_counterexample`. -/
theorem claim_C1 {n fuel : Nat} {rng : List Nat} {moves : List Mv} {st1 : St}
    (h : runProgram n fuel rng moves = (some (), st1)) :
    st1.mazeRows.length = 3 * n + 1 ∧ ∀ r ∈ st1.mazeRows, r.length = n - 1 := by
  obtain ⟨⟨hsh, -, -⟩, hn⟩ := runProgram_inv h
  rw [Shape] at hsh
  rw [hn] at hsh
  exact hsh

/-- Witness for C1: the `rngA` run with no key presses. -/
theorem claim_C1_witness :
    runA0 = (some (), runA0.2) ∧
    (runA0.2.mazeRows.length = 3 * 4 + 1 ∧ ∀ r ∈ runA0.2.mazeRows, r.length = 4 - 1) := by
  have h : runA0 = (some (), runA0.2) := by
    rw [← runA0_fst]
  exact ⟨h, claim_C1 h⟩

set_option maxRecDepth 100000 in
set_option maxHeartbeats 8000000 in
/-- C1 counterexample: a reachable state (the initial one, `n = 4`) whose
grid is NOT `3 * 4` rows of `4` cells — it is 13 rows of 3. -/
theorem claim_C1_counterexample :
    runA0.1 = some () ∧
    ¬(runA0.2.mazeRows.length = 3 * 4 ∧ ∀ r ∈ runA0.2.mazeRows, r.length = 4) := by
  refine ⟨runA0_fst, ?_⟩
  intro hcon
  obtain ⟨h12, -⟩ := hcon
  have h13 : runA0.2.mazeRows.length = 13 := by decide
  omega

/-- C5 (amended): in every state reached by a successful run, every live
path's `subPath` dereferences to floor blocks only.  The grid-neighbour
half of claim C5 is refuted by `claim_C5_counterexample`. -/
theorem claim_C5 {n fuel : Nat} {rng : List Nat} {moves : List Mv} {st1 : St}
    (h : runProgram n fuel rng moves = (some (), st1)) :
    ∀ pid ∈ st1.paths, ∃ pd, st1.pathHeap.get? pid = some pd ∧
      ∀ id ∈ pd.subPath, ∃ b, st1.blocks.get? id = some b ∧ b.isWall = false := by
  obtain ⟨⟨-, hpi, -⟩, -⟩ := runProgram_inv h
  exact hpi.1

/-- Witness for C5: the `rngA` run with no key presses. -/
theorem claim_C5_witness :
    runA0 = (some (), runA0.2) ∧
    ∀ pid ∈ runA0.2.paths, ∃ pd, runA0.2.pathHeap.get? pid = some pd ∧
      ∀ id ∈ pd.subPath, ∃ b, runA0.2.blocks.get? id = some b ∧ b.isWall = false := by
  have h : runA0 = (some (), runA0.2) := by
    rw [← runA0_fst]
  exact ⟨h, claim_C5 h⟩

set_option maxRecDepth 100000 in
set_option maxHeartbeats 8000000 in
/-- C5 counterexample: after the five presses of `mvA`, the surviving main
path holds the consecutive references 35, 32 whose blocks carry the SAME
coordinates (both `(12, 2)` after the un-renumbered rebase), so the second
is not a grid-neighbour of the first. -/
theorem claim_C5_counterexample :
    runA5.1 = some () ∧
    runA5.2.paths = [0] ∧
    (runA5.2.pathHeap.getD 0 ⟨[], 0⟩).subPath.get? 0 = some 35 ∧
    (runA5.2.pathHeap.getD 0 ⟨[], 0⟩).subPath.get? 1 = some 32 ∧
    35 < runA5.2.blocks.length ∧ 32 < runA5.2.blocks.length ∧
    gridNbr (runA5.2.blocks.getD 35 (blkW 0 0)) (runA5.2.blocks.getD 32 (blkW 0 0)) = false := by
  decide

set_option maxRecDepth 100000 in
set_option maxHeartbeats 8000000 in
/-- C2 counterexample: after the five presses of `mvA` (two rebases), the
live main path still references block 35, which belongs to no row of the
surviving window — a dangling path reference survives the rebase. -/
theorem claim_C2_counterexample :
    runA5.1 = some () ∧ runA5.2.mainPathId = some 0 ∧ runA5.2.paths = [0] ∧
    35 ∈ (runA5.2.pathHeap.getD 0 ⟨[], 0⟩).subPath ∧
    35 ∉ runA5.2.mazeRows.flatten := by
  decide

set_option maxRecDepth 100000 in
set_option maxHeartbeats 8000000 in
/-- C3 counterexample: a `down` press on the initial state (character on
the bottom row) dereferences a row below the grid and CRASHES instead of
being rejected: out-of-bounds moves are not handled gracefully. -/
theorem claim_C3_counterexample :
    runA0.1 = some () ∧ (runProgram 4 1000 rngA [Mv.down]).1 = none :=
  ⟨runA0_fst, by decide⟩

/-- C6 (amended): after a rebase, every block of every row EXCEPT the
freshly created row 0 has its adjacency list rebuilt to the stated rule
(`resetAdjacentBlocks` iterates `i > 0` only).  The full-grid reading of
claim C6 is refuted by `claim_C6_counterexample`. -/
theorem claim_C6 {fuel : Nat} {st st1 : St} {u : Unit}
    (h : shiftMaze fuel st = (some u, st1)) :
    ∀ id ∈ (st1.mazeRows.drop 1).flatten,
      ∃ b, st1.blocks.get? id = some b ∧
        b.adjacentBlocks = ruleNeighborsD st1 b.rowIndex b.blockIndex :=
  fun id hid => shiftMaze_adjRuled h id hid

set_option maxRecDepth 100000 in
set_option maxHeartbeats 8000000 in
theorem shiftAfter3_fst : (shiftMaze 1000 stAfter3).1 = some () := by decide

/-- Witness for C6: `shiftMaze` on the reachable state `stAfter3`. -/
theorem claim_C6_witness :
    shiftMaze 1000 stAfter3 = (some (), (shiftMaze 1000 stAfter3).2) ∧
    ∀ id ∈ ((shiftMaze 1000 stAfter3).2.mazeRows.drop 1).flatten,
      ∃ b, (shiftMaze 1000 stAfter3).2.blocks.get? id = some b ∧
        b.adjacentBlocks =
          ruleNeighborsD (shiftMaze 1000 stAfter3).2 b.rowIndex b.blockIndex := by
  have h : shiftMaze 1000 stAfter3 = (some (), (shiftMaze 1000 stAfter3).2) := by
    rw [← shiftAfter3_fst]
  exact ⟨h, claim_C6 h⟩

set_option maxRecDepth 100000 in
set_option maxHeartbeats 8000000 in
/-- C6 counterexample: right after the rebase triggered by `mvA4`'s last
press, block 39 of the fresh row 0 keeps an EMPTY adjacency list although
the stated rule gives it two neighbours. -/
theorem claim_C6_counterexample :
    runA4.1 = some () ∧
    39 ∈ runA4.2.mazeRows.getD 0 [] ∧
    39 < runA4.2.blocks.length ∧
    (runA4.2.blocks.getD 39 (blkW 0 0)).adjacentBlocks = [] ∧
    ruleNeighborsD runA4.2 (runA4.2.blocks.getD 39 (blkW 0 0)).rowIndex
      (runA4.2.blocks.getD 39 (blkW 0 0)).blockIndex = [40, 0] := by
  decide

set_option maxRecDepth 100000 in
set_option maxHeartbeats 8000000 in
/-- C7 counterexample: one full generation pass on `rngC` (`n = 6`)
creates 12 paths with the source's aliased drain but only 11 with the
snapshot drain claim C7 describes: a seed enqueued by a second-generation
branch IS expanded within the same pass. -/
theorem claim_C7_counterexample :
    mpLive.1 = some () ∧ mpSnap.1 = some () ∧
    mpLive.2.pathHeap.length = 12 ∧ mpSnap.2.pathHeap.length = 11 := by
  decide

set_option maxRecDepth 100000 in
set_option maxHeartbeats 8000000 in
/-- C8 counterexample: the `rngB` run leaves a live branch path whose
`subPath` has length 2 while its `distance` cap is 0 — path length may
exceed the target length. -/
theorem claim_C8_counterexample :
    runB4.1 = some () ∧ runB4.2.paths = [0, 1] ∧
    (runB4.2.pathHeap.getD 1 ⟨[], 0⟩).subPath.length = 2 ∧
    (runB4.2.pathHeap.getD 1 ⟨[], 0⟩).distance = 0 ∧
    1 < runB4.2.pathHeap.length := by
  decide

/-- C10 (confirmed): in every state reached by a successful run the
character stands on a floor block. -/
theorem claim_C10 {n fuel : Nat} {rng : List Nat} {moves : List Mv} {st1 : St}
    (h : runProgram n fuel rng moves = (some (), st1)) :
    ∀ id, st1.character = some id →
      ∃ b, st1.blocks.get? id = some b ∧ b.isWall = false := by
  obtain ⟨⟨-, -, hcf⟩, -⟩ := runProgram_inv h
  intro id hid
  exact hcf id hid

/-- Witness for C10: the `rngA` run with no key presses. -/
theorem claim_C10_witness :
    runA0 = (some (), runA0.2) ∧
    ∀ id, runA0.2.character = some id →
      ∃ b, runA0.2.blocks.get? id = some b ∧ b.isWall = false := by
  have h : runA0 = (some (), runA0.2) := by
    rw [← runA0_fst]
  exact ⟨h, claim_C10 h⟩

end Maze
